import Mathlib

/-!
# Account state objects of go-ethereum (`core/state/state_object.go`)

A shallow embedding of the `StateObject` layer: the account record, the storage
write cache, the lazily opened storage trie, the sticky database error and the
commit protocol.

Go values that are shared by reference and mutated in place (`*big.Int`,
`*trie.SecureTrie`) live in an explicit heap (`World`); every method takes the
world and returns the updated one.  Go maps are association lists read by first
match and written by `Storage.set`; their iteration order is the list order.
Digests are fixed-width byte strings; the two hash functions (Keccak-256 and the
root hash of a trie) are parameters collected in `Hasher`.
-/

namespace state

/-! ## Bytes and digests (package `common`) -/

/-- One octet. -/
abbrev Byte := Fin 256

/-- Reduction of a natural number to an octet (explicit wrap-around). -/
def Byte.ofNat (n : Nat) : Byte := ⟨n % 256, Nat.mod_lt n (by decide)⟩

/-- The constant `common.HashLength`. -/
def HashLength : Nat := 32

/-- The Go type `common.Hash`, an array of `HashLength` bytes. -/
structure Hash where
  bytes : List Byte
  size : bytes.length = HashLength
deriving DecidableEq

/-- The zero digest, Go's `common.Hash{}`. -/
def Hash.zero : Hash := ⟨List.replicate HashLength 0, List.length_replicate _ _⟩

/-- Modelled from the spec: `common.BytesToHash` (package `common` is not among the
sources): "decoding pads back to the fixed-width digest width".  As in
`Hash.SetBytes`, an input longer than the digest keeps its last `HashLength` bytes and a
shorter one is left-padded with zero bytes. -/
def BytesToHash (b : List Byte) : Hash :=
  ⟨List.replicate (HashLength - b.length) 0 ++ b.drop (b.length - HashLength), by
    simp only [List.length_append, List.length_replicate, List.length_drop]; omega⟩

/-- The Go call `bytes.TrimLeft(b, "\x00")`: drop the leading zero bytes. -/
def TrimLeft (b : List Byte) : List Byte := b.dropWhile (fun x => x = 0)

/-- The Go call `bytes.Equal`: byte-wise equality (a nil slice equals an empty one). -/
def bytesEqual (a b : List Byte) : Bool := decide (a = b)

/-- Lower-case hexadecimal rendering of a byte string, the `%x` verb of `fmt`. -/
def hex (b : List Byte) : String :=
  String.mk (b.flatMap fun x => [Nat.digitChar (x.val / 16), Nat.digitChar (x.val % 16)])

/-! ## Canonical codec for byte strings (package `rlp`) -/

/-- Big-endian digits of a number, most significant first, no leading zero;
`fuel` bounds the number of digits. -/
def putintAux : Nat → Nat → List Byte
  | 0, _ => []
  | fuel + 1, n => if n = 0 then [] else putintAux fuel (n / 256) ++ [Byte.ofNat n]

/-- Minimal big-endian representation of a length. -/
def putint (n : Nat) : List Byte := putintAux n n

/-- Big-endian value of a byte string. -/
def readUint (bs : List Byte) : Nat := bs.foldl (fun acc b => acc * 256 + b.val) 0

/-- Modelled from the spec: `rlp.EncodeToBytes` on a byte string (package `rlp` is not
among the sources), the "canonical byte encoding for values written to the trie":
a single byte below `0x80` is its own encoding, a string shorter than 56 bytes is
prefixed with `0x80 + length`, a longer one with `0xB7 + length of the length`
followed by the big-endian length. -/
def rlpEncodeBytes (b : List Byte) : List Byte :=
  match b with
  | [x] => if x.val < 0x80 then [x] else [Byte.ofNat 0x81, x]
  | _ =>
    if b.length < 56 then Byte.ofNat (0x80 + b.length) :: b
    else Byte.ofNat (0xB7 + (putint b.length).length) :: (putint b.length ++ b)

/-- Modelled from the spec: `rlp.DecodeBytes(b, &ret)` for `ret []byte` (package `rlp`
is not among the sources).  The result is the content of `ret` after the call; the
caller ignores the returned error, and `ret` stays empty when decoding fails (empty
input, a list, a non-canonical size, a size beyond the input).  Trailing bytes after
the first value are an error that is raised after `ret` was set. -/
def rlpDecodeBytes (b : List Byte) : List Byte :=
  match b with
  | [] => []
  | h :: rest =>
    if h.val < 0x80 then [h]
    else if h.val < 0xB8 then
      let size := h.val - 0x80
      if rest.length < size then []
      else if size = 1 ∧ (rest.headD 0).val < 0x80 then []
      else rest.take size
    else if h.val < 0xC0 then
      let n := h.val - 0xB7
      let size := readUint (rest.take n)
      if rest.length < n then []
      else if (rest.headD 0).val = 0 then []
      else if size < 56 then []
      else if (rest.drop n).length < size then []
      else (rest.drop n).take size
    else []

/-! ## Hash functions -/

/-- The two hash functions the layer consumes, as parameters: `crypto.Keccak256` on byte
strings and the root hash of a trie, a function of the trie's contents. -/
structure Hasher where
  keccak256 : List Byte → List Byte
  trieRoot : List (List Byte × List Byte) → Hash

/-- The package variable `emptyCodeHash = crypto.Keccak256(nil)`. -/
def emptyCodeHash (H : Hasher) : List Byte := H.keccak256 []

/-! ## Storage trie (package `trie`) -/

/-- First binding of a key in an association list. -/
def lookupKey {κ β : Type} [DecidableEq κ] (key : κ) : List (κ × β) → Option β
  | [] => none
  | (k, v) :: rest => if key = k then some v else lookupKey key rest

/-- Modelled from the spec: point lookup of the TrieAdapter contract, on the list of
bindings of a trie. -/
def entriesGet (key : List Byte) (es : List (List Byte × List Byte)) : Option (List Byte) :=
  lookupKey key es

/-- Modelled from the spec: point update of the TrieAdapter contract: insertion of a
binding into the key-ordered list of bindings, replacing the binding of an equal key. -/
def entriesUpdate (key value : List Byte) :
    List (List Byte × List Byte) → List (List Byte × List Byte)
  | [] => [(key, value)]
  | (k, v) :: rest =>
    if key < k then (key, value) :: (k, v) :: rest
    else if key = k then (key, value) :: rest
    else (k, v) :: entriesUpdate key value rest

/-- Modelled from the spec: point delete of the TrieAdapter contract. -/
def entriesDelete (key : List Byte) (es : List (List Byte × List Byte)) :
    List (List Byte × List Byte) :=
  es.filter (fun e => e.1 ≠ key)

/-- Strictly increasing key order of a list of trie entries. -/
def entriesSorted (es : List (List Byte × List Byte)) : Prop :=
  es.Pairwise (fun a b => a.1 < b.1)

/-- Modelled from the spec: the TrieAdapter contract (package `trie` is not among the
sources): "point lookup, point update, point delete, ordered iteration, pure root-hash
computation, and a transactional commit".  A trie is the list of its bindings in key
order; key hashing of the secure trie is internal to the collaborator and `GetKey`
gives back the key a binding was stored under. -/
structure SecureTrie where
  entries : List (List Byte × List Byte)
deriving DecidableEq

/-- Canonical form of a trie: bindings in strictly increasing key order. -/
def SecureTrie.WF (t : SecureTrie) : Prop := entriesSorted t.entries

/-- The empty trie. -/
def SecureTrie.empty : SecureTrie := ⟨[]⟩

/-- Modelled from the spec: the method `Get` of the trie, "`get(key) -> bytes|absent`":
the stored bytes, nil when the key is absent. -/
def SecureTrie.Get (t : SecureTrie) (key : List Byte) : List Byte :=
  (entriesGet key t.entries).getD []

/-- Modelled from the spec: the method `Delete` of the trie, "`delete(key)`". -/
def SecureTrie.Delete (t : SecureTrie) (key : List Byte) : SecureTrie :=
  ⟨entriesDelete key t.entries⟩

/-- Modelled from the spec: the method `Update` of the trie, "`update(key,
encodedValue)`"; as in package `trie`, an empty value deletes the key. -/
def SecureTrie.Update (t : SecureTrie) (key value : List Byte) : SecureTrie :=
  if value = [] then t.Delete key else ⟨entriesUpdate key value t.entries⟩

/-- Modelled from the spec: the method `Hash` of the trie, "`hash() -> digest` (pure)":
the root digest, a function of the contents. -/
def SecureTrie.Hash (H : Hasher) (t : SecureTrie) : Hash := H.trieRoot t.entries

/-- Modelled from the spec: the iterator of the trie, "ordered sequence of (key,
value), finite": the bindings in the trie's order, each key as `GetKey` returns it. -/
def SecureTrie.Iterator (t : SecureTrie) : List (List Byte × List Byte) := t.entries

/-- Modelled from the spec: the backing store behind `trie.Database` and
`trie.DatabaseWriter` (package `ethdb` and the node layout are outside the core):
committed tries by root digest, byte blobs (contract code) by key, and an optional
fault that makes every write fail. -/
structure Database where
  tries : List (Hash × List (List Byte × List Byte))
  blobs : List (List Byte × List Byte)
  writeFault : Option String
deriving DecidableEq

/-- Modelled from the spec: the method `Get` of the backing code store: the blob and
no error, or nil and an error. -/
def Database.Get (db : Database) (key : List Byte) : Option (List Byte) × Option String :=
  match lookupKey key db.blobs with
  | some v => (some v, none)
  | none => (none, some "not found")

/-- Modelled from the spec: `trie.NewSecure(root, db)`.  The zero digest and the root
of the empty trie open an empty trie without touching the store; any other root must
resolve in the store, otherwise the open fails ("trie failed to open at given root"). -/
def NewSecure (H : Hasher) (root : Hash) (db : Database) : Except String SecureTrie :=
  if root = Hash.zero ∨ root = H.trieRoot [] then .ok SecureTrie.empty
  else
    match lookupKey root db.tries with
    | some es => .ok ⟨es⟩
    | none => .error ("missing trie node " ++ hex root.bytes)

/-- Modelled from the spec: `CommitTo(writer) -> (digest, error)`, "persisting all
modified nodes as one logical unit": on a faulty writer nothing is written and the
error is returned, otherwise the contents are stored under their root digest. -/
def SecureTrie.CommitTo (H : Hasher) (t : SecureTrie) (dbw : Database) :
    (state.Hash × Option String) × Database :=
  match dbw.writeFault with
  | some e => ((Hash.zero, some e), dbw)
  | none => ((t.Hash H, none), { dbw with tries := (t.Hash H, t.entries) :: dbw.tries })

/-! ## The heap -/

/-- An address in the heap. -/
abbrev Ptr := Nat

/-- The mutable Go values shared by reference: the `big.Int` cells, the
`trie.SecureTrie` cells, and the trace of keys requested from the code store. -/
structure World where
  ints : List Int
  tries : List SecureTrie
  dbReads : List (List Byte)
deriving DecidableEq

/-- Value of the `big.Int` at an address. -/
def World.intAt (w : World) (p : Ptr) : Int := w.ints.getD p 0

/-- The Go expression `new(big.Int)` followed by setting a value: a fresh cell. -/
def World.newInt (w : World) (v : Int) : Ptr × World :=
  (w.ints.length, { w with ints := w.ints ++ [v] })

/-- In-place assignment of a `big.Int`, the method `(*big.Int).Set` and its kin. -/
def World.setInt (w : World) (p : Ptr) (v : Int) : World :=
  { w with ints := w.ints.set p v }

/-- The trie at an address. -/
def World.trieAt (w : World) (p : Ptr) : SecureTrie := w.tries.getD p SecureTrie.empty

/-- A fresh trie cell. -/
def World.newTrie (w : World) (t : SecureTrie) : Ptr × World :=
  (w.tries.length, { w with tries := w.tries ++ [t] })

/-- In-place replacement of the contents of a trie cell. -/
def World.setTrie (w : World) (p : Ptr) (t : SecureTrie) : World :=
  { w with tries := w.tries.set p t }

/-- Every trie of the heap is in canonical form. -/
def World.WF (w : World) : Prop := ∀ t ∈ w.tries, SecureTrie.WF t

/-- Every trie of the store is in canonical form. -/
def Database.WF (db : Database) : Prop := ∀ e ∈ db.tries, entriesSorted e.2

/-- The store is content-addressed: what it holds under a root has that root. -/
def Database.Sound (H : Hasher) (db : Database) : Prop :=
  ∀ r es, lookupKey r db.tries = some es → H.trieRoot es = r

/-- No contents held by the store collides with the contents `es` under the root hash
(collision resistance, for the tries at hand). -/
def Database.CollisionFree (H : Hasher) (db : Database)
    (es : List (List Byte × List Byte)) : Prop :=
  ∀ r es', lookupKey r db.tries = some es' → H.trieRoot es' = H.trieRoot es → es' = es

/-! ## Storage cache -/

/-- The Go type `Storage`, a `map[common.Hash]common.Hash`. -/
abbrev Storage := List (Hash × Hash)

/-- Map read `value, exists := self[key]`. -/
def Storage.get (self : Storage) (key : Hash) : Option Hash := lookupKey key self

/-- Map write `self[key] = value`. -/
def Storage.set (self : Storage) (key value : Hash) : Storage :=
  (key, value) :: self.filter (fun e => e.1 ≠ key)

/-- The keys of the map. -/
def Storage.keys (self : Storage) : List Hash := self.map Prod.fst

/-- A Go map holds each key once. -/
def Storage.WF (self : Storage) : Prop := (Storage.keys self).Nodup

/-- The method `Storage.Copy`: a new map filled entry by entry. -/
def Storage.Copy (self : Storage) : Storage :=
  self.foldl (fun cpy e => Storage.set cpy e.1 e.2) []

/-! ## Accounts and state objects -/

/-- The Go type `Account`.  `Balance` is a `*big.Int` (nil or an address), `CodeHash`
a byte slice (nil or bytes), `codeSize` an `*int`: its cells are written only when
freshly allocated, so the cell is kept by value. -/
structure Account where
  Nonce : Nat
  Balance : Option Ptr
  Root : Hash
  CodeHash : Option (List Byte)
  codeSize : Option Nat
deriving DecidableEq

/-- The Go type `common.Address`, kept as its bytes. -/
abbrev Address := List Byte

/-- The Go type `JournalEntry`. -/
structure JournalEntry where
  Acc : Account
  AccAddr : Address
  Root : Hash
deriving DecidableEq

/-- The Go type `StateObject`.  `dbErr` is nil or an error message, `trie` nil or the
address of the storage trie, `code` nil or the loaded bytes. -/
structure StateObject where
  address : Address
  data : Account
  dbErr : Option String
  trie : Option Ptr
  code : Option (List Byte)
  storage : Storage
  dirty : Bool
  dirtyCode : Bool
  remove : Bool
  deleted : Bool
deriving DecidableEq

/-- The function `CopyAccount`. -/
def CopyAccount (acc : Account) (w : World) : Account × World :=
  let newAcc : Account :=
    { Nonce := acc.Nonce, CodeHash := acc.CodeHash, Root := acc.Root,
      codeSize := some 0, Balance := none }
  let r : Account × World :=
    match acc.Balance with
    | some p => ({ newAcc with Balance := some (w.newInt (w.intAt p)).1 }, (w.newInt (w.intAt p)).2)
    | none => (newAcc, w)
  match acc.codeSize with
  | some n => ({ r.1 with codeSize := some n }, r.2)
  | none => r

/-- The function `NewJournalEntry`. -/
def NewJournalEntry (acc : Account) (addr : Address) (root : Hash) (w : World) :
    JournalEntry × World :=
  ({ Acc := (CopyAccount acc w).1, AccAddr := addr, Root := root }, (CopyAccount acc w).2)

/-- The function `NewObject`. -/
def NewObject (H : Hasher) (address : Address) (data : Account) (w : World) :
    StateObject × World :=
  let r : Option Ptr × World :=
    match data.Balance with
    | none => (some (w.newInt 0).1, (w.newInt 0).2)
    | some p => (some p, w)
  let codeHash : Option (List Byte) :=
    match data.CodeHash with
    | none => some (emptyCodeHash H)
    | some c => some c
  ({ address := address,
     data := { data with Balance := r.1, CodeHash := codeHash },
     dbErr := none, trie := none, code := none, storage := [],
     dirty := false, dirtyCode := false, remove := false, deleted := false }, r.2)

namespace StateObject

/-- The method `setError`: remembers the first non-nil error it is called with. -/
def setError (self : StateObject) (err : Option String) : StateObject :=
  match self.dbErr with
  | none => { self with dbErr := err }
  | some _ => self

/-- The method `MarkForDeletion` (the log line is not modelled). -/
def MarkForDeletion (self : StateObject) : StateObject :=
  { self with remove := true, dirty := true }

/-- The method `initTrie`. -/
def initTrie (H : Hasher) (db : Database) (c : StateObject) (w : World) :
    StateObject × World :=
  match c.trie with
  | some _ => (c, w)
  | none =>
    match NewSecure H c.data.Root db with
    | .ok t => ({ c with trie := some (w.newTrie t).1 }, (w.newTrie t).2)
    | .error err =>
      let t : SecureTrie :=
        match NewSecure H Hash.zero db with
        | .ok t0 => t0
        | .error _ => SecureTrie.empty
      (setError { c with trie := some (w.newTrie t).1 }
        (some ("can't create storage trie: " ++ err)), (w.newTrie t).2)

/-- The storage trie behind the handle of an object (after `initTrie` the handle is set). -/
def trieOf (self : StateObject) (w : World) : SecureTrie :=
  match self.trie with
  | some p => w.trieAt p
  | none => SecureTrie.empty

/-- The method `GetState`: the value, the object and the world after the call. -/
def GetState (H : Hasher) (db : Database) (self : StateObject) (key : Hash) (w : World) :
    Hash × StateObject × World :=
  match Storage.get self.storage key with
  | some value => (value, self, w)
  | none =>
    let r := initTrie H db self w
    let ret := rlpDecodeBytes ((trieOf r.1 r.2).Get key.bytes)
    let value := BytesToHash ret
    if value ≠ Hash.zero then
      (value, { r.1 with storage := Storage.set r.1.storage key value }, r.2)
    else (value, r.1, r.2)

/-- The method `SetState`. -/
def SetState (self : StateObject) (key value : Hash) : StateObject :=
  { self with storage := Storage.set self.storage key value, dirty := true }

/-- One round of the loop of `updateTrie`: a zero value deletes the key, any other
value is stored as the encoding of its bytes without leading zeros. -/
def flushEntry (t : SecureTrie) (e : Hash × Hash) : SecureTrie :=
  if e.2 = Hash.zero then t.Delete e.1.bytes
  else t.Update e.1.bytes (rlpEncodeBytes (TrimLeft e.2.bytes))

/-- The method `updateTrie`: the trie cell of the object is rewritten in place. -/
def updateTrie (H : Hasher) (db : Database) (self : StateObject) (w : World) :
    StateObject × World :=
  let r := initTrie H db self w
  match r.1.trie with
  | some p => (r.1, r.2.setTrie p (r.1.storage.foldl flushEntry (r.2.trieAt p)))
  | none => r

/-- The method `UpdateRoot`. -/
def UpdateRoot (H : Hasher) (db : Database) (self : StateObject) (w : World) :
    StateObject × World :=
  let r := updateTrie H db self w
  ({ r.1 with data := { r.1.data with Root := (trieOf r.1 r.2).Hash H } }, r.2)

/-- The method `CommitTrie`: the returned error (nil on success), the object, the
world and the writer after the call (the diagnostic print is not modelled). -/
def CommitTrie (H : Hasher) (db : Database) (dbw : Database) (self : StateObject)
    (w : World) : Option String × StateObject × World × Database :=
  let r := updateTrie H db self w
  match r.1.dbErr with
  | some e => (some e, r.1, r.2, dbw)
  | none =>
    let c := (trieOf r.1 r.2).CommitTo H dbw
    match c.1.2 with
    | none => (none, { r.1 with data := { r.1.data with Root := c.1.1 } }, r.2, c.2)
    | some err => (some err, r.1, r.2, c.2)

/-- The method `Balance`: the handle of the balance. -/
def Balance (self : StateObject) : Option Ptr := self.data.Balance

/-- The method `Nonce`. -/
def Nonce (self : StateObject) : Nat := self.data.Nonce

/-- The method `CodeHash`. -/
def CodeHash (self : StateObject) : Option (List Byte) := self.data.CodeHash

/-- The method `Address`. -/
def Address (self : StateObject) : state.Address := self.address

/-- The integer behind the balance handle (zero for a nil handle). -/
def balanceValue (self : StateObject) (w : World) : Int :=
  match self.data.Balance with
  | some p => w.intAt p
  | none => 0

/-- The method `SetBalance`: the object keeps the handle it is given. -/
def SetBalance (c : StateObject) (amount : Option Ptr) : StateObject :=
  { c with data := { c.data with Balance := amount }, dirty := true }

/-- The method `AddBalance`; `none` is the nil dereference of `big.Int.Add`. -/
def AddBalance (c : StateObject) (amount : Option Ptr) (w : World) :
    Option (StateObject × World) :=
  match c.data.Balance, amount with
  | some b, some a =>
    some (SetBalance c (some (w.newInt (w.intAt b + w.intAt a)).1),
      (w.newInt (w.intAt b + w.intAt a)).2)
  | _, _ => none

/-- The method `SubBalance`; `none` is the nil dereference of `big.Int.Sub`. -/
def SubBalance (c : StateObject) (amount : Option Ptr) (w : World) :
    Option (StateObject × World) :=
  match c.data.Balance, amount with
  | some b, some a =>
    some (SetBalance c (some (w.newInt (w.intAt b - w.intAt a)).1),
      (w.newInt (w.intAt b - w.intAt a)).2)
  | _, _ => none

/-- The method `Copy` (its database argument is unused); `none` is the nil dereference
of `Balance.Set` on an object whose balance handle is nil. -/
def Copy (H : Hasher) (_db : Database) (self : StateObject) (w : World) :
    Option (StateObject × World) :=
  let r := NewObject H self.address self.data w
  match r.1.data.Balance, self.data.Balance with
  | some p, some q =>
    some ({ r.1 with
              trie := self.trie, code := self.code,
              storage := Storage.Copy self.storage,
              remove := self.remove, dirty := self.dirty,
              dirtyCode := self.dirtyCode, deleted := self.deleted },
          r.2.setInt p (r.2.intAt q))
  | _, _ => none

/-- The method `Code`: the returned slice, the object and the world after the call. -/
def Code (H : Hasher) (db : Database) (self : StateObject) (w : World) :
    Option (List Byte) × StateObject × World :=
  match self.code with
  | some c => (some c, self, w)
  | none =>
    if bytesEqual (self.data.CodeHash.getD []) (emptyCodeHash H) then (none, self, w)
    else
      let r := db.Get (self.data.CodeHash.getD [])
      let w1 : World := { w with dbReads := w.dbReads ++ [self.data.CodeHash.getD []] }
      let self1 : StateObject :=
        match r.2 with
        | some err =>
          setError self (some ("can't load code hash " ++ hex (self.data.CodeHash.getD [])
            ++ ": " ++ err))
        | none => self
      (r.1, { self1 with code := r.1 }, w1)

/-- The method `CodeSize`. -/
def CodeSize (H : Hasher) (db : Database) (self : StateObject) (w : World) :
    Nat × StateObject × World :=
  match self.data.codeSize with
  | some n => (n, self, w)
  | none =>
    let r := Code H db self w
    ((r.1.getD []).length,
      { r.2.1 with data := { r.2.1.data with codeSize := some (r.1.getD []).length } }, r.2.2)

/-- The method `SetCode`. -/
def SetCode (H : Hasher) (self : StateObject) (code : Option (List Byte)) : StateObject :=
  { self with
      code := code,
      data := { self.data with
                  CodeHash := some (H.keccak256 (code.getD [])),
                  codeSize := some (code.getD []).length },
      dirty := true, dirtyCode := true }

/-- The method `SetNonce`. -/
def SetNonce (self : StateObject) (nonce : Nat) : StateObject :=
  { self with data := { self.data with Nonce := nonce }, dirty := true }

/-- The method `ForEachStorage`: the calls made to the callback, in order; `none` is
the nil dereference of `self.trie.Iterator()` on an object without a trie. -/
def ForEachStorage (self : StateObject) (w : World) : Option (List (Hash × Hash)) :=
  match self.trie with
  | none => none
  | some p =>
    some (self.storage ++
      ((w.trieAt p).Iterator.filterMap fun it =>
        match Storage.get self.storage (BytesToHash it.1) with
        | some _ => none
        | none => some (BytesToHash it.1, BytesToHash it.2)))

end StateObject

/-! ## Persisted account records -/

/-- Modelled from the spec: the Codec contract for account records, "`encode(AccountRecord)
-> bytes` / `decode(bytes) -> AccountRecord` must round-trip exactly" (the codec is not
among the sources).  A written record is kept as the value the codec returns on
decoding: the exported fields of `Account`, the balance by value. -/
structure AccountRecord where
  Nonce : Nat
  Balance : Int
  Root : Hash
  CodeHash : List Byte
deriving DecidableEq

/-- The method `EncodeRLP`, the Go call `rlp.Encode(w, c.data)`: the record of the
account as it stands (the unexported `codeSize` is not written). -/
def StateObject.EncodeRLP (c : StateObject) (w : World) : AccountRecord :=
  { Nonce := c.data.Nonce, Balance := c.balanceValue w, Root := c.data.Root,
    CodeHash := c.data.CodeHash.getD [] }

/-- Modelled from the spec: an account "decoded from a parent trie entry"; the decoder
allocates the balance. -/
def decodeAccount (r : AccountRecord) (w : World) : Account × World :=
  ({ Nonce := r.Nonce, Balance := some (w.newInt r.Balance).1, Root := r.Root,
     CodeHash := some r.CodeHash, codeSize := none }, (w.newInt r.Balance).2)

/-- The writing half of the end-to-end scenario of the spec: "create a fresh object,
`setBalance(100)`, `setNonce(1)`, `setState(K1, V1)`, `commitTrie`". -/
def endToEndCommit (H : Hasher) (db dbw : Database) (addr : Address) (K V : Hash)
    (w : World) : Option String × StateObject × World × Database :=
  let o := NewObject H addr
    { Nonce := 0, Balance := none, Root := Hash.zero, CodeHash := none, codeSize := none } w
  let amount := o.2.newInt 100
  StateObject.CommitTrie H db dbw
    (((o.1.SetBalance (some amount.1)).SetNonce 1).SetState K V) amount.2

/-- The reading half of the scenario: "load a new object" from the record and the
writer left by the commit. -/
def endToEndLoad (H : Hasher) (addr : Address)
    (c : Option String × StateObject × World × Database) : StateObject × World :=
  NewObject H addr (decodeAccount (c.2.1.EncodeRLP c.2.2.1) c.2.2.1).1
    (decodeAccount (c.2.1.EncodeRLP c.2.2.1) c.2.2.1).2

/-! ## Sample values

Concrete inputs on which the model is evaluated. -/

/-- A storage key. -/
def sampleKey : Hash := BytesToHash [1]

/-- A storage value with two significant bytes. -/
def sampleValue : Hash := BytesToHash [1, 2]

/-- The contents of a trie that binds `sampleKey` to `sampleValue`. -/
def sampleEntries : List (List Byte × List Byte) :=
  [(sampleKey.bytes, rlpEncodeBytes (TrimLeft sampleValue.bytes))]

/-- A pair of hash functions for evaluation: the root tells `sampleEntries` from every
other contents and otherwise depends on the number of bindings. -/
def sampleHasher : Hasher :=
  { keccak256 := fun b => b,
    trieRoot := fun es =>
      if es = sampleEntries then BytesToHash [2, 0]
      else BytesToHash [1, Byte.ofNat es.length] }

/-- An empty heap. -/
def sampleWorld : World := { ints := [], tries := [], dbReads := [] }

/-- An empty store without a write fault. -/
def sampleDb : Database := { tries := [], blobs := [], writeFault := none }

/-- The zero value of `Account`. -/
def sampleAccount : Account :=
  { Nonce := 0, Balance := none, Root := Hash.zero, CodeHash := none, codeSize := none }

/-- An address. -/
def sampleAddress : Address := List.replicate 20 0

/-- A new object whose trie has been opened by a first `GetState`, and its heap. -/
def sampleObject : StateObject × World :=
  ((StateObject.GetState sampleHasher sampleDb
      (NewObject sampleHasher sampleAddress sampleAccount sampleWorld).1 sampleKey
      (NewObject sampleHasher sampleAddress sampleAccount sampleWorld).2).2.1,
   (StateObject.GetState sampleHasher sampleDb
      (NewObject sampleHasher sampleAddress sampleAccount sampleWorld).1 sampleKey
      (NewObject sampleHasher sampleAddress sampleAccount sampleWorld).2).2.2)

/-- A second storage key. -/
def sampleKey2 : Hash := BytesToHash [2]

/-- The sample object after `SetState(sampleKey, sampleValue)`. -/
def sampleWritten : StateObject :=
  StateObject.SetState sampleObject.1 sampleKey sampleValue

/-- The sample object after writes to both sample keys and `UpdateRoot`, and its heap:
the cache and the trie hold both keys. -/
def sampleSynced : StateObject × World :=
  StateObject.UpdateRoot sampleHasher sampleDb
    (StateObject.SetState sampleWritten sampleKey2 sampleValue) sampleObject.2

/-- An object on the trie of `sampleSynced` whose cache holds `sampleKey` only. -/
def sampleReader : StateObject := sampleWritten

/-- A new object whose account names a root the store does not hold, and its heap. -/
def sampleBroken : StateObject × World :=
  NewObject sampleHasher sampleAddress { sampleAccount with Root := BytesToHash [9] }
    sampleWorld

/-- A store that holds `sampleEntries` under their root. -/
def sampleStore : Database :=
  { tries := [(BytesToHash [2, 0], sampleEntries)], blobs := [], writeFault := none }

/-- A new object whose account names a missing storage root and the hash of code the
store does not hold, and its heap. -/
def sampleBrokenCode : StateObject × World :=
  NewObject sampleHasher sampleAddress
    { sampleAccount with Root := BytesToHash [9], CodeHash := some [7] } sampleWorld

/-- The object of `sampleBroken` after `updateTrie`: the failure to open its trie is
recorded and an empty trie is bound; and its heap. -/
def sampleFailed : StateObject × World :=
  StateObject.updateTrie sampleHasher sampleDb sampleBroken.1 sampleBroken.2

/-- A store that holds three bytes of code under the key `[7]`. -/
def sampleCodeDb : Database :=
  { tries := [], blobs := [([7], [1, 2, 3])], writeFault := none }

/-- An account record that names the code under `[7]` and has no cached code size. -/
def sampleCodeAccount : Account :=
  { sampleAccount with CodeHash := some [7] }

/-- The object created from the `CopyAccount` of `sampleCodeAccount`, and its heap. -/
def sampleCopiedAccountObject : StateObject × World :=
  NewObject sampleHasher sampleAddress (CopyAccount sampleCodeAccount sampleWorld).1
    (CopyAccount sampleCodeAccount sampleWorld).2

/-! ## Sequences of code reads -/

/-- A call of `Code` or of `CodeSize`. -/
inductive CodeCall where
  | code
  | codeSize
deriving DecidableEq

/-- The object and the heap after one call of `Code` or `CodeSize`. -/
def StateObject.codeCall (H : Hasher) (db : Database) (r : StateObject × World) :
    CodeCall → StateObject × World
  | CodeCall.code => (StateObject.Code H db r.1 r.2).2
  | CodeCall.codeSize => (StateObject.CodeSize H db r.1 r.2).2

/-- The object and the heap after a sequence of `Code` and `CodeSize` calls. -/
def StateObject.codeCalls (H : Hasher) (db : Database) (r : StateObject × World)
    (calls : List CodeCall) : StateObject × World :=
  calls.foldl (StateObject.codeCall H db) r

/-- The code of the object needs no read of the store: it is loaded, or the code hash
is the hash of the empty code. -/
def StateObject.Settled (H : Hasher) (o : StateObject) : Prop :=
  o.code ≠ none ∨ bytesEqual (o.data.CodeHash.getD []) (emptyCodeHash H) = true

/-- No flag of `a` that is set is reset in `b`. -/
def flagsKept (a b : StateObject) : Prop :=
  (a.dirty = true → b.dirty = true) ∧ (a.dirtyCode = true → b.dirtyCode = true)
    ∧ (a.remove = true → b.remove = true)

/-! ## Reading a flush -/

/-- The trie `initTrie` binds an object to: the trie opened at the root, or the empty
trie when the open fails. -/
def openedTrie (H : Hasher) (root : Hash) (db : Database) : SecureTrie :=
  match NewSecure H root db with
  | .ok t => t
  | .error _ => SecureTrie.empty


/-- What one cache entry leaves in the trie under its key. -/
def flushValue (e : Hash × Hash) : Option (List Byte) :=
  if e.2 = Hash.zero then none else some (rlpEncodeBytes (TrimLeft e.2.bytes))

/-- The binding of a key after a flush, from its binding before: the last cache entry
of the key decides. -/
def flushGet (kb : List Byte) (s : Storage) (base : Option (List Byte)) :
    Option (List Byte) :=
  s.foldl (fun acc e => if e.1.bytes = kb then flushValue e else acc) base

end state

/-! # PKCS #7 padding of the key store (`crypto/key_store_passphrase.go`) -/

namespace crypto

/-- The Go constant `aes.BlockSize`. -/
def aesBlockSize : Nat := 16

/-- The function `PKCS7Pad`: `padding` copies of the byte `padding` are appended. -/
def PKCS7Pad (inp : List state.Byte) : List state.Byte :=
  let padding := 16 - (inp.length % 16)
  let padding := if padding = 0 then 16 else padding
  inp ++ List.replicate padding (state.Byte.ofNat padding)

/-- The function `PKCS7Unpad`; `none` is the nil slice.  The loop over
`i = len(in)-1, ..., len(in)-padding` is the check of `in[len(in)-1-j]` for
`j = 0, ..., padding-1`. -/
def PKCS7Unpad (inp : List state.Byte) : Option (List state.Byte) :=
  if inp.length = 0 then none
  else
    let padding := inp.getD (inp.length - 1) 0
    if padding.val > inp.length ∨ padding.val > aesBlockSize then none
    else if padding = 0 then none
    else if (List.range padding.val).all
        (fun j => decide (inp.getD (inp.length - 1 - j) 0 = padding)) then
      some (inp.take (inp.length - padding.val))
    else none

/-- The plaintext `StoreKey` encrypts, `PKCS7Pad(append(keyBytes, keyBytesHash...))`
with `keyBytesHash := Sha3(keyBytes)`; the hash function `Sha3` is a parameter. -/
def storeKeyPlaintext (Sha3 : List state.Byte → List state.Byte)
    (keyBytes : List state.Byte) : List state.Byte :=
  PKCS7Pad (keyBytes ++ Sha3 keyBytes)

/-- The steps of `DecryptKey` after the decryption, on the padded plaintext: unpad,
split off the last 32 bytes, compare the checksum.  The outer `none` is the run-time
panic of slicing a plaintext shorter than 32 bytes; `Except.error` carries the message
of the returned error, `Except.ok` the returned key bytes. -/
def decryptKeyPlaintext (Sha3 : List state.Byte → List state.Byte)
    (paddedPlainText : List state.Byte) : Option (Except String (List state.Byte)) :=
  match PKCS7Unpad paddedPlainText with
  | none => some (.error "Decryption failed: PKCS7Unpad failed after decryption")
  | some plainText =>
    if plainText.length < 32 then none
    else
      let keyBytes := plainText.take (plainText.length - 32)
      let keyBytesHash := plainText.drop (plainText.length - 32)
      if ¬ state.bytesEqual (Sha3 keyBytes) keyBytesHash then
        some (.error "Decryption failed: checksum mismatch")
      else some (.ok keyBytes)

end crypto

/-! # Counting semaphore (`common/counting_semaphore.go`) -/

namespace common

/-- Reduction to the range of `uint32` (explicit wrap-around). -/
def u32 (n : Nat) : Nat := n % 2 ^ 32

/-- The Go type `cntSema`: the two `uint32` fields (the condition variable is the
source of the wake-ups below). -/
structure cntSema where
  value : Nat
  capacity : Nat
deriving DecidableEq

/-- The package variable `errAcquireTimeout`. -/
def errAcquireTimeout : String := "acquire timeout"

/-- The function `NewCntSema`. -/
def NewCntSema (capacity : Nat) : cntSema := { capacity := capacity, value := capacity }

/-- The method `get`. -/
def cntSema.get (s : cntSema) : Nat := s.value

/-- The method `Release` run without interference: the compare-and-swap succeeds at
the first attempt.  The sum `v+n` is a `uint32` sum. -/
def cntSema.Release (s : cntSema) (n : Nat) : Option String × cntSema :=
  if u32 (s.value + n) > s.capacity then
    (some ("semaphore count " ++ toString (u32 (s.value + n)) ++ " would exceed capacity "
      ++ toString s.capacity ++ " after release of " ++ toString n), s)
  else (none, { s with value := u32 (s.value + n) })

/-- What ends a `cond.Wait()` of `Acquire`: the broadcast of a `Release(n)` run by
another goroutine, or the broadcast of the timer, which has set `expired`.  A broadcast
sent while the caller is not waiting yet ends no `Wait` and is no wake-up. -/
inductive Wake where
  | release (n : Nat)
  | expire
deriving DecidableEq

/-- The loop of `Acquire`, one round per wake-up: take `n` when the value allows it,
otherwise wait; woken by the timer return `errAcquireTimeout`, woken by a release go
round again.  `none`: no wake-up is left and the caller stays blocked. -/
def cntSema.acquireLoop (s : cntSema) (n : Nat) : List Wake → Option (Option String × cntSema)
  | [] =>
    if s.value ≥ n then some (none, { s with value := s.value - n }) else none
  | Wake.expire :: _ =>
    if s.value ≥ n then some (none, { s with value := s.value - n })
    else some (some errAcquireTimeout, s)
  | Wake.release k :: rest =>
    if s.value ≥ n then some (none, { s with value := s.value - n })
    else cntSema.acquireLoop (s.Release k).2 n rest

/-- The method `Acquire(n, timeout)`; the timeout decides where the timer stands among
the wake-ups. -/
def cntSema.Acquire (s : cntSema) (n : Nat) (wakes : List Wake) :
    Option (Option String × cntSema) :=
  if n > s.capacity then
    some (some ("requested amount " ++ toString n ++ " exceeds semaphore capacity "
      ++ toString s.capacity), s)
  else s.acquireLoop n wakes

/-- The semaphore as `Acquire` leaves it, its loop followed round by round as in
`acquireLoop`: at the return of the call, or, when no wake-up is left, where the caller
stays blocked. -/
def cntSema.acquireLoopState (s : cntSema) (n : Nat) : List Wake → cntSema
  | [] =>
    if s.value ≥ n then { s with value := s.value - n } else s
  | Wake.expire :: _ =>
    if s.value ≥ n then { s with value := s.value - n } else s
  | Wake.release k :: rest =>
    if s.value ≥ n then { s with value := s.value - n }
    else cntSema.acquireLoopState (s.Release k).2 n rest

/-- The semaphore after a call `Acquire(n, timeout)`, returned or blocked. -/
def cntSema.acquireState (s : cntSema) (n : Nat) (wakes : List Wake) : cntSema :=
  if n > s.capacity then s else s.acquireLoopState n wakes

/-- A call of one of the two methods that write the value. -/
inductive SemaCall where
  | acquire (n : Nat) (wakes : List Wake)
  | release (n : Nat)
deriving DecidableEq

/-- The semaphore after a call, whether it succeeds or fails. -/
def cntSema.step (s : cntSema) : SemaCall → cntSema
  | SemaCall.acquire n wakes => s.acquireState n wakes
  | SemaCall.release n => (s.Release n).2

/-- The semaphore after a sequence of calls. -/
def cntSema.run (s : cntSema) (calls : List SemaCall) : cntSema :=
  calls.foldl cntSema.step s

end common

/-! # Filter manager (`event/filter/old_filter.go`) -/

namespace filter

/-- Reduction to the range of a 64-bit Go `int` (explicit wrap-around). -/
def wrapInt (x : Int) : Int := (x + 2 ^ 63) % 2 ^ 64 - 2 ^ 63

/-- The Go type `FilterManager`: the event mux (an address), the next id and the map
from ids to filters (`*core.Filter`: nil or an address).  The mutex and the quit
channel are not modelled: every method below runs under the mutex. -/
structure FilterManager where
  eventMux : Nat
  filterId : Int
  filters : List (Int × Option Nat)
deriving DecidableEq

/-- The method `InstallFilter`: the id and the manager after the call. -/
def FilterManager.InstallFilter (self : FilterManager) (f : Option Nat) :
    Int × FilterManager :=
  (self.filterId,
    { self with
        filters := (self.filterId, f) :: self.filters.filter (fun e => e.1 ≠ self.filterId),
        filterId := wrapInt (self.filterId + 1) })

/-- The method `UninstallFilter`. -/
def FilterManager.UninstallFilter (self : FilterManager) (id : Int) : FilterManager :=
  { self with filters := self.filters.filter (fun e => e.1 ≠ id) }

/-- A call of one of the two mutating methods. -/
inductive Call where
  | install (f : Option Nat)
  | uninstall (id : Int)
deriving DecidableEq

/-- The manager after a call. -/
def FilterManager.step (s : FilterManager) : Call → FilterManager
  | Call.install f => (s.InstallFilter f).2
  | Call.uninstall id => s.UninstallFilter id

/-- The manager after a sequence of calls. -/
def FilterManager.run (s : FilterManager) (calls : List Call) : FilterManager :=
  calls.foldl FilterManager.step s

end filter

/-! # Signature checks (`crypto/secp256k1/secp256.go`) -/

namespace secp256k1

/-- The function `VerifySignatureValidity`; a nil slice is the empty list. -/
def VerifySignatureValidity (sig : List state.Byte) : Bool :=
  if sig.length ≠ 65 then false
  else if (sig.getD 32 0).val &&& 0x80 = 0x80 then false
  else if (sig.getD 64 0).val ≥ 4 then false
  else true

/-- The function `RecoverPubkey`.  The C routine `secp256k1_ecdsa_recover_compact` is a
parameter that gives the return code, the public key buffer and its length. -/
def RecoverPubkey (recoverCompact : List state.Byte → List state.Byte → Nat × List state.Byte × Nat)
    (msg sig : List state.Byte) : Except String (List state.Byte) :=
  if sig.length ≠ 65 then .error "Invalid signature length"
  else if (recoverCompact msg sig).1 = 0 then .error "Failed to recover public key"
  else if (recoverCompact msg sig).2.2 ≠ 65 then
    .error "Impossible Error: Invalid recovered public key length"
  else .ok (recoverCompact msg sig).2.1

/-- The function `VerifySignature`: the returned error, `none` for nil.  The three
slices are nil (`none`) or bytes. -/
def VerifySignature (recoverCompact : List state.Byte → List state.Byte → Nat × List state.Byte × Nat)
    (msg sig pubkey1 : Option (List state.Byte)) : Option String :=
  match msg, sig, pubkey1 with
  | some m, some s, some p1 =>
    if s.length ≠ 65 then some "invalid signature length"
    else if p1.length ≠ 65 then some "Invalid public key length"
    else if (s.getD 32 0).val &&& 0x80 = 0x80 then some "Signature not malleable"
    else if (s.getD 64 0).val ≥ 4 then some "Recover byte invalid"
    else
      match RecoverPubkey recoverCompact m s with
      | .error err => some err
      | .ok pubkey2 =>
        if pubkey2.length ≠ 65 then some "Invalid recovered public key length"
        else if ¬ state.bytesEqual p1 pubkey2 then
          some "Public key does not match recovered public key"
        else none
  | _, _, _ => some "inputs must be non-nil"

end secp256k1

namespace state

/-! ## Basic facts -/

theorem lookupKey_cons_self {κ β : Type} [DecidableEq κ] (k : κ) (v : β) (l : List (κ × β)) :
    lookupKey k ((k, v) :: l) = some v := by
  simp [lookupKey]

theorem lookupKey_cons_ne {κ β : Type} [DecidableEq κ] {k k' : κ} (v : β) (l : List (κ × β))
    (h : k ≠ k') : lookupKey k ((k', v) :: l) = lookupKey k l := by
  simp [lookupKey, h]

theorem lookupKey_filter_self {κ β : Type} [DecidableEq κ] (k : κ) (l : List (κ × β)) :
    lookupKey k (l.filter (fun e => e.1 ≠ k)) = none := by
  induction l with
  | nil => rfl
  | cons e l ih =>
    obtain ⟨k', v⟩ := e
    by_cases h : k' = k
    · simpa [List.filter_cons, h] using ih
    · have h' : k ≠ k' := fun e => h e.symm
      simpa [List.filter_cons, h, lookupKey, h'] using ih

theorem lookupKey_filter_ne {κ β : Type} [DecidableEq κ] {k k' : κ} (l : List (κ × β))
    (h : k' ≠ k) : lookupKey k' (l.filter (fun e => e.1 ≠ k)) = lookupKey k' l := by
  induction l with
  | nil => rfl
  | cons e l ih =>
    obtain ⟨k0, v⟩ := e
    by_cases h0 : k0 = k
    · simpa [List.filter_cons, h0, lookupKey, h] using ih
    · by_cases h1 : k' = k0
      · simp [List.filter_cons, h0, lookupKey, h1]
      · simpa [List.filter_cons, h0, lookupKey, h1] using ih

theorem lookupKey_eq_none_iff {κ β : Type} [DecidableEq κ] (k : κ) (l : List (κ × β)) :
    lookupKey k l = none ↔ k ∉ l.map Prod.fst := by
  induction l with
  | nil => simp [lookupKey]
  | cons e l ih =>
    obtain ⟨k0, v⟩ := e
    by_cases h : k = k0
    · simp [lookupKey, h]
    · simp [lookupKey, h, ih]

theorem entriesGet_update_self (k v : List Byte) (es : List (List Byte × List Byte)) :
    entriesGet k (entriesUpdate k v es) = some v := by
  induction es with
  | nil => simp [entriesGet, entriesUpdate, lookupKey]
  | cons e es ih =>
    obtain ⟨k0, v0⟩ := e
    unfold entriesUpdate
    by_cases h1 : k < k0
    · simp [h1, entriesGet, lookupKey]
    · by_cases h2 : k = k0
      · simp [h2, entriesGet, lookupKey]
      · simp only [h1, h2, if_false]
        simpa [entriesGet, lookupKey, h2] using ih

theorem entriesGet_update_ne {k k' : List Byte} (v : List Byte)
    (es : List (List Byte × List Byte)) (h : k' ≠ k) :
    entriesGet k' (entriesUpdate k v es) = entriesGet k' es := by
  induction es with
  | nil => simp [entriesGet, entriesUpdate, lookupKey, h]
  | cons e es ih =>
    obtain ⟨k0, v0⟩ := e
    unfold entriesUpdate
    by_cases h1 : k < k0
    · simp [h1, entriesGet, lookupKey, h]
    · by_cases h2 : k = k0
      · subst h2
        simp [entriesGet, lookupKey, h]
      · simp only [h1, h2, if_false]
        by_cases h3 : k' = k0
        · simp [entriesGet, lookupKey, h3]
        · simpa [entriesGet, lookupKey, h3] using ih

theorem entriesSorted_update (k v : List Byte) (es : List (List Byte × List Byte))
    (h : entriesSorted es) : entriesSorted (entriesUpdate k v es) := by
  induction es with
  | nil => simp [entriesSorted, entriesUpdate]
  | cons e es ih =>
    obtain ⟨k0, v0⟩ := e
    have hs := h
    unfold entriesSorted at hs
    rw [List.pairwise_cons] at hs
    unfold entriesUpdate
    by_cases h1 : k < k0
    · simp only [h1, if_true]
      unfold entriesSorted
      rw [List.pairwise_cons]
      refine ⟨?_, h⟩
      intro a ha
      rcases List.mem_cons.1 ha with rfl | ha
      · exact h1
      · exact lt_trans h1 (hs.1 a ha)
    · by_cases h2 : k = k0
      · subst h2
        simp only [h1, if_false, if_true]
        unfold entriesSorted
        rw [List.pairwise_cons]
        exact ⟨hs.1, hs.2⟩
      · simp only [h1, h2, if_false]
        have hlt : k0 < k := lt_of_le_of_ne (not_lt.1 h1) (fun e => h2 e.symm)
        unfold entriesSorted
        rw [List.pairwise_cons]
        refine ⟨?_, ih hs.2⟩
        intro a ha
        have hget : ∀ (l : List (List Byte × List Byte)), a ∈ entriesUpdate k v l →
            a = (k, v) ∨ a ∈ l := by
          intro l
          induction l with
          | nil => intro hm; simpa [entriesUpdate] using hm
          | cons e l ihl =>
            obtain ⟨k1, v1⟩ := e
            unfold entriesUpdate
            intro hm
            by_cases c1 : k < k1
            · simp only [c1, if_true] at hm
              rcases List.mem_cons.1 hm with hm | hm
              · exact Or.inl hm
              · exact Or.inr hm
            · by_cases c2 : k = k1
              · rw [if_neg c1, if_pos c2] at hm
                rcases List.mem_cons.1 hm with hm | hm
                · exact Or.inl hm
                · exact Or.inr (List.mem_cons_of_mem _ hm)
              · simp only [c1, c2, if_false] at hm
                rcases List.mem_cons.1 hm with hm | hm
                · exact Or.inr (by rw [hm]; exact List.mem_cons_self _ _)
                · rcases ihl hm with hm | hm
                  · exact Or.inl hm
                  · exact Or.inr (List.mem_cons_of_mem _ hm)
        rcases hget es ha with rfl | ha
        · exact hlt
        · exact hs.1 a ha

theorem entriesSorted_delete (k : List Byte) (es : List (List Byte × List Byte))
    (h : entriesSorted es) : entriesSorted (entriesDelete k es) :=
  List.Pairwise.filter _ h

theorem entriesGet_none_of_sorted_cons {k0 v0 : List Byte} {es : List (List Byte × List Byte)}
    (h : entriesSorted ((k0, v0) :: es)) {k : List Byte} (hk : k ≤ k0) :
    entriesGet k es = none := by
  unfold entriesSorted at h
  rw [List.pairwise_cons] at h
  rw [entriesGet, lookupKey_eq_none_iff]
  intro hm
  obtain ⟨a, ha, rfl⟩ := List.mem_map.1 hm
  exact absurd (h.1 a ha) (not_lt.2 hk)

theorem entries_ext (es1 es2 : List (List Byte × List Byte))
    (h1 : entriesSorted es1) (h2 : entriesSorted es2)
    (h : ∀ k, entriesGet k es1 = entriesGet k es2) : es1 = es2 := by
  induction es1 generalizing es2 with
  | nil =>
    cases es2 with
    | nil => rfl
    | cons e es2 =>
      obtain ⟨k, v⟩ := e
      have := h k
      simp [entriesGet, lookupKey] at this
  | cons e es1 ih =>
    obtain ⟨k1, v1⟩ := e
    cases es2 with
    | nil =>
      have := h k1
      simp [entriesGet, lookupKey] at this
    | cons e2 es2 =>
      obtain ⟨k2, v2⟩ := e2
      have hk : k1 = k2 := by
        rcases lt_trichotomy k1 k2 with hlt | heq | hgt
        · have hn := entriesGet_none_of_sorted_cons h2 (le_of_lt hlt)
          have := h k1
          simp [entriesGet, lookupKey, ne_of_lt hlt] at this hn
          rw [hn] at this
          cases this
        · exact heq
        · have hn := entriesGet_none_of_sorted_cons h1 (le_of_lt hgt)
          have := h k2
          simp [entriesGet, lookupKey, ne_of_lt hgt] at this hn
          rw [hn] at this
          cases this
      subst hk
      have hv : v1 = v2 := by
        have := h k1
        simpa [entriesGet, lookupKey] using this
      subst hv
      have ht : es1 = es2 := by
        apply ih es2
        · exact (List.pairwise_cons.1 h1).2
        · exact (List.pairwise_cons.1 h2).2
        · intro k
          by_cases hkk : k = k1
          · subst hkk
            rw [entriesGet_none_of_sorted_cons h1 (le_refl _),
              entriesGet_none_of_sorted_cons h2 (le_refl _)]
          · have := h k
            simpa [entriesGet, lookupKey, hkk] using this
      rw [ht]
theorem Storage.get_set_self (s : Storage) (k v : Hash) :
    Storage.get (Storage.set s k v) k = some v := by
  simp [Storage.get, Storage.set, lookupKey]

theorem Storage.get_set_ne (s : Storage) {k k' : Hash} (v : Hash) (h : k' ≠ k) :
    Storage.get (Storage.set s k v) k' = Storage.get s k' := by
  simp only [Storage.get, Storage.set]
  rw [lookupKey_cons_ne _ _ h, lookupKey_filter_ne _ h]

namespace StateObject

theorem initTrie_data (H : Hasher) (db : Database) (c : StateObject) (w : World) :
    (initTrie H db c w).1.data = c.data := by
  unfold initTrie
  cases c.trie with
  | some p => rfl
  | none =>
    cases NewSecure H c.data.Root db with
    | ok t => rfl
    | error err =>
      simp only [setError]
      cases c.dbErr <;> rfl

theorem initTrie_storage (H : Hasher) (db : Database) (c : StateObject) (w : World) :
    (initTrie H db c w).1.storage = c.storage := by
  unfold initTrie
  cases c.trie with
  | some p => rfl
  | none =>
    cases NewSecure H c.data.Root db with
    | ok t => rfl
    | error err =>
      simp only [setError]
      cases c.dbErr <;> rfl

theorem initTrie_dbErr_of_some (H : Hasher) (db : Database) (c : StateObject) (w : World)
    (e : String) (h : c.dbErr = some e) : (initTrie H db c w).1.dbErr = some e := by
  unfold initTrie
  cases c.trie with
  | some p => exact h
  | none =>
    cases NewSecure H c.data.Root db with
    | ok t => exact h
    | error err => simp [setError, h]

theorem updateTrie_fst (H : Hasher) (db : Database) (self : StateObject) (w : World) :
    (updateTrie H db self w).1 = (initTrie H db self w).1 := by
  simp only [updateTrie]
  split <;> rfl

theorem updateTrie_data (H : Hasher) (db : Database) (self : StateObject) (w : World) :
    (updateTrie H db self w).1.data = self.data := by
  rw [updateTrie_fst, initTrie_data]

theorem updateTrie_dbErr_of_some (H : Hasher) (db : Database) (self : StateObject)
    (w : World) (e : String) (h : self.dbErr = some e) :
    (updateTrie H db self w).1.dbErr = some e := by
  rw [updateTrie_fst]; exact initTrie_dbErr_of_some H db self w e h

end StateObject

/-! ## Codec facts -/

theorem Hash.ext_bytes {a b : Hash} (h : a.bytes = b.bytes) : a = b := by
  cases a; cases b; simp at h; subst h; rfl

theorem Hash.bytes_ne {a b : Hash} (h : a ≠ b) : a.bytes ≠ b.bytes :=
  fun e => h (Hash.ext_bytes e)

theorem pad_TrimLeft (l : List Byte) :
    List.replicate (l.length - (TrimLeft l).length) 0 ++ TrimLeft l = l := by
  induction l with
  | nil => rfl
  | cons x l ih =>
    by_cases hx : x = 0
    · subst hx
      have hlen : (TrimLeft l).length ≤ l.length := by
        unfold TrimLeft
        exact (List.dropWhile_sublist _).length_le
      have e : TrimLeft ((0 : Byte) :: l) = TrimLeft l := by
        simp [TrimLeft, List.dropWhile_cons]
      rw [e]
      have e2 : ((0 : Byte) :: l).length - (TrimLeft l).length
          = (l.length - (TrimLeft l).length) + 1 := by
        simp only [List.length_cons]; omega
      rw [e2, List.replicate_succ, List.cons_append, ih]
    · have e : TrimLeft (x :: l) = x :: l := by
        simp [TrimLeft, List.dropWhile_cons, hx]
      rw [e]
      simp

theorem TrimLeft_length_le (l : List Byte) : (TrimLeft l).length ≤ l.length := by
  unfold TrimLeft
  exact (List.dropWhile_sublist _).length_le

theorem BytesToHash_TrimLeft (v : Hash) : BytesToHash (TrimLeft v.bytes) = v := by
  apply Hash.ext_bytes
  have hl := TrimLeft_length_le v.bytes
  have hs := v.size
  show List.replicate (HashLength - (TrimLeft v.bytes).length) 0
      ++ (TrimLeft v.bytes).drop ((TrimLeft v.bytes).length - HashLength) = v.bytes
  have e : (TrimLeft v.bytes).length - HashLength = 0 := by omega
  rw [e, List.drop_zero, ← hs]
  exact pad_TrimLeft v.bytes

theorem BytesToHash_nil : BytesToHash [] = Hash.zero := by
  apply Hash.ext_bytes
  simp [BytesToHash, Hash.zero]

theorem rlpEncodeBytes_ne_nil (b : List Byte) : rlpEncodeBytes b ≠ [] := by
  unfold rlpEncodeBytes
  split
  · split <;> simp
  · split <;> simp

theorem rlpDecodeBytes_encode (b : List Byte) (h : b.length < 56) :
    rlpDecodeBytes (rlpEncodeBytes b) = b := by
  match b, h with
  | [], _ => decide
  | [x], _ =>
    by_cases hx : x.val < 0x80
    · simp [rlpEncodeBytes, rlpDecodeBytes, hx]
    · have h81 : (Byte.ofNat 0x81).val = 0x81 := rfl
      simp [rlpEncodeBytes, rlpDecodeBytes, hx, h81]
  | x :: y :: l, h =>
    have hlen : (x :: y :: l).length = l.length + 2 := rfl
    have hv : (Byte.ofNat (0x80 + (x :: y :: l).length)).val = 0x80 + (l.length + 2) := by
      simp only [Byte.ofNat, hlen]
      rw [hlen] at h
      omega
    rw [hlen] at h
    have e : rlpEncodeBytes (x :: y :: l)
        = Byte.ofNat (0x80 + (x :: y :: l).length) :: (x :: y :: l) := by
      simp [rlpEncodeBytes]
      omega
    rw [e]
    unfold rlpDecodeBytes
    simp only [hv]
    have c1 : ¬ (0x80 + (l.length + 2) < 0x80) := by omega
    have c2 : 0x80 + (l.length + 2) < 0xB8 := by omega
    have c3 : 0x80 + (l.length + 2) - 0x80 = l.length + 2 := by omega
    simp only [c1, c2, c3, if_true, if_false, hlen]
    simp

/-- Reading back a stored value: encoding the trimmed bytes, decoding and padding
gives the value itself. -/
theorem storage_value_roundtrip (v : Hash) :
    BytesToHash (rlpDecodeBytes (rlpEncodeBytes (TrimLeft v.bytes))) = v := by
  have hl := TrimLeft_length_le v.bytes
  have hs := v.size
  rw [rlpDecodeBytes_encode _ (by unfold HashLength at hs; omega)]
  exact BytesToHash_TrimLeft v

/-! ## Heap facts -/

theorem World.trieAt_setTrie (w : World) (p : Ptr) (t : SecureTrie) :
    (w.setTrie p t).trieAt p = if p < w.tries.length then t else SecureTrie.empty := by
  unfold World.trieAt World.setTrie
  by_cases h : p < w.tries.length
  · simp [h, List.getD_eq_getElem?_getD, List.getElem?_set]
  · simp [h, List.getD_eq_getElem?_getD, List.getElem?_set]

theorem World.trieAt_of_not_lt (w : World) (p : Ptr) (h : ¬ p < w.tries.length) :
    w.trieAt p = SecureTrie.empty := by
  unfold World.trieAt
  rw [List.getD_eq_getElem?_getD, List.getElem?_eq_none (not_lt.1 h)]
  rfl

theorem World.trieAt_newTrie (w : World) (t : SecureTrie) :
    (w.newTrie t).2.trieAt (w.newTrie t).1 = t := by
  simp [World.trieAt, World.newTrie, List.getD_eq_getElem?_getD]

theorem World.newTrie_fst_lt (w : World) (t : SecureTrie) :
    (w.newTrie t).1 < (w.newTrie t).2.tries.length := by
  simp [World.newTrie]

theorem SecureTrie.WF_empty : SecureTrie.WF SecureTrie.empty := by
  simp [SecureTrie.WF, SecureTrie.empty, entriesSorted]

theorem World.WF_trieAt (w : World) (h : w.WF) (p : Ptr) : (w.trieAt p).WF := by
  unfold World.trieAt
  rw [List.getD_eq_getElem?_getD]
  cases hp : w.tries[p]? with
  | none => exact SecureTrie.WF_empty
  | some t => exact h t (List.getElem?_mem hp)

/-! ## Flushing the cache into the trie -/

theorem flushEntry_get (t : SecureTrie) (e : Hash × Hash) (kb : List Byte) :
    entriesGet kb (StateObject.flushEntry t e).entries
      = if e.1.bytes = kb then flushValue e else entriesGet kb t.entries := by
  unfold StateObject.flushEntry flushValue
  by_cases hz : e.2 = Hash.zero
  · simp only [hz, if_true]
    by_cases hk : e.1.bytes = kb
    · subst hk
      simp only [if_true, SecureTrie.Delete, entriesDelete, entriesGet]
      exact lookupKey_filter_self _ _
    · have hk' : kb ≠ e.1.bytes := fun h => hk h.symm
      simp only [hk, if_false, SecureTrie.Delete, entriesDelete, entriesGet]
      exact lookupKey_filter_ne _ hk'
  · simp only [hz, if_false, SecureTrie.Update, rlpEncodeBytes_ne_nil]
    by_cases hk : e.1.bytes = kb
    · subst hk
      simp [entriesGet_update_self]
    · have hk' : kb ≠ e.1.bytes := fun h => hk h.symm
      simp only [hk, if_false]
      exact entriesGet_update_ne _ _ hk'

theorem flushEntry_WF (t : SecureTrie) (e : Hash × Hash) (h : t.WF) :
    (StateObject.flushEntry t e).WF := by
  unfold StateObject.flushEntry
  by_cases hz : e.2 = Hash.zero
  · simp only [hz, if_true]
    exact entriesSorted_delete _ _ h
  · simp only [hz, if_false, SecureTrie.Update, rlpEncodeBytes_ne_nil]
    exact entriesSorted_update _ _ _ h

theorem flush_WF (s : Storage) (t : SecureTrie) (h : t.WF) :
    (s.foldl StateObject.flushEntry t).WF := by
  induction s generalizing t with
  | nil => exact h
  | cons e s ih => exact ih _ (flushEntry_WF t e h)

theorem flush_get (s : Storage) (t : SecureTrie) (kb : List Byte) :
    entriesGet kb (s.foldl StateObject.flushEntry t).entries
      = flushGet kb s (entriesGet kb t.entries) := by
  induction s generalizing t with
  | nil => rfl
  | cons e s ih =>
    simp only [List.foldl_cons, flushGet]
    rw [ih, flushEntry_get]
    rfl

theorem flushGet_of_no_match (kb : List Byte) (s : Storage) (base : Option (List Byte))
    (h : ∀ e ∈ s, e.1.bytes ≠ kb) : flushGet kb s base = base := by
  induction s generalizing base with
  | nil => rfl
  | cons e s ih =>
    simp only [flushGet, List.foldl_cons]
    rw [if_neg (h e (List.mem_cons_self _ _))]
    exact ih base (fun e' he' => h e' (List.mem_cons_of_mem _ he'))

theorem flushGet_const_or_id (kb : List Byte) (s : Storage) :
    (∀ b1 b2, flushGet kb s b1 = flushGet kb s b2) ∨ (∀ b, flushGet kb s b = b) := by
  induction s with
  | nil => exact Or.inr (fun _ => rfl)
  | cons e s ih =>
    by_cases hk : e.1.bytes = kb
    · left
      intro b1 b2
      simp [flushGet, List.foldl_cons, hk]
    · rcases ih with ih | ih
      · left
        intro b1 b2
        simp only [flushGet, List.foldl_cons, hk, if_false]
        exact ih b1 b2
      · right
        intro b
        simp only [flushGet, List.foldl_cons, hk, if_false]
        exact ih b

theorem flushGet_idem (kb : List Byte) (s : Storage) (b : Option (List Byte)) :
    flushGet kb s (flushGet kb s b) = flushGet kb s b := by
  rcases flushGet_const_or_id kb s with h | h
  · exact h _ _
  · exact h _

/-- Flushing the same cache a second time leaves a canonical trie as it is. -/
theorem flush_idem (s : Storage) (t : SecureTrie) (h : t.WF) :
    s.foldl StateObject.flushEntry (s.foldl StateObject.flushEntry t)
      = s.foldl StateObject.flushEntry t := by
  have hw1 := flush_WF s t h
  have hw2 := flush_WF s _ hw1
  have he := entries_ext _ _ hw2 hw1 (fun k => by
    rw [flush_get, flush_get, flushGet_idem])
  cases h1 : s.foldl StateObject.flushEntry (s.foldl StateObject.flushEntry t)
  cases h2 : s.foldl StateObject.flushEntry t
  rw [h1, h2] at he
  simp at he
  rw [he]

/-! ## The trie handle -/

namespace StateObject

theorem initTrie_of_some (H : Hasher) (db : Database) (c : StateObject) (w : World)
    (p : Ptr) (h : c.trie = some p) : initTrie H db c w = (c, w) := by
  simp [initTrie, h]

theorem initTrie_trie (H : Hasher) (db : Database) (c : StateObject) (w : World) :
    ∃ p, (initTrie H db c w).1.trie = some p := by
  unfold initTrie
  cases hc : c.trie with
  | some p => exact ⟨p, hc⟩
  | none =>
    cases NewSecure H c.data.Root db with
    | ok t => exact ⟨_, rfl⟩
    | error err =>
      refine ⟨(w.newTrie (match NewSecure H Hash.zero db with
        | .ok t0 => t0
        | .error _ => SecureTrie.empty)).1, ?_⟩
      simp only [setError]
      cases c.dbErr <;> rfl

theorem NewSecure_WF (H : Hasher) (db : Database) (root : Hash) (t : SecureTrie)
    (hdb : db.WF) (h : NewSecure H root db = .ok t) : t.WF := by
  unfold NewSecure at h
  split at h
  · cases h
    exact SecureTrie.WF_empty
  · split at h
    · rename_i es hes
      cases h
      have hmem : ∀ (l : List (Hash × List (List Byte × List Byte))),
          lookupKey root l = some es → (root, es) ∈ l := by
        intro l
        induction l with
        | nil => intro hl; simp [lookupKey] at hl
        | cons e l ih =>
          obtain ⟨k, v⟩ := e
          intro hl
          by_cases hk : root = k
          · simp [lookupKey, hk] at hl
            simp [hk, hl]
          · simp [lookupKey, hk] at hl
            exact List.mem_cons_of_mem _ (ih hl)
      exact hdb _ (hmem _ hes)
    · cases h

theorem WF_newTrie (w : World) (t : SecureTrie) (hw : w.WF) (ht : t.WF) :
    (w.newTrie t).2.WF := by
  intro t' ht'
  simp only [World.newTrie, List.mem_append, List.mem_singleton] at ht'
  rcases ht' with h | h
  · exact hw _ h
  · rw [h]; exact ht

theorem initTrie_WF (H : Hasher) (db : Database) (c : StateObject) (w : World)
    (hw : w.WF) (hdb : db.WF) : (initTrie H db c w).2.WF := by
  unfold initTrie
  cases c.trie with
  | some p => exact hw
  | none =>
    cases hn : NewSecure H c.data.Root db with
    | ok t => exact WF_newTrie w t hw (NewSecure_WF H db _ t hdb hn)
    | error err =>
      apply WF_newTrie w _ hw
      cases hz : NewSecure H Hash.zero db with
      | ok t0 => exact NewSecure_WF H db _ t0 hdb hz
      | error _ => exact SecureTrie.WF_empty

theorem updateTrie_eq (H : Hasher) (db : Database) (self : StateObject) (w : World)
    (p : Ptr) (h : (initTrie H db self w).1.trie = some p) :
    updateTrie H db self w
      = ((initTrie H db self w).1,
          (initTrie H db self w).2.setTrie p
            (self.storage.foldl flushEntry ((initTrie H db self w).2.trieAt p))) := by
  simp only [updateTrie, h, initTrie_storage]

theorem updateTrie_trie (H : Hasher) (db : Database) (self : StateObject) (w : World) :
    (updateTrie H db self w).1.trie = (initTrie H db self w).1.trie := by
  rw [updateTrie_fst]

theorem updateTrie_storage (H : Hasher) (db : Database) (self : StateObject) (w : World) :
    (updateTrie H db self w).1.storage = self.storage := by
  rw [updateTrie_fst, initTrie_storage]

/-- The trie of the object after `updateTrie`, for an object whose handle is set. -/
theorem trieOf_updateTrie_of_some (H : Hasher) (db : Database) (self : StateObject)
    (w : World) (p : Ptr) (h : self.trie = some p) :
    (updateTrie H db self w).1 = self
      ∧ (updateTrie H db self w).2
          = w.setTrie p (self.storage.foldl flushEntry (w.trieAt p))
      ∧ trieOf (updateTrie H db self w).1 (updateTrie H db self w).2
          = if p < w.tries.length then self.storage.foldl flushEntry (w.trieAt p)
            else SecureTrie.empty := by
  have hi := initTrie_of_some H db self w p h
  have hu := updateTrie_eq H db self w p (by rw [hi]; exact h)
  rw [hi] at hu
  rw [hu]
  refine ⟨rfl, rfl, ?_⟩
  simp only [trieOf, h]
  exact World.trieAt_setTrie w p _

/-- After `updateTrie` the trie of the object is a fixed point of the flush of its
cache, provided the tries of the heap and of the store are canonical. -/
theorem flush_trieOf_updateTrie (H : Hasher) (db : Database) (self : StateObject)
    (w : World) (hw : w.WF) (hdb : db.WF) :
    ∃ p, (updateTrie H db self w).1.trie = some p ∧
      (if p < (updateTrie H db self w).2.tries.length
        then self.storage.foldl flushEntry ((updateTrie H db self w).2.trieAt p)
        else SecureTrie.empty) = (updateTrie H db self w).2.trieAt p := by
  obtain ⟨p, hp⟩ := initTrie_trie H db self w
  refine ⟨p, by rw [updateTrie_trie]; exact hp, ?_⟩
  rw [updateTrie_eq H db self w p hp]
  simp only
  have hlen : ((initTrie H db self w).2.setTrie p
      (self.storage.foldl flushEntry ((initTrie H db self w).2.trieAt p))).tries.length
      = (initTrie H db self w).2.tries.length := by
    simp [World.setTrie]
  rw [hlen, World.trieAt_setTrie]
  by_cases hlt : p < (initTrie H db self w).2.tries.length
  · simp only [hlt, if_true]
    exact flush_idem _ _ (World.WF_trieAt _ (initTrie_WF H db self w hw hdb) p)
  · simp only [hlt, if_false]

theorem CommitTrie_of_success (H : Hasher) (db dbw : Database) (self : StateObject)
    (w : World) (h : (CommitTrie H db dbw self w).1 = none) :
    (CommitTrie H db dbw self w).2.1
        = { (updateTrie H db self w).1 with
            data := { (updateTrie H db self w).1.data with
              Root := ((updateTrie H db self w).1.trieOf (updateTrie H db self w).2).Hash H } }
      ∧ (CommitTrie H db dbw self w).2.2.1 = (updateTrie H db self w).2
      ∧ (updateTrie H db self w).1.dbErr = none := by
  unfold CommitTrie at h ⊢
  cases he : (updateTrie H db self w).1.dbErr with
  | some e => simp [he] at h
  | none =>
    simp only [he] at h ⊢
    unfold SecureTrie.CommitTo at h ⊢
    cases hf : dbw.writeFault with
    | some e => simp [hf] at h
    | none => simp

end StateObject

/-! ## Reading through a freshly opened trie -/

theorem NewSecure_zero (H : Hasher) (db : Database) :
    NewSecure H Hash.zero db = .ok SecureTrie.empty := by
  simp [NewSecure]

namespace StateObject

theorem trieOf_initTrie_of_none (H : Hasher) (db : Database) (c : StateObject) (w : World)
    (h : c.trie = none) :
    trieOf (initTrie H db c w).1 (initTrie H db c w).2 = openedTrie H c.data.Root db := by
  unfold initTrie openedTrie
  rw [h]
  simp only
  cases NewSecure H c.data.Root db with
  | ok t =>
    simp only [trieOf]
    exact World.trieAt_newTrie w t
  | error err =>
    rw [NewSecure_zero]
    simp only
    have : (setError { c with trie := some (w.newTrie SecureTrie.empty).1 }
        (some ("can't create storage trie: " ++ err))).trie
        = some (w.newTrie SecureTrie.empty).1 := by
      simp only [setError]
      cases c.dbErr <;> rfl
    simp only [trieOf, this]
    exact World.trieAt_newTrie w SecureTrie.empty

theorem GetState_of_miss (H : Hasher) (db : Database) (self : StateObject) (key : Hash)
    (w : World) (h : Storage.get self.storage key = none) :
    (GetState H db self key w).1
      = BytesToHash (rlpDecodeBytes
          ((trieOf (initTrie H db self w).1 (initTrie H db self w).2).Get key.bytes)) := by
  unfold GetState
  rw [h]
  simp only
  split <;> rfl

end StateObject

theorem NewObject_storage (H : Hasher) (addr : Address) (acct : Account) (w : World) :
    (NewObject H addr acct w).1.storage = [] := rfl

theorem NewObject_trie (H : Hasher) (addr : Address) (acct : Account) (w : World) :
    (NewObject H addr acct w).1.trie = none := rfl

theorem NewObject_Root (H : Hasher) (addr : Address) (acct : Account) (w : World) :
    (NewObject H addr acct w).1.data.Root = acct.Root := rfl

/-- The value a freshly created object reads for a key: the decoded binding of the
trie opened at the root of its account. -/
theorem GetState_NewObject (H : Hasher) (db : Database) (addr : Address) (acct : Account)
    (key : Hash) (w : World) :
    (StateObject.GetState H db (NewObject H addr acct w).1 key (NewObject H addr acct w).2).1
      = BytesToHash (rlpDecodeBytes ((openedTrie H acct.Root db).Get key.bytes)) := by
  rw [StateObject.GetState_of_miss H db _ key _ (by rw [NewObject_storage]; rfl),
    StateObject.trieOf_initTrie_of_none H db _ _ (NewObject_trie H addr acct w),
    NewObject_Root]

theorem decode_absent : BytesToHash (rlpDecodeBytes []) = Hash.zero := by
  simp [rlpDecodeBytes, BytesToHash_nil]

/-- A trie opened from a sound store at the root of contents that collide with nothing
in the store is empty or has those contents. -/
theorem openedTrie_cases (H : Hasher) (db : Database) (es : List (List Byte × List Byte))
    (hsound : db.Sound H) (hbind : db.CollisionFree H es) :
    openedTrie H (H.trieRoot es) db = SecureTrie.empty
      ∨ openedTrie H (H.trieRoot es) db = ⟨es⟩ := by
  by_cases hz : H.trieRoot es = Hash.zero ∨ H.trieRoot es = H.trieRoot []
  · left
    simp [openedTrie, NewSecure, hz]
  · cases hl : lookupKey (H.trieRoot es) db.tries with
    | none =>
      left
      simp [openedTrie, NewSecure, hz, hl]
    | some es' =>
      right
      simp only [openedTrie, NewSecure, hz, hl, if_false]
      rw [hbind _ es' hl (hsound _ _ hl)]

/-- After a flush of a cache written last with `SetState(k, v)`, the trie binds
`k` to what `v` leaves (nothing for the zero value), if the handle is valid. -/
theorem flushGet_set (s : Storage) (k v : Hash) (base : Option (List Byte)) :
    flushGet k.bytes (Storage.set s k v) base = flushValue (k, v) := by
  unfold Storage.set
  simp only [flushGet, List.foldl_cons, if_true]
  apply flushGet_of_no_match
  intro e he
  have hne : e.1 ≠ k := by simpa using (List.mem_filter.1 he).2
  exact Hash.bytes_ne hne

/-! ## Committing a fresh object -/

namespace StateObject

theorem initTrie_of_none (H : Hasher) (db : Database) (c : StateObject) (w : World)
    (h : c.trie = none) :
    (initTrie H db c w).1.trie = some (w.newTrie (openedTrie H c.data.Root db)).1
      ∧ (initTrie H db c w).2 = (w.newTrie (openedTrie H c.data.Root db)).2 := by
  unfold initTrie openedTrie
  rw [h]
  simp only
  cases NewSecure H c.data.Root db with
  | ok t => exact ⟨rfl, rfl⟩
  | error err =>
    rw [NewSecure_zero]
    cases c.dbErr <;> simp [setError]

theorem trieOf_updateTrie_of_none (H : Hasher) (db : Database) (self : StateObject)
    (w : World) (h : self.trie = none) :
    trieOf (updateTrie H db self w).1 (updateTrie H db self w).2
      = self.storage.foldl flushEntry (openedTrie H self.data.Root db) := by
  obtain ⟨h1, h2⟩ := initTrie_of_none H db self w h
  rw [updateTrie_eq H db self w _ h1]
  simp only [trieOf, h1, h2]
  rw [World.trieAt_setTrie, if_pos (World.newTrie_fst_lt w _), World.trieAt_newTrie]

theorem initTrie_ints (H : Hasher) (db : Database) (c : StateObject) (w : World) :
    (initTrie H db c w).2.ints = w.ints := by
  unfold initTrie
  cases c.trie with
  | some p => rfl
  | none =>
    cases NewSecure H c.data.Root db <;> rfl

theorem updateTrie_ints (H : Hasher) (db : Database) (self : StateObject) (w : World) :
    (updateTrie H db self w).2.ints = w.ints := by
  obtain ⟨p, hp⟩ := initTrie_trie H db self w
  rw [updateTrie_eq H db self w p hp]
  exact initTrie_ints H db self w

theorem CommitTrie_writer_of_success (H : Hasher) (db dbw : Database) (self : StateObject)
    (w : World) (h : (CommitTrie H db dbw self w).1 = none) :
    (CommitTrie H db dbw self w).2.2.2.tries
      = (((updateTrie H db self w).1.trieOf (updateTrie H db self w).2).Hash H,
          ((updateTrie H db self w).1.trieOf (updateTrie H db self w).2).entries)
        :: dbw.tries := by
  unfold CommitTrie at h ⊢
  cases he : (updateTrie H db self w).1.dbErr with
  | some e => simp [he] at h
  | none =>
    simp only [he] at h ⊢
    unfold SecureTrie.CommitTo at h ⊢
    cases hf : dbw.writeFault with
    | some e => simp [hf] at h
    | none => simp

end StateObject

theorem World.intAt_newInt (w : World) (v : Int) : (w.newInt v).2.intAt (w.newInt v).1 = v := by
  simp [World.intAt, World.newInt, List.getD_eq_getElem?_getD]

/-! ## Iterating over storage -/

theorem BytesToHash_bytes_of_length (b : List Byte) (h : b.length = HashLength) :
    (BytesToHash b).bytes = b := by
  simp [BytesToHash, h]

theorem BytesToHash_bytes (k : Hash) : BytesToHash k.bytes = k :=
  Hash.ext_bytes (BytesToHash_bytes_of_length k.bytes k.size)

/-! ## Copies -/

theorem World.setInt_intAt (w : World) (p : Ptr) : w.setInt p (w.intAt p) = w := by
  unfold World.setInt World.intAt
  have : w.ints.set p (w.ints.getD p 0) = w.ints := by
    apply List.ext_getElem?
    intro n
    rw [List.getElem?_set]
    split
    · rename_i h
      subst h
      split
      · rename_i hlt
        rw [List.getD_eq_getElem?_getD, List.getElem?_eq_getElem hlt]
        rfl
      · rename_i hlt
        rw [List.getElem?_eq_none (not_lt.1 hlt)]
    · rfl
  rw [this]

theorem Storage.get_Copy_none (s : Storage) (k : Hash) (h : Storage.get s k = none) :
    Storage.get (Storage.Copy s) k = none := by
  have hgen : ∀ (l acc : Storage), Storage.get acc k = none → Storage.get l k = none →
      Storage.get (l.foldl (fun cpy e => Storage.set cpy e.1 e.2) acc) k = none := by
    intro l
    induction l with
    | nil => intro acc ha _; exact ha
    | cons e l ih =>
      intro acc ha hl
      obtain ⟨k0, v0⟩ := e
      have hk : k ≠ k0 := by
        intro e
        simp [Storage.get, lookupKey, e] at hl
      have hl' : Storage.get l k = none := by
        simpa [Storage.get, lookupKey, hk] using hl
      simp only [List.foldl_cons]
      apply ih _ _ hl'
      rw [Storage.get_set_ne _ _ hk]
      exact ha
  exact hgen s [] rfl h

namespace StateObject

theorem Copy_some (H : Hasher) (db : Database) (o c : StateObject) (w w1 : World)
    (h : Copy H db o w = some (c, w1)) :
    c.trie = o.trie ∧ c.storage = Storage.Copy o.storage ∧ w1 = w
      ∧ c.data.Balance = o.data.Balance := by
  unfold Copy NewObject at h
  cases hb : o.data.Balance with
  | none => simp [hb] at h
  | some q =>
    simp only [hb, Option.some.injEq, Prod.mk.injEq] at h
    obtain ⟨h1, h2⟩ := h
    rw [World.setInt_intAt] at h2
    subst h1
    exact ⟨rfl, rfl, h2.symm, rfl⟩

theorem CommitTrie_world (H : Hasher) (db dbw : Database) (self : StateObject) (w : World) :
    (CommitTrie H db dbw self w).2.2.1 = (updateTrie H db self w).2 := by
  unfold CommitTrie
  simp only
  split
  · rfl
  · split <;> rfl

/-- Two objects on one trie handle: what one flushes for a key, the other reads when
the key is absent from its cache. -/
theorem GetState_after_shared_flush (H : Hasher) (db : Database) (a b : StateObject)
    (w : World) (p : Ptr) (k v : Hash) (ha : a.trie = some p) (hb : b.trie = some p)
    (hp : p < w.tries.length) (hmiss : Storage.get b.storage k = none) :
    (GetState H db b k (updateTrie H db (SetState a k v) w).2).1 = v := by
  have hu := (trieOf_updateTrie_of_some H db (SetState a k v) w p ha).2.1
  rw [GetState_of_miss H db b k _ hmiss, initTrie_of_some H db b _ p hb, hu]
  simp only [trieOf, hb]
  rw [World.trieAt_setTrie, if_pos hp]
  simp only [SecureTrie.Get]
  rw [flush_get]
  show BytesToHash (rlpDecodeBytes
    ((flushGet k.bytes (Storage.set a.storage k v) _).getD [])) = v
  rw [flushGet_set]
  unfold flushValue
  by_cases hv : v = Hash.zero
  · simp only [hv, if_true, Option.getD_none]
    exact decode_absent
  · simp only [hv, if_false, Option.getD_some]
    exact storage_value_roundtrip v

end StateObject

/-! ## Facts about the sample values -/

theorem sampleStore_collisionFree : sampleStore.CollisionFree sampleHasher sampleEntries := by
  intro r es h _
  simp only [sampleStore, lookupKey] at h
  split at h
  · cases h
    rfl
  · cases h

theorem sampleStore_sound : sampleStore.Sound sampleHasher := by
  intro r es h
  simp only [sampleStore, lookupKey] at h
  split at h
  · rename_i hr
    cases h
    rw [hr]
    simp [sampleHasher]
  · cases h

theorem sampleObject_WF : sampleObject.2.WF := by
  intro t ht
  have : sampleObject.2.tries = [SecureTrie.empty] := by decide
  rw [this] at ht
  simp at ht
  rw [ht]
  exact SecureTrie.WF_empty

theorem sampleDb_WF : sampleDb.WF := by
  intro e he
  simp [sampleDb] at he

/-! ## The sticky error -/

namespace StateObject

theorem setError_of_some (self : StateObject) (err : Option String) (e : String)
    (h : self.dbErr = some e) : setError self err = self := by
  simp [setError, h]

theorem GetState_dbErr_of_some (H : Hasher) (db : Database) (self : StateObject)
    (key : Hash) (w : World) (e : String) (h : self.dbErr = some e) :
    (GetState H db self key w).2.1.dbErr = some e := by
  unfold GetState
  cases Storage.get self.storage key with
  | some v => exact h
  | none =>
    simp only
    split
    · exact initTrie_dbErr_of_some H db self w e h
    · exact initTrie_dbErr_of_some H db self w e h

theorem Code_dbErr_of_some (H : Hasher) (db : Database) (self : StateObject)
    (w : World) (e : String) (h : self.dbErr = some e) :
    (Code H db self w).2.1.dbErr = some e := by
  unfold Code
  cases self.code with
  | some c => exact h
  | none =>
    simp only
    split
    · exact h
    · cases (db.Get (self.data.CodeHash.getD [])).2 with
      | none => exact h
      | some err => simp [setError_of_some _ _ e h, h]

theorem CodeSize_dbErr_of_some (H : Hasher) (db : Database) (self : StateObject)
    (w : World) (e : String) (h : self.dbErr = some e) :
    (CodeSize H db self w).2.1.dbErr = some e := by
  unfold CodeSize
  cases self.data.codeSize with
  | some n => exact h
  | none => exact Code_dbErr_of_some H db self w e h

theorem CommitTrie_dbErr (H : Hasher) (db dbw : Database) (self : StateObject) (w : World) :
    (CommitTrie H db dbw self w).2.1.dbErr = (updateTrie H db self w).1.dbErr := by
  unfold CommitTrie
  simp only
  split
  · rfl
  · split <;> rfl

end StateObject

/-! ## Copies of the storage cache -/

theorem Storage.WF_set (s : Storage) (k v : Hash) (h : Storage.WF s) :
    Storage.WF (Storage.set s k v) := by
  unfold Storage.WF Storage.keys Storage.set at *
  rw [List.map_cons, List.nodup_cons]
  constructor
  · intro hm
    obtain ⟨e, he, hk⟩ := List.mem_map.1 hm
    have := (List.mem_filter.1 he).2
    simp at this
    exact this hk
  · exact (h.sublist ((List.filter_sublist _).map Prod.fst))

theorem Storage.WF_Copy (s : Storage) : Storage.WF (Storage.Copy s) := by
  have hgen : ∀ (l acc : Storage), Storage.WF acc →
      Storage.WF (l.foldl (fun cpy e => Storage.set cpy e.1 e.2) acc) := by
    intro l
    induction l with
    | nil => intro acc ha; exact ha
    | cons e l ih =>
      intro acc ha
      exact ih _ (Storage.WF_set acc e.1 e.2 ha)
  exact hgen s [] (by simp [Storage.WF, Storage.keys])

theorem Storage.get_Copy (s : Storage) (k : Hash) (h : Storage.WF s) :
    Storage.get (Storage.Copy s) k = Storage.get s k := by
  have hgen : ∀ (l acc : Storage), Storage.WF l →
      Storage.get (l.foldl (fun cpy e => Storage.set cpy e.1 e.2) acc) k
        = match Storage.get l k with
          | some v => some v
          | none => Storage.get acc k := by
    intro l
    induction l with
    | nil => intro acc _; rfl
    | cons e l ih =>
      intro acc hl
      obtain ⟨k0, v0⟩ := e
      have hl' : Storage.WF l := by
        unfold Storage.WF Storage.keys at hl ⊢
        exact (List.nodup_cons.1 hl).2
      have hk0 : Storage.get l k0 = none := by
        unfold Storage.WF Storage.keys at hl
        exact (lookupKey_eq_none_iff k0 l).2 (List.nodup_cons.1 hl).1
      simp only [List.foldl_cons]
      rw [ih _ hl']
      by_cases hk : k = k0
      · subst hk
        rw [hk0]
        simp [Storage.get_set_self, Storage.get, lookupKey]
      · have e1 : Storage.get ((k0, v0) :: l) k = Storage.get l k := by
          simp [Storage.get, lookupKey, hk]
        rw [e1, Storage.get_set_ne _ _ hk]
  rw [Storage.Copy, hgen s [] h]
  cases Storage.get s k <;> rfl

namespace StateObject

/-- The object and the heap returned by `Copy`. -/
theorem Copy_eq (H : Hasher) (db : Database) (o c : StateObject) (w w1 : World)
    (h : Copy H db o w = some (c, w1)) :
    w1 = w ∧ c =
      { address := o.address,
        data := { o.data with
          CodeHash := some (o.data.CodeHash.getD (emptyCodeHash H)) },
        dbErr := none, trie := o.trie, code := o.code,
        storage := Storage.Copy o.storage, dirty := o.dirty, dirtyCode := o.dirtyCode,
        remove := o.remove, deleted := o.deleted } := by
  unfold Copy NewObject at h
  cases hb : o.data.Balance with
  | none => simp [hb] at h
  | some q =>
    simp only [hb, Option.some.injEq, Prod.mk.injEq] at h
    obtain ⟨h1, h2⟩ := h
    rw [World.setInt_intAt] at h2
    refine ⟨h2.symm, ?_⟩
    rw [← h1]
    cases hc : o.data.CodeHash <;> simp [hb]

end StateObject

/-! ## The flush seen from the cache -/

theorem flushGet_of_get (s : Storage) (k v : Hash) (base : Option (List Byte))
    (hs : Storage.WF s) (h : Storage.get s k = some v) :
    flushGet k.bytes s base = flushValue (k, v) := by
  induction s generalizing base with
  | nil => simp [Storage.get, lookupKey] at h
  | cons e l ih =>
    obtain ⟨k0, v0⟩ := e
    have hnd : k0 ∉ l.map Prod.fst ∧ (l.map Prod.fst).Nodup := by
      unfold Storage.WF Storage.keys at hs
      exact List.nodup_cons.1 hs
    by_cases hk : k = k0
    · subst hk
      have hv : v0 = v := by simpa [Storage.get, lookupKey] using h
      subst hv
      simp only [flushGet, List.foldl_cons, if_true]
      apply flushGet_of_no_match
      intro e he
      apply Hash.bytes_ne
      intro hek
      exact hnd.1 (List.mem_map.2 ⟨e, he, hek⟩)
    · have h' : Storage.get l k = some v := by
        simpa [Storage.get, lookupKey, hk] using h
      have hb : k0.bytes ≠ k.bytes := Hash.bytes_ne (fun e => hk e.symm)
      simp only [flushGet, List.foldl_cons]
      rw [if_neg hb]
      exact ih base hnd.2 h'

namespace StateObject

/-- The trie of the object after `updateTrie` is the flush of the cache into the trie
`initTrie` binds it to, when a handle already set is a valid one. -/
theorem trieOf_updateTrie (H : Hasher) (db : Database) (self : StateObject) (w : World)
    (hp : ∀ p, self.trie = some p → p < w.tries.length) :
    trieOf (updateTrie H db self w).1 (updateTrie H db self w).2
      = self.storage.foldl flushEntry
          (trieOf (initTrie H db self w).1 (initTrie H db self w).2) := by
  cases ht : self.trie with
  | some p =>
    rw [(trieOf_updateTrie_of_some H db self w p ht).2.2, if_pos (hp p ht),
      initTrie_of_some H db self w p ht]
    simp only [trieOf, ht]
  | none =>
    rw [trieOf_updateTrie_of_none H db self w ht, trieOf_initTrie_of_none H db self w ht]

theorem initTrie_dirty (H : Hasher) (db : Database) (c : StateObject) (w : World) :
    (initTrie H db c w).1.dirty = c.dirty := by
  unfold initTrie
  cases c.trie with
  | some p => rfl
  | none =>
    cases NewSecure H c.data.Root db with
    | ok t => rfl
    | error err =>
      simp only [setError]
      cases c.dbErr <;> rfl

theorem initTrie_trieAt (H : Hasher) (db : Database) (c : StateObject) (w : World)
    (p : Ptr) (hp : p < w.tries.length) :
    (initTrie H db c w).2.trieAt p = w.trieAt p := by
  unfold initTrie
  cases c.trie with
  | some q => rfl
  | none =>
    have hnew : ∀ t, (w.newTrie t).2.trieAt p = w.trieAt p := by
      intro t
      simp only [World.trieAt, World.newTrie, List.getD_eq_getElem?_getD]
      rw [List.getElem?_append_left hp]
    cases NewSecure H c.data.Root db with
    | ok t => exact hnew t
    | error err => exact hnew _

end StateObject

end state

namespace crypto

/-! ## Padding facts -/

/-- The number of bytes `PKCS7Pad` appends. -/
theorem PKCS7Pad_eq (x : List state.Byte) :
    PKCS7Pad x = x ++ List.replicate (16 - x.length % 16)
      (state.Byte.ofNat (16 - x.length % 16)) := by
  have h : 16 - x.length % 16 ≠ 0 := by omega
  simp only [PKCS7Pad, h, if_false]

theorem getD_append_replicate (x : List state.Byte) (p i : Nat) (b : state.Byte)
    (h1 : x.length ≤ i) (h2 : i < x.length + p) :
    (x ++ List.replicate p b).getD i 0 = b := by
  rw [List.getD_eq_getElem?_getD, List.getElem?_append_right h1,
    List.getElem?_replicate]
  have : i - x.length < p := by omega
  simp [this]

end crypto

namespace common

/-! ## Semaphore facts -/

theorem acquireLoop_of_ge (s : cntSema) (n : Nat) (wakes : List Wake) (h : s.value ≥ n) :
    s.acquireLoop n wakes = some (none, { s with value := s.value - n }) := by
  cases wakes with
  | nil => simp [cntSema.acquireLoop, h]
  | cons a rest => cases a <;> simp [cntSema.acquireLoop, h]

theorem acquireLoop_single_caller (s : cntSema) (n : Nat) (wakes : List Wake)
    (hsingle : ∀ k, Wake.release k ∉ wakes) (h : s.value < n) :
    s.acquireLoop n wakes = if wakes = [] then none else some (some errAcquireTimeout, s) := by
  have h' : ¬ s.value ≥ n := by omega
  cases wakes with
  | nil => simp [cntSema.acquireLoop, h']
  | cons a rest =>
    cases a with
    | expire => simp [cntSema.acquireLoop, h']
    | release k => exact absurd (List.mem_cons_self _ _) (hsingle k)

/-- A single-caller run (no wake-up comes from a release) with a request within the
capacity: `Acquire` takes `n` when the value allows it; otherwise it returns
`errAcquireTimeout` when the timer wakes it and stays blocked when nothing wakes it;
and an `Acquire` that returns an error leaves the semaphore as it was. -/
theorem Acquire_single_caller (s : cntSema) (n : Nat) (wakes : List Wake)
    (hsingle : ∀ k, Wake.release k ∉ wakes) :
    (n ≤ s.capacity → s.value ≥ n →
        s.Acquire n wakes = some (none, { s with value := s.value - n }))
    ∧ (n ≤ s.capacity → s.value < n →
        s.Acquire n wakes = if wakes = [] then none else some (some errAcquireTimeout, s))
    ∧ (∀ err s', s.Acquire n wakes = some (some err, s') → s' = s) := by
  refine ⟨?_, ?_, ?_⟩
  · intro hn hv
    have : ¬ n > s.capacity := by omega
    simp only [cntSema.Acquire, this, if_false]
    exact acquireLoop_of_ge s n wakes hv
  · intro hn hv
    have : ¬ n > s.capacity := by omega
    simp only [cntSema.Acquire, this, if_false]
    exact acquireLoop_single_caller s n wakes hsingle hv
  · intro err s' h
    unfold cntSema.Acquire at h
    by_cases hn : n > s.capacity
    · simp only [hn, if_true, Option.some.injEq, Prod.mk.injEq] at h
      exact h.2.symm
    · simp only [hn, if_false] at h
      by_cases hv : s.value ≥ n
      · rw [acquireLoop_of_ge s n wakes hv] at h
        simp at h
      · rw [acquireLoop_single_caller s n wakes hsingle (by omega)] at h
        split at h
        · cases h
        · simp only [Option.some.injEq, Prod.mk.injEq] at h
          exact h.2.symm

theorem acquireLoop_state (s : cntSema) (n : Nat) (wakes : List Wake)
    (r : Option String × cntSema) (h : s.acquireLoop n wakes = some r) :
    r.2 = s.acquireLoopState n wakes := by
  induction wakes generalizing s with
  | nil =>
    simp only [cntSema.acquireLoop, cntSema.acquireLoopState] at h ⊢
    by_cases hge : s.value ≥ n
    · rw [if_pos hge] at h ⊢
      cases h; rfl
    · rw [if_neg hge] at h
      cases h
  | cons a rest ih =>
    cases a with
    | expire =>
      simp only [cntSema.acquireLoop, cntSema.acquireLoopState] at h ⊢
      by_cases hge : s.value ≥ n
      · rw [if_pos hge] at h ⊢
        cases h; rfl
      · rw [if_neg hge] at h ⊢
        cases h; rfl
    | release k =>
      simp only [cntSema.acquireLoop, cntSema.acquireLoopState] at h ⊢
      by_cases hge : s.value ≥ n
      · rw [if_pos hge] at h ⊢
        cases h; rfl
      · rw [if_neg hge] at h ⊢
        exact ih _ h

theorem Acquire_state (s : cntSema) (n : Nat) (wakes : List Wake)
    (r : Option String × cntSema) (h : s.Acquire n wakes = some r) :
    r.2 = s.acquireState n wakes := by
  unfold cntSema.Acquire at h
  unfold cntSema.acquireState
  by_cases hn : n > s.capacity
  · rw [if_pos hn] at h ⊢
    cases h; rfl
  · rw [if_neg hn] at h ⊢
    exact acquireLoop_state s n wakes r h

theorem Release_bound (s : cntSema) (n : Nat) (h : s.value ≤ s.capacity) :
    (s.Release n).2.capacity = s.capacity ∧ (s.Release n).2.value ≤ s.capacity := by
  unfold cntSema.Release
  split
  · exact ⟨rfl, h⟩
  · exact ⟨rfl, by simp only; omega⟩

theorem acquireLoopState_bound (s : cntSema) (n : Nat) (wakes : List Wake)
    (h : s.value ≤ s.capacity) :
    (s.acquireLoopState n wakes).capacity = s.capacity
      ∧ (s.acquireLoopState n wakes).value ≤ s.capacity := by
  induction wakes generalizing s with
  | nil =>
    simp only [cntSema.acquireLoopState]
    split
    · exact ⟨rfl, by simp only; omega⟩
    · exact ⟨rfl, h⟩
  | cons a rest ih =>
    cases a with
    | expire =>
      simp only [cntSema.acquireLoopState]
      split
      · exact ⟨rfl, by simp only; omega⟩
      · exact ⟨rfl, h⟩
    | release k =>
      simp only [cntSema.acquireLoopState]
      split
      · exact ⟨rfl, by simp only; omega⟩
      · have hr := Release_bound s k h
        have := ih (s.Release k).2 (by rw [hr.1]; exact hr.2)
        rw [hr.1] at this
        exact this

theorem step_bound (s : cntSema) (c : SemaCall) (h : s.value ≤ s.capacity) :
    (s.step c).capacity = s.capacity ∧ (s.step c).value ≤ s.capacity := by
  cases c with
  | acquire n wakes =>
    simp only [cntSema.step, cntSema.acquireState]
    split
    · exact ⟨rfl, h⟩
    · exact acquireLoopState_bound s n wakes h
  | release n => exact Release_bound s n h

theorem run_bound (calls : List SemaCall) (s : cntSema) (h : s.value ≤ s.capacity) :
    (s.run calls).capacity = s.capacity ∧ (s.run calls).value ≤ s.capacity := by
  induction calls generalizing s with
  | nil => exact ⟨rfl, h⟩
  | cons c rest ih =>
    have hs := step_bound s c h
    have := ih (s.step c) (by rw [hs.1]; exact hs.2)
    rw [hs.1] at this
    exact this

end common

namespace filter

/-! ## Filter manager facts -/

end filter

namespace state

/-! ## A trie that fails to open -/

namespace StateObject

theorem initTrie_of_open_failure (H : Hasher) (db : Database) (c : StateObject) (w : World)
    (err : String) (ht : c.trie = none) (hf : NewSecure H c.data.Root db = .error err) :
    initTrie H db c w
      = (setError { c with trie := some (w.newTrie SecureTrie.empty).1 }
          (some ("can't create storage trie: " ++ err)), (w.newTrie SecureTrie.empty).2) := by
  unfold initTrie
  rw [ht]
  simp only [hf, NewSecure_zero]

theorem setError_trie (c : StateObject) (err : Option String) :
    (setError c err).trie = c.trie := by
  unfold setError
  cases c.dbErr <;> rfl

theorem setError_storage (c : StateObject) (err : Option String) :
    (setError c err).storage = c.storage := by
  unfold setError
  cases c.dbErr <;> rfl

end StateObject

/-! ## Reads of the code store -/

namespace StateObject

theorem Code_of_settled (H : Hasher) (db : Database) (o : StateObject) (w : World)
    (h : Settled H o) : Code H db o w = (o.code, o, w) := by
  unfold Code
  cases hc : o.code with
  | some c => rfl
  | none =>
    rcases h with h | h
    · exact absurd hc h
    · simp [h]

theorem Code_of_unsettled (H : Hasher) (db : Database) (o : StateObject) (w : World)
    (h : ¬ Settled H o) :
    (Code H db o w).1 = (db.Get (o.data.CodeHash.getD [])).1
      ∧ (Code H db o w).2.1.code = (db.Get (o.data.CodeHash.getD [])).1
      ∧ (Code H db o w).2.1.data = o.data
      ∧ (Code H db o w).2.2.dbReads = w.dbReads ++ [o.data.CodeHash.getD []] := by
  unfold Settled at h
  have hc : o.code = none := by
    cases hc : o.code with
    | none => rfl
    | some c => exact absurd (Or.inl (by simp [hc])) h
  have hb : bytesEqual (o.data.CodeHash.getD []) (emptyCodeHash H) = false := by
    cases hb : bytesEqual (o.data.CodeHash.getD []) (emptyCodeHash H) with
    | false => rfl
    | true => exact absurd (Or.inr hb) h
  unfold Code
  simp only [hc, hb]
  refine ⟨rfl, rfl, ?_, rfl⟩
  cases (db.Get (o.data.CodeHash.getD [])).2 with
  | none => rfl
  | some e =>
    simp only [setError]
    cases o.dbErr <;> rfl

theorem codeCall_of_settled (H : Hasher) (db : Database) (r : StateObject × World)
    (c : CodeCall) (h : Settled H r.1) :
    Settled H (codeCall H db r c).1
      ∧ (codeCall H db r c).2.dbReads = r.2.dbReads
      ∧ (codeCall H db r c).1.dbErr = r.1.dbErr := by
  cases c with
  | code =>
    simp only [codeCall]
    rw [Code_of_settled H db r.1 r.2 h]
    exact ⟨h, rfl, rfl⟩
  | codeSize =>
    simp only [codeCall, CodeSize]
    cases r.1.data.codeSize with
    | some n => exact ⟨h, rfl, rfl⟩
    | none =>
      simp only
      rw [Code_of_settled H db r.1 r.2 h]
      exact ⟨h, rfl, rfl⟩

theorem codeCalls_of_settled (H : Hasher) (db : Database) (calls : List CodeCall)
    (r : StateObject × World) (h : Settled H r.1) :
    (codeCalls H db r calls).2.dbReads = r.2.dbReads
      ∧ (codeCalls H db r calls).1.dbErr = r.1.dbErr := by
  induction calls generalizing r with
  | nil => exact ⟨rfl, rfl⟩
  | cons c rest ih =>
    obtain ⟨h1, h2, h3⟩ := codeCall_of_settled H db r c h
    have := ih (codeCall H db r c) h1
    simp only [codeCalls, List.foldl_cons] at this ⊢
    exact ⟨this.1.trans h2, this.2.trans h3⟩

/-- One call either reads nothing and leaves the code hash, or reads once and leaves
the object settled, when the store holds bytes under the code hash. -/
theorem codeCall_step (H : Hasher) (db : Database) (r : StateObject × World) (c : CodeCall)
    (hget : (db.Get (r.1.data.CodeHash.getD [])).1 ≠ none) :
    ((codeCall H db r c).2.dbReads = r.2.dbReads
        ∧ (codeCall H db r c).1.data.CodeHash = r.1.data.CodeHash)
      ∨ ((codeCall H db r c).2.dbReads.length = r.2.dbReads.length + 1
        ∧ Settled H (codeCall H db r c).1) := by
  by_cases hs : Settled H r.1
  · left
    obtain ⟨-, h2, -⟩ := codeCall_of_settled H db r c hs
    refine ⟨h2, ?_⟩
    cases c with
    | code =>
      simp only [codeCall]
      rw [Code_of_settled H db r.1 r.2 hs]
    | codeSize =>
      simp only [codeCall, CodeSize]
      cases r.1.data.codeSize with
      | some n => rfl
      | none =>
        simp only
        rw [Code_of_settled H db r.1 r.2 hs]
  · obtain ⟨-, h2, h3, h4⟩ := Code_of_unsettled H db r.1 r.2 hs
    cases c with
    | code =>
      right
      simp only [codeCall]
      refine ⟨by rw [h4]; simp, Or.inl ?_⟩
      rw [h2]
      exact hget
    | codeSize =>
      simp only [codeCall, CodeSize]
      cases r.1.data.codeSize with
      | some n => exact Or.inl ⟨rfl, rfl⟩
      | none =>
        right
        simp only
        refine ⟨by rw [h4]; simp, Or.inl ?_⟩
        show (Code H db r.1 r.2).2.1.code ≠ none
        rw [h2]
        exact hget

theorem codeCalls_reads_le (H : Hasher) (db : Database) (calls : List CodeCall)
    (r : StateObject × World)
    (hget : (db.Get (r.1.data.CodeHash.getD [])).1 ≠ none) :
    (codeCalls H db r calls).2.dbReads.length ≤ r.2.dbReads.length + 1 := by
  induction calls generalizing r with
  | nil => simp [codeCalls]
  | cons c rest ih =>
    simp only [codeCalls, List.foldl_cons]
    rcases codeCall_step H db r c hget with ⟨h1, h2⟩ | ⟨h1, h2⟩
    · have := ih (codeCall H db r c) (by rw [h2]; exact hget)
      simp only [codeCalls] at this
      rw [h1] at this
      exact this
    · have := (codeCalls_of_settled H db rest (codeCall H db r c) h2).1
      simp only [codeCalls] at this
      rw [this, h1]

/-- A read that fails: `Code` returns nil, records the error through `setError`, leaves
the code nil and has read the store once. -/
theorem Code_of_failed_read (H : Hasher) (db : Database) (o : StateObject) (w : World)
    (err : String) (hc : o.code = none)
    (hb : bytesEqual (o.data.CodeHash.getD []) (emptyCodeHash H) = false)
    (hg : db.Get (o.data.CodeHash.getD []) = (none, some err)) :
    Code H db o w
      = (none,
          { setError o (some ("can't load code hash " ++ hex (o.data.CodeHash.getD [])
              ++ ": " ++ err)) with code := none },
          { w with dbReads := w.dbReads ++ [o.data.CodeHash.getD []] }) := by
  unfold Code
  simp only [hc, hb, hg]
  rfl

theorem setError_data (c : StateObject) (err : Option String) :
    (setError c err).data = c.data := by
  unfold setError
  cases c.dbErr <;> rfl

theorem setError_dbErr_of_none (c : StateObject) (err : Option String)
    (h : c.dbErr = none) : (setError c err).dbErr = err := by
  unfold setError
  rw [h]

/-- Failed reads are not remembered: each of `k` calls of `Code` reads the store. -/
theorem codeCalls_of_failed_reads (H : Hasher) (db : Database) (k : Nat) (o : StateObject)
    (w : World) (err : String) (hc : o.code = none)
    (hb : bytesEqual (o.data.CodeHash.getD []) (emptyCodeHash H) = false)
    (hg : db.Get (o.data.CodeHash.getD []) = (none, some err)) :
    (codeCalls H db (o, w) (List.replicate k CodeCall.code)).2.dbReads
        = w.dbReads ++ List.replicate k (o.data.CodeHash.getD [])
      ∧ (codeCalls H db (o, w) (List.replicate k CodeCall.code)).1.code = none
      ∧ (codeCalls H db (o, w) (List.replicate k CodeCall.code)).1.data = o.data := by
  induction k generalizing o w with
  | zero => simp [codeCalls, hc]
  | succ k ih =>
    have h1 := Code_of_failed_read H db o w err hc hb hg
    have hd : (Code H db o w).2.1.data = o.data := by
      rw [h1]
      exact setError_data _ _
    have hc1 : (Code H db o w).2.1.code = none := by rw [h1]
    have hr : (Code H db o w).2.2.dbReads = w.dbReads ++ [o.data.CodeHash.getD []] := by
      rw [h1]
    have := ih (Code H db o w).2.1 (Code H db o w).2.2 hc1 (by rw [hd]; exact hb)
      (by rw [hd]; exact hg)
    simp only [codeCalls, List.replicate_succ, List.foldl_cons, codeCall] at this ⊢
    rw [hd, hr] at this
    refine ⟨?_, this.2.1, this.2.2⟩
    rw [this.1, List.append_assoc]
    rfl

end StateObject

/-! ## Flags -/

namespace StateObject

theorem initTrie_flags (H : Hasher) (db : Database) (c : StateObject) (w : World) :
    (initTrie H db c w).1.dirty = c.dirty ∧ (initTrie H db c w).1.dirtyCode = c.dirtyCode
      ∧ (initTrie H db c w).1.remove = c.remove := by
  unfold initTrie
  cases c.trie with
  | some p => exact ⟨rfl, rfl, rfl⟩
  | none =>
    cases NewSecure H c.data.Root db with
    | ok t => exact ⟨rfl, rfl, rfl⟩
    | error err =>
      simp only [setError]
      cases c.dbErr <;> exact ⟨rfl, rfl, rfl⟩

theorem GetState_flags (H : Hasher) (db : Database) (self : StateObject) (key : Hash)
    (w : World) :
    (GetState H db self key w).2.1.dirty = self.dirty
      ∧ (GetState H db self key w).2.1.dirtyCode = self.dirtyCode
      ∧ (GetState H db self key w).2.1.remove = self.remove := by
  unfold GetState
  cases Storage.get self.storage key with
  | some v => exact ⟨rfl, rfl, rfl⟩
  | none =>
    simp only
    split <;> exact initTrie_flags H db self w

theorem Code_flags (H : Hasher) (db : Database) (self : StateObject) (w : World) :
    (Code H db self w).2.1.dirty = self.dirty
      ∧ (Code H db self w).2.1.dirtyCode = self.dirtyCode
      ∧ (Code H db self w).2.1.remove = self.remove := by
  unfold Code
  cases self.code with
  | some c => exact ⟨rfl, rfl, rfl⟩
  | none =>
    simp only
    split
    · exact ⟨rfl, rfl, rfl⟩
    · cases (db.Get (self.data.CodeHash.getD [])).2 with
      | none => exact ⟨rfl, rfl, rfl⟩
      | some e =>
        simp only [setError]
        cases self.dbErr <;> exact ⟨rfl, rfl, rfl⟩

theorem CodeSize_flags (H : Hasher) (db : Database) (self : StateObject) (w : World) :
    (CodeSize H db self w).2.1.dirty = self.dirty
      ∧ (CodeSize H db self w).2.1.dirtyCode = self.dirtyCode
      ∧ (CodeSize H db self w).2.1.remove = self.remove := by
  unfold CodeSize
  cases self.data.codeSize with
  | some n => exact ⟨rfl, rfl, rfl⟩
  | none => exact Code_flags H db self w

theorem updateTrie_flags (H : Hasher) (db : Database) (self : StateObject) (w : World) :
    (updateTrie H db self w).1.dirty = self.dirty
      ∧ (updateTrie H db self w).1.dirtyCode = self.dirtyCode
      ∧ (updateTrie H db self w).1.remove = self.remove := by
  rw [updateTrie_fst]
  exact initTrie_flags H db self w

theorem CommitTrie_flags (H : Hasher) (db dbw : Database) (self : StateObject) (w : World) :
    (CommitTrie H db dbw self w).2.1.dirty = self.dirty
      ∧ (CommitTrie H db dbw self w).2.1.dirtyCode = self.dirtyCode
      ∧ (CommitTrie H db dbw self w).2.1.remove = self.remove := by
  have h := updateTrie_flags H db self w
  unfold CommitTrie
  simp only
  split
  · exact h
  · split <;> exact h

theorem CommitTrie_err_of_no_dbErr (H : Hasher) (db dbw : Database) (self : StateObject)
    (w : World) (h : (updateTrie H db self w).1.dbErr = none) :
    (CommitTrie H db dbw self w).1 = dbw.writeFault := by
  unfold CommitTrie
  simp only [h]
  unfold SecureTrie.CommitTo
  cases dbw.writeFault <;> rfl

end StateObject

end state

namespace crypto

/-! ## Framing facts -/

theorem PKCS7Unpad_PKCS7Pad (x : List state.Byte) : PKCS7Unpad (PKCS7Pad x) = some x := by
  have hval : (state.Byte.ofNat (16 - x.length % 16)).val = 16 - x.length % 16 := by
    simp only [state.Byte.ofNat]
    omega
  have hlen : (PKCS7Pad x).length = x.length + (16 - x.length % 16) := by
    rw [PKCS7Pad_eq]; simp
  have hlast : (PKCS7Pad x).getD ((PKCS7Pad x).length - 1) 0
      = state.Byte.ofNat (16 - x.length % 16) := by
    rw [hlen, PKCS7Pad_eq]
    exact getD_append_replicate x _ _ _ (by omega) (by omega)
  have hne : state.Byte.ofNat (16 - x.length % 16) ≠ 0 := by
    intro h
    have := congrArg Fin.val h
    rw [hval] at this
    simp at this
    omega
  unfold PKCS7Unpad
  simp only [hlast, hval]
  rw [if_neg (by rw [hlen]; omega), if_neg (by rw [hlen]; unfold aesBlockSize; omega),
    if_neg hne]
  have hall : (List.range (16 - x.length % 16)).all
      (fun j => decide ((PKCS7Pad x).getD ((PKCS7Pad x).length - 1 - j) 0
        = state.Byte.ofNat (16 - x.length % 16))) = true := by
    rw [List.all_eq_true]
    intro j hj
    have hj' : j < 16 - x.length % 16 := List.mem_range.1 hj
    rw [decide_eq_true_eq, hlen, PKCS7Pad_eq]
    exact getD_append_replicate x _ _ _ (by omega) (by omega)
  rw [if_pos hall, hlen]
  have : x.length + (16 - x.length % 16) - (16 - x.length % 16) = x.length := by omega
  rw [this, PKCS7Pad_eq, List.take_left']
  rfl

end crypto

namespace secp256k1

/-! ## Signature facts -/

set_option maxRecDepth 100000 in
theorem high_bit_iff (x : state.Byte) : (x.val &&& 0x80 = 0x80) ↔ 128 ≤ x.val := by
  revert x
  decide

end secp256k1

namespace state

/-! ## Claims -/

/-- C1: for every state object, key and value (the zero value included), `SetState`
immediately followed by `GetState` returns the value just written; the read is served
from the cache and changes neither the object nor the world. -/
theorem C1_GetState_after_SetState (H : Hasher) (db : Database) (self : StateObject)
    (key value : Hash) (w : World) :
    StateObject.GetState H db (StateObject.SetState self key value) key w
      = (value, StateObject.SetState self key value, w) := by
  simp [StateObject.GetState, StateObject.SetState, Storage.get_set_self]

/-- C2: in the end-to-end scenario (fresh object, `SetBalance(100)`, `SetNonce(1)`,
`SetState(K, V)`, a `CommitTrie` that returns no error), a new object created from the
written record over the written store reads `V` for `K`, balance 100 and nonce 1.  The
root of a non-empty trie is taken to differ from the zero digest and from the root of
the empty trie. -/
theorem C2_commit_reads_back (H : Hasher) (db dbw : Database) (addr addr2 : Address)
    (K V : Hash) (w : World)
    (hok : (endToEndCommit H db dbw addr K V w).1 = none)
    (hroot : V ≠ Hash.zero →
      H.trieRoot [(K.bytes, rlpEncodeBytes (TrimLeft V.bytes))] ≠ Hash.zero
      ∧ H.trieRoot [(K.bytes, rlpEncodeBytes (TrimLeft V.bytes))] ≠ H.trieRoot []) :
    (StateObject.GetState H (endToEndCommit H db dbw addr K V w).2.2.2
        (endToEndLoad H addr2 (endToEndCommit H db dbw addr K V w)).1 K
        (endToEndLoad H addr2 (endToEndCommit H db dbw addr K V w)).2).1 = V
      ∧ StateObject.balanceValue (endToEndLoad H addr2 (endToEndCommit H db dbw addr K V w)).1
          (endToEndLoad H addr2 (endToEndCommit H db dbw addr K V w)).2 = 100
      ∧ StateObject.Nonce (endToEndLoad H addr2 (endToEndCommit H db dbw addr K V w)).1 = 1
      ∧ (endToEndLoad H addr2 (endToEndCommit H db dbw addr K V w)).1.data.Root
          = (endToEndCommit H db dbw addr K V w).2.1.data.Root := by
  have hT : ∀ (o1 : StateObject) (w1 : World) (p : Ptr),
      o1.trie = none → o1.storage = Storage.set [] K V → o1.data.Root = Hash.zero →
      o1.data.Nonce = 1 → o1.data.Balance = some p → w1.intAt p = 100 →
      (StateObject.CommitTrie H db dbw o1 w1).1 = none →
      (StateObject.GetState H (StateObject.CommitTrie H db dbw o1 w1).2.2.2
          (endToEndLoad H addr2 (StateObject.CommitTrie H db dbw o1 w1)).1 K
          (endToEndLoad H addr2 (StateObject.CommitTrie H db dbw o1 w1)).2).1 = V
        ∧ StateObject.balanceValue (endToEndLoad H addr2 (StateObject.CommitTrie H db dbw o1 w1)).1
            (endToEndLoad H addr2 (StateObject.CommitTrie H db dbw o1 w1)).2 = 100
        ∧ StateObject.Nonce (endToEndLoad H addr2 (StateObject.CommitTrie H db dbw o1 w1)).1 = 1
        ∧ (endToEndLoad H addr2 (StateObject.CommitTrie H db dbw o1 w1)).1.data.Root
            = (StateObject.CommitTrie H db dbw o1 w1).2.1.data.Root := by
    intro o1 w1 p htrie hstor hRoot hNonce hBal hInt hok1
    obtain ⟨e1, e2, -⟩ := StateObject.CommitTrie_of_success H db dbw o1 w1 hok1
    have e3 := StateObject.CommitTrie_writer_of_success H db dbw o1 w1 hok1
    have hopen : openedTrie H Hash.zero db = SecureTrie.empty := by
      simp [openedTrie, NewSecure_zero]
    have hflush : StateObject.trieOf (StateObject.updateTrie H db o1 w1).1
        (StateObject.updateTrie H db o1 w1).2
        = StateObject.flushEntry SecureTrie.empty (K, V) := by
      rw [StateObject.trieOf_updateTrie_of_none H db o1 w1 htrie, hstor, hRoot, hopen]
      rfl
    rw [hflush] at e1 e3
    have hdata : (StateObject.updateTrie H db o1 w1).1.data = o1.data :=
      StateObject.updateTrie_data H db o1 w1
    refine ⟨?_, ?_, ?_, ?_⟩
    · unfold endToEndLoad
      rw [GetState_NewObject]
      show BytesToHash (rlpDecodeBytes ((openedTrie H
        (StateObject.CommitTrie H db dbw o1 w1).2.1.data.Root
        (StateObject.CommitTrie H db dbw o1 w1).2.2.2).Get K.bytes)) = V
      rw [e1]
      simp only [openedTrie, NewSecure, e3]
      by_cases hV : V = Hash.zero
      · subst hV
        simp [StateObject.flushEntry, SecureTrie.Delete, SecureTrie.Hash, SecureTrie.empty,
          entriesDelete, SecureTrie.Get, entriesGet, lookupKey, decode_absent]
      · obtain ⟨hr1, hr2⟩ := hroot hV
        simp [StateObject.flushEntry, hV, SecureTrie.Update, rlpEncodeBytes_ne_nil,
          SecureTrie.Hash, SecureTrie.empty, entriesUpdate, hr1, hr2, lookupKey,
          SecureTrie.Get, entriesGet, storage_value_roundtrip]
    · unfold endToEndLoad
      simp only [NewObject, decodeAccount, StateObject.balanceValue, World.intAt_newInt]
      unfold StateObject.EncodeRLP
      rw [e1, e2]
      simp only [StateObject.balanceValue, hdata, hBal]
      simp only [World.intAt, StateObject.updateTrie_ints] at hInt ⊢
      exact hInt
    · unfold endToEndLoad
      simp only [NewObject, decodeAccount, StateObject.Nonce, StateObject.EncodeRLP]
      rw [e1]
      simp only [hdata, hNonce]
    · unfold endToEndLoad
      simp only [NewObject, decodeAccount, StateObject.EncodeRLP]
  exact hT _ _ ((NewObject H addr
      { Nonce := 0, Balance := none, Root := Hash.zero, CodeHash := none, codeSize := none }
      w).2.newInt 100).1 rfl rfl rfl rfl rfl (World.intAt_newInt _ _) hok

/-- A use of `C2_commit_reads_back`: the end-to-end scenario at the sample key and
value over an empty store. -/
theorem C2_commit_reads_back_witness :
    (endToEndCommit sampleHasher sampleDb sampleDb sampleAddress sampleKey sampleValue
        sampleWorld).1 = none
    ∧ (StateObject.GetState sampleHasher
        (endToEndCommit sampleHasher sampleDb sampleDb sampleAddress sampleKey sampleValue
          sampleWorld).2.2.2
        (endToEndLoad sampleHasher sampleAddress
          (endToEndCommit sampleHasher sampleDb sampleDb sampleAddress sampleKey sampleValue
            sampleWorld)).1 sampleKey
        (endToEndLoad sampleHasher sampleAddress
          (endToEndCommit sampleHasher sampleDb sampleDb sampleAddress sampleKey sampleValue
            sampleWorld)).2).1 = sampleValue :=
  ⟨by decide,
    (C2_commit_reads_back sampleHasher sampleDb sampleDb sampleAddress sampleAddress
      sampleKey sampleValue sampleWorld (by decide) (fun _ => by decide)).1⟩

/-- C3: for every object and key, `SetState(k, ZERO)` followed by `UpdateRoot` gives a
storage root such that a fresh object created at that root reads the zero value for
`k`, whatever the store it opens its trie from holds, as long as the store is
content-addressed and holds nothing that collides with the flushed trie. -/
theorem C3_deletion_durable (H : Hasher) (db db2 : Database) (self : StateObject)
    (k : Hash) (w w2 : World) (addr : Address) (acct : Account)
    (hroot : acct.Root
      = (StateObject.UpdateRoot H db (StateObject.SetState self k Hash.zero) w).1.data.Root)
    (hsound : db2.Sound H)
    (hbind : db2.CollisionFree H
      ((StateObject.UpdateRoot H db (StateObject.SetState self k Hash.zero) w).1.trieOf
        (StateObject.UpdateRoot H db (StateObject.SetState self k Hash.zero) w).2).entries) :
    (StateObject.GetState H db2 (NewObject H addr acct w2).1 k (NewObject H addr acct w2).2).1
      = Hash.zero := by
  rw [GetState_NewObject, hroot]
  have hT : ((StateObject.UpdateRoot H db (StateObject.SetState self k Hash.zero) w).1.trieOf
        (StateObject.UpdateRoot H db (StateObject.SetState self k Hash.zero) w).2)
      = (StateObject.updateTrie H db (StateObject.SetState self k Hash.zero) w).1.trieOf
          (StateObject.updateTrie H db (StateObject.SetState self k Hash.zero) w).2 := rfl
  rw [hT] at hbind
  have hR : (StateObject.UpdateRoot H db (StateObject.SetState self k Hash.zero) w).1.data.Root
      = H.trieRoot ((StateObject.updateTrie H db (StateObject.SetState self k Hash.zero) w).1.trieOf
          (StateObject.updateTrie H db (StateObject.SetState self k Hash.zero) w).2).entries := rfl
  rw [hR]
  have hget : entriesGet k.bytes
      ((StateObject.updateTrie H db (StateObject.SetState self k Hash.zero) w).1.trieOf
        (StateObject.updateTrie H db (StateObject.SetState self k Hash.zero) w).2).entries
      = none := by
    obtain ⟨p, hp⟩ := StateObject.initTrie_trie H db (StateObject.SetState self k Hash.zero) w
    rw [StateObject.updateTrie_eq H db _ w p hp]
    simp only [StateObject.trieOf, hp]
    rw [World.trieAt_setTrie]
    split
    · rw [flush_get]
      show flushGet k.bytes (Storage.set self.storage k Hash.zero) _ = none
      rw [flushGet_set]
      simp [flushValue]
    · rfl
  rcases openedTrie_cases H db2 _ hsound hbind with h | h
  · rw [h]
    exact decode_absent
  · rw [h]
    simp only [SecureTrie.Get, hget]
    exact decode_absent

/-- A use of `C3_deletion_durable`: the trie holds both sample keys, the second one
is set to zero and the fresh object opens the resulting root from `sampleStore`. -/
theorem C3_deletion_durable_witness :
    (StateObject.UpdateRoot sampleHasher sampleDb
        (StateObject.SetState sampleSynced.1 sampleKey2 Hash.zero) sampleSynced.2).1.data.Root
      = BytesToHash [2, 0]
    ∧ (StateObject.GetState sampleHasher sampleStore
        (NewObject sampleHasher sampleAddress
          { sampleAccount with Root := BytesToHash [2, 0] } sampleWorld).1 sampleKey2
        (NewObject sampleHasher sampleAddress
          { sampleAccount with Root := BytesToHash [2, 0] } sampleWorld).2).1 = Hash.zero :=
  ⟨by decide,
    C3_deletion_durable sampleHasher sampleDb sampleStore sampleSynced.1 sampleKey2
      sampleSynced.2 sampleWorld sampleAddress
      { sampleAccount with Root := BytesToHash [2, 0] } (by decide) sampleStore_sound
      (by
        have h : ((StateObject.UpdateRoot sampleHasher sampleDb
            (StateObject.SetState sampleSynced.1 sampleKey2 Hash.zero)
            sampleSynced.2).1.trieOf
          (StateObject.UpdateRoot sampleHasher sampleDb
            (StateObject.SetState sampleSynced.1 sampleKey2 Hash.zero)
            sampleSynced.2).2).entries = sampleEntries := by decide
        rw [h]
        exact sampleStore_collisionFree)⟩

/-- C4: two consecutive successful `CommitTrie` calls with no write in between leave
the same storage root, and the second flush of the never-cleared cache leaves the
contents of the storage trie as they were (the tries of the heap and of the store
being canonical). -/
theorem C4_CommitTrie_idempotent (H : Hasher) (db dbw db2 dbw2 : Database)
    (self : StateObject) (w : World) (hw : w.WF) (hdb : db.WF)
    (h1 : (StateObject.CommitTrie H db dbw self w).1 = none)
    (h2 : (StateObject.CommitTrie H db2 dbw2 (StateObject.CommitTrie H db dbw self w).2.1
            (StateObject.CommitTrie H db dbw self w).2.2.1).1 = none) :
    (StateObject.CommitTrie H db2 dbw2 (StateObject.CommitTrie H db dbw self w).2.1
        (StateObject.CommitTrie H db dbw self w).2.2.1).2.1.data.Root
      = (StateObject.CommitTrie H db dbw self w).2.1.data.Root
    ∧ (StateObject.CommitTrie H db2 dbw2 (StateObject.CommitTrie H db dbw self w).2.1
        (StateObject.CommitTrie H db dbw self w).2.2.1).2.1.trieOf
        (StateObject.CommitTrie H db2 dbw2 (StateObject.CommitTrie H db dbw self w).2.1
          (StateObject.CommitTrie H db dbw self w).2.2.1).2.2.1
      = (StateObject.CommitTrie H db dbw self w).2.1.trieOf
          (StateObject.CommitTrie H db dbw self w).2.2.1 := by
  obtain ⟨e1, ew1, -⟩ := StateObject.CommitTrie_of_success H db dbw self w h1
  obtain ⟨p, hp, hfix⟩ := StateObject.flush_trieOf_updateTrie H db self w hw hdb
  obtain ⟨e2, ew2, -⟩ := StateObject.CommitTrie_of_success H db2 dbw2 _ _ h2
  generalize StateObject.CommitTrie H db dbw self w = first at *
  obtain ⟨err1, o1, w1, dbw1⟩ := first
  simp only at e1 ew1 e2 ew2 h2 ⊢
  have ho1t : o1.trie = some p := by rw [e1]; exact hp
  have ho1s : o1.storage = self.storage := by
    rw [e1]; exact StateObject.updateTrie_storage H db self w
  obtain ⟨u1, u2, u3⟩ := StateObject.trieOf_updateTrie_of_some H db2 o1 w1 p ho1t
  rw [ho1s, ew1, hfix, ← ew1] at u3
  generalize StateObject.CommitTrie H db2 dbw2 o1 w1 = second at *
  obtain ⟨err2, o2, w2, dbw3⟩ := second
  simp only at e2 ew2 ⊢
  have ht1 : o1.trieOf w1 = w1.trieAt p := by simp [StateObject.trieOf, ho1t]
  have ho2t : o2.trie = some p := by rw [e2, u1]; exact ho1t
  have ht2 : o2.trieOf w2 = w1.trieAt p := by
    rw [← u3, ew2]
    simp only [StateObject.trieOf, ho2t, u1, ho1t]
  refine ⟨?_, by rw [ht2, ht1]⟩
  rw [e2, u3]
  simp only
  rw [e1]
  simp only
  rw [← ew1]
  have : (StateObject.updateTrie H db self w).1.trieOf w1 = w1.trieAt p := by
    simp [StateObject.trieOf, hp]
  rw [this]

/-- A use of `C4_CommitTrie_idempotent`: two commits of the written sample object. -/
theorem C4_CommitTrie_idempotent_witness :
    (StateObject.CommitTrie sampleHasher sampleDb sampleDb sampleWritten sampleObject.2).1
      = none
    ∧ (StateObject.CommitTrie sampleHasher sampleDb sampleDb
        (StateObject.CommitTrie sampleHasher sampleDb sampleDb sampleWritten
          sampleObject.2).2.1
        (StateObject.CommitTrie sampleHasher sampleDb sampleDb sampleWritten
          sampleObject.2).2.2.1).2.1.data.Root
      = (StateObject.CommitTrie sampleHasher sampleDb sampleDb sampleWritten
          sampleObject.2).2.1.data.Root :=
  ⟨by decide,
    (C4_CommitTrie_idempotent sampleHasher sampleDb sampleDb sampleDb sampleDb sampleWritten
      sampleObject.2 sampleObject_WF sampleDb_WF (by decide) (by decide)).1⟩

/-- C5: at a freshly created object with balance 0, `Copy` returns an object that
holds the very balance handle of the original, and setting the integer behind the
copy's handle to 7 in place makes the balance of the original read 7. -/
theorem C5_Copy_aliases_balance :
    (StateObject.Copy sampleHasher sampleDb sampleObject.1 sampleObject.2).map
        (fun r => (StateObject.Balance r.1, StateObject.Balance sampleObject.1))
      = some (some 0, some 0)
    ∧ (StateObject.Copy sampleHasher sampleDb sampleObject.1 sampleObject.2).map
        (fun r => StateObject.balanceValue sampleObject.1 r.2) = some 0
    ∧ (StateObject.Copy sampleHasher sampleDb sampleObject.1 sampleObject.2).bind
        (fun r => (StateObject.Balance r.1).map
          (fun p => StateObject.balanceValue sampleObject.1 (r.2.setInt p 7))) = some 7 := by
  decide

/-- C6 (as stated, refuted): the sample object has its trie open and no cache entry
for `sampleKey`, for which it reads the zero value; after its copy performs
`SetState(sampleKey, sampleValue)` and `UpdateRoot`, the original reads `sampleValue`
for that key. -/
theorem C6_copy_flush_is_visible :
    sampleObject.1.trie = some 0
    ∧ Storage.get sampleObject.1.storage sampleKey = none
    ∧ (StateObject.GetState sampleHasher sampleDb sampleObject.1 sampleKey sampleObject.2).1
        = Hash.zero
    ∧ (StateObject.Copy sampleHasher sampleDb sampleObject.1 sampleObject.2).map
        (fun r => (StateObject.GetState sampleHasher sampleDb sampleObject.1 sampleKey
          (StateObject.UpdateRoot sampleHasher sampleDb
            (StateObject.SetState r.1 sampleKey sampleValue) r.2).2).1)
        = some sampleValue
    ∧ sampleValue ≠ Hash.zero := by
  decide

/-- C6 (amended): a copy taken from an object whose trie is open shares the trie
handle, so after the copy performs `SetState(k, v)` and a sync (`UpdateRoot` or
`CommitTrie`), `GetState(k)` on the original, for a key absent from its cache, returns
`v`, the value the copy flushed; and the same with the two objects exchanged. -/
theorem C6_copy_shares_trie (H : Hasher) (db dbw : Database) (o c : StateObject)
    (w w1 : World) (p : Ptr) (k v : Hash)
    (htrie : o.trie = some p) (hp : p < w.tries.length)
    (hcopy : StateObject.Copy H db o w = some (c, w1))
    (hmiss : Storage.get o.storage k = none) :
    (StateObject.GetState H db o k
        (StateObject.UpdateRoot H db (StateObject.SetState c k v) w1).2).1 = v
    ∧ (StateObject.GetState H db o k
        (StateObject.CommitTrie H db dbw (StateObject.SetState c k v) w1).2.2.1).1 = v
    ∧ (StateObject.GetState H db c k
        (StateObject.UpdateRoot H db (StateObject.SetState o k v) w1).2).1 = v
    ∧ (StateObject.GetState H db c k
        (StateObject.CommitTrie H db dbw (StateObject.SetState o k v) w1).2.2.1).1 = v := by
  obtain ⟨hct, hcs, hw, -⟩ := StateObject.Copy_some H db o c w w1 hcopy
  subst hw
  have hctrie : c.trie = some p := by rw [hct]; exact htrie
  have hcmiss : Storage.get c.storage k = none := by
    rw [hcs]; exact Storage.get_Copy_none _ _ hmiss
  have h1 := StateObject.GetState_after_shared_flush H db c o w1 p k v hctrie htrie hp hmiss
  have h2 := StateObject.GetState_after_shared_flush H db o c w1 p k v htrie hctrie hp hcmiss
  refine ⟨h1, ?_, h2, ?_⟩
  · rw [StateObject.CommitTrie_world]; exact h1
  · rw [StateObject.CommitTrie_world]; exact h2

/-- A use of `C6_copy_shares_trie`: the sample object and its copy. -/
theorem C6_copy_shares_trie_witness :
    (StateObject.GetState sampleHasher sampleDb sampleObject.1 sampleKey
        (StateObject.UpdateRoot sampleHasher sampleDb
          (StateObject.SetState sampleObject.1 sampleKey sampleValue) sampleObject.2).2).1
      = sampleValue :=
  (C6_copy_shares_trie sampleHasher sampleDb sampleDb sampleObject.1 sampleObject.1
    sampleObject.2 sampleObject.2 0 sampleKey sampleValue (by decide) (by decide)
    (by decide) (by decide)).1

/-- C7: for an object with an initialised trie, `ForEachStorage` calls the callback
first on every cache entry and then on trie entries only; the keys it is called with
are pairwise different and are exactly the keys of the cache together with the keys of
the trie (a Go map holds a key once, the trie is canonical and its keys are digests). -/
theorem C7_ForEachStorage_visits_union (self : StateObject) (w : World) (p : Ptr)
    (htrie : self.trie = some p) (hs : Storage.WF self.storage)
    (ht : (w.trieAt p).WF)
    (hk : ∀ e ∈ (w.trieAt p).entries, e.1.length = HashLength) :
    ∃ rest : List (Hash × Hash),
      StateObject.ForEachStorage self w = some (self.storage ++ rest)
      ∧ ((self.storage ++ rest).map Prod.fst).Nodup
      ∧ (∀ k : Hash, k ∈ (self.storage ++ rest).map Prod.fst ↔
          (k ∈ Storage.keys self.storage ∨ k.bytes ∈ (w.trieAt p).entries.map Prod.fst))
      ∧ (∀ e ∈ rest, e.1 ∉ Storage.keys self.storage
          ∧ e.1.bytes ∈ (w.trieAt p).entries.map Prod.fst) := by
  refine ⟨(w.trieAt p).Iterator.filterMap fun it =>
        match Storage.get self.storage (BytesToHash it.1) with
        | some _ => none
        | none => some (BytesToHash it.1, BytesToHash it.2), ?_, ?_, ?_, ?_⟩
  · simp [StateObject.ForEachStorage, htrie]
  all_goals
    have hmem : ∀ e : Hash × Hash,
        e ∈ ((w.trieAt p).Iterator.filterMap fun it =>
          match Storage.get self.storage (BytesToHash it.1) with
          | some _ => none
          | none => some (BytesToHash it.1, BytesToHash it.2)) ↔
        ∃ it ∈ (w.trieAt p).entries, Storage.get self.storage (BytesToHash it.1) = none
          ∧ e = (BytesToHash it.1, BytesToHash it.2) := by
      intro e
      simp only [List.mem_filterMap, SecureTrie.Iterator]
      constructor
      · rintro ⟨it, hit, hf⟩
        refine ⟨it, hit, ?_⟩
        cases hg : Storage.get self.storage (BytesToHash it.1) with
        | some v => simp [hg] at hf
        | none =>
          simp [hg] at hf
          exact ⟨rfl, hf.symm⟩
      · rintro ⟨it, hit, hg, he⟩
        exact ⟨it, hit, by simp [hg, he]⟩
  · rw [List.map_append, List.nodup_append]
    refine ⟨hs, ?_, ?_⟩
    · rw [List.map_filterMap]
      unfold List.Nodup
      rw [List.pairwise_filterMap]
      have ht' : (w.trieAt p).entries.Pairwise (fun a b => a.1 < b.1) := ht
      have ht2 : (w.trieAt p).entries.Pairwise
          (fun a b => a.1 < b.1 ∧ a.1.length = HashLength ∧ b.1.length = HashLength) := by
        refine (List.pairwise_and_iff.2 ⟨ht', ?_⟩)
        rw [List.pairwise_iff_forall_sublist]
        intro a b hab
        have ha : a ∈ (w.trieAt p).entries := hab.subset (by simp)
        have hb : b ∈ (w.trieAt p).entries := hab.subset (by simp)
        exact ⟨hk a ha, hk b hb⟩
      refine ht2.imp ?_
      intro a b hab k1 hk1 k2 hk2 heq
      cases hga : Storage.get self.storage (BytesToHash a.1) with
      | some v => simp [hga] at hk1
      | none =>
        cases hgb : Storage.get self.storage (BytesToHash b.1) with
        | some v => simp [hgb] at hk2
        | none =>
          simp [hga] at hk1
          simp [hgb] at hk2
          rw [← hk1, ← hk2] at heq
          have h1 := congrArg Hash.bytes heq
          rw [BytesToHash_bytes_of_length _ hab.2.1,
            BytesToHash_bytes_of_length _ hab.2.2] at h1
          exact absurd h1 (ne_of_lt hab.1)
    · intro k hk1 hk2
      obtain ⟨e, he, rfl⟩ := List.mem_map.1 hk2
      obtain ⟨it, _, hg, rfl⟩ := (hmem e).1 he
      have := (lookupKey_eq_none_iff _ _).1 hg
      exact this hk1
  · intro k
    rw [List.map_append, List.mem_append]
    constructor
    · rintro (h | h)
      · exact Or.inl h
      · obtain ⟨e, he, rfl⟩ := List.mem_map.1 h
        obtain ⟨it, hit, _, rfl⟩ := (hmem e).1 he
        right
        simp only
        rw [BytesToHash_bytes_of_length _ (hk it hit)]
        exact List.mem_map_of_mem _ hit
    · rintro (h | h)
      · exact Or.inl h
      · by_cases hc : k ∈ Storage.keys self.storage
        · exact Or.inl hc
        · right
          obtain ⟨it, hit, hkb⟩ := List.mem_map.1 h
          have hkk : BytesToHash it.1 = k := by
            rw [hkb]; exact BytesToHash_bytes k
          refine List.mem_map.2 ⟨(BytesToHash it.1, BytesToHash it.2), ?_, hkk⟩
          refine (hmem _).2 ⟨it, hit, ?_, rfl⟩
          rw [hkk]
          exact (lookupKey_eq_none_iff _ _).2 hc
  · intro e he
    obtain ⟨it, hit, hg, rfl⟩ := (hmem e).1 he
    refine ⟨(lookupKey_eq_none_iff _ _).1 hg, ?_⟩
    simp only
    rw [BytesToHash_bytes_of_length _ (hk it hit)]
    exact List.mem_map_of_mem _ hit

/-- A use of `C7_ForEachStorage_visits_union`: the cache holds `sampleKey`, the trie
holds both sample keys. -/
theorem C7_ForEachStorage_visits_union_witness :
    ∃ rest : List (Hash × Hash),
      StateObject.ForEachStorage sampleReader sampleSynced.2
        = some (sampleReader.storage ++ rest) :=
  (C7_ForEachStorage_visits_union sampleReader sampleSynced.2 0 (by decide)
    (by unfold Storage.WF Storage.keys; decide)
    (by unfold SecureTrie.WF entriesSorted; decide)
    (by decide)).imp fun _ h => h.1

/-- C8: after `SetCode(b)`, `Code` returns exactly `b` and leaves the object and the
world (the trace of code-store reads included) untouched, `CodeHash` is the hash of
`b`, `CodeSize` is the length of `b`, and `dirty` and `dirtyCode` are set; for an empty
or nil `b` the code hash is the empty-code constant and the code is empty. -/
theorem C8_SetCode_then_Code (H : Hasher) (db : Database) (self : StateObject)
    (b : Option (List Byte)) (w : World) :
    StateObject.Code H db (StateObject.SetCode H self b) w
        = (b, StateObject.SetCode H self b, w)
      ∧ StateObject.CodeHash (StateObject.SetCode H self b) = some (H.keccak256 (b.getD []))
      ∧ StateObject.CodeSize H db (StateObject.SetCode H self b) w
        = ((b.getD []).length, StateObject.SetCode H self b, w)
      ∧ (StateObject.SetCode H self b).dirty = true
      ∧ (StateObject.SetCode H self b).dirtyCode = true
      ∧ (b.getD [] = [] →
          StateObject.CodeHash (StateObject.SetCode H self b) = some (emptyCodeHash H)
          ∧ (StateObject.Code H db (StateObject.SetCode H self b) w).1.getD [] = []) := by
  have hcode : StateObject.Code H db (StateObject.SetCode H self b) w
      = (b, StateObject.SetCode H self b, w) := by
    cases b with
    | some c => simp [StateObject.Code, StateObject.SetCode]
    | none => simp [StateObject.Code, StateObject.SetCode, bytesEqual, emptyCodeHash]
  refine ⟨hcode, rfl, ?_, rfl, rfl, ?_⟩
  · simp [StateObject.CodeSize, StateObject.SetCode]
  · intro hb
    rw [hcode]
    exact ⟨by simp [StateObject.CodeHash, StateObject.SetCode, emptyCodeHash, hb], hb⟩

/-- C9: when the sticky error is set once `updateTrie` has flushed the cache,
`CommitTrie` returns exactly that error, leaves the writer as it was (no `CommitTo`)
and leaves the storage root of the account as it was before the call. -/
theorem C9_CommitTrie_fails_closed (H : Hasher) (db dbw : Database) (self : StateObject)
    (w : World) (e : String)
    (h : (StateObject.updateTrie H db self w).1.dbErr = some e) :
    StateObject.CommitTrie H db dbw self w
        = (some e, (StateObject.updateTrie H db self w).1,
            (StateObject.updateTrie H db self w).2, dbw)
      ∧ (StateObject.CommitTrie H db dbw self w).2.1.data.Root = self.data.Root := by
  have hc : StateObject.CommitTrie H db dbw self w
      = (some e, (StateObject.updateTrie H db self w).1,
          (StateObject.updateTrie H db self w).2, dbw) := by
    simp only [StateObject.CommitTrie, h]
  refine ⟨hc, ?_⟩
  rw [hc]
  simp [StateObject.updateTrie_data]

/-- A use of `C9_CommitTrie_fails_closed`: the root of the account is missing from
the store, so the error is recorded while the trie is initialised. -/
theorem C9_CommitTrie_fails_closed_witness :
    (StateObject.updateTrie sampleHasher sampleDb sampleBroken.1 sampleBroken.2).1.dbErr
      = some ("can't create storage trie: "
          ++ ("missing trie node " ++ hex (BytesToHash [9]).bytes))
    ∧ (StateObject.CommitTrie sampleHasher sampleDb sampleDb sampleBroken.1
        sampleBroken.2).2.1.data.Root = sampleBroken.1.data.Root :=
  ⟨by decide,
    (C9_CommitTrie_fails_closed sampleHasher sampleDb sampleDb sampleBroken.1 sampleBroken.2
      ("can't create storage trie: " ++ ("missing trie node " ++ hex (BytesToHash [9]).bytes))
      (by decide)).2⟩

/-- C10: without a sticky error after the flush, a `CommitTo` that returns digest `r`
and no error makes `CommitTrie` return no error and set the storage root to `r`, the
hash of the storage trie after the flush; a `CommitTo` that fails has its error
returned and the storage root keeps the value it had before the call. -/
theorem C10_CommitTrie_success_path (H : Hasher) (db dbw : Database) (self : StateObject)
    (w : World) (h : (StateObject.updateTrie H db self w).1.dbErr = none) :
    (∀ r : Hash,
        (((StateObject.updateTrie H db self w).1.trieOf
            (StateObject.updateTrie H db self w).2).CommitTo H dbw).1 = (r, none) →
        (StateObject.CommitTrie H db dbw self w).1 = none
        ∧ (StateObject.CommitTrie H db dbw self w).2.1.data.Root = r
        ∧ r = ((StateObject.CommitTrie H db dbw self w).2.1.trieOf
                (StateObject.CommitTrie H db dbw self w).2.2.1).Hash H)
      ∧ (∀ (r : Hash) (err : String),
        (((StateObject.updateTrie H db self w).1.trieOf
            (StateObject.updateTrie H db self w).2).CommitTo H dbw).1 = (r, some err) →
        (StateObject.CommitTrie H db dbw self w).1 = some err
        ∧ (StateObject.CommitTrie H db dbw self w).2.1.data.Root = self.data.Root) := by
  constructor
  · intro r hr
    have h2 : (((StateObject.updateTrie H db self w).1.trieOf
        (StateObject.updateTrie H db self w).2).CommitTo H dbw).1.2 = none := by rw [hr]
    have h1 : (((StateObject.updateTrie H db self w).1.trieOf
        (StateObject.updateTrie H db self w).2).CommitTo H dbw).1.1 = r := by rw [hr]
    have hroot : r = ((StateObject.updateTrie H db self w).1.trieOf
        (StateObject.updateTrie H db self w).2).Hash H := by
      rw [← h1]
      unfold SecureTrie.CommitTo at h2 ⊢
      cases hf : dbw.writeFault with
      | none => simp
      | some e0 => simp [hf] at h2
    simp only [StateObject.CommitTrie, h, h2, h1]
    refine ⟨trivial, trivial, ?_⟩
    rw [hroot]
    rfl
  · intro r err hr
    have h2 : (((StateObject.updateTrie H db self w).1.trieOf
        (StateObject.updateTrie H db self w).2).CommitTo H dbw).1.2 = some err := by rw [hr]
    simp only [StateObject.CommitTrie, h, h2]
    exact ⟨trivial, by rw [StateObject.updateTrie_data]⟩

/-- A use of `C10_CommitTrie_success_path`: the commit of the written sample object. -/
theorem C10_CommitTrie_success_path_witness :
    (StateObject.CommitTrie sampleHasher sampleDb sampleDb sampleWritten sampleObject.2).1
        = none
    ∧ (StateObject.CommitTrie sampleHasher sampleDb sampleDb sampleWritten
        sampleObject.2).2.1.data.Root = BytesToHash [2, 0]
    ∧ BytesToHash [2, 0]
      = ((StateObject.CommitTrie sampleHasher sampleDb sampleDb sampleWritten
          sampleObject.2).2.1.trieOf
          (StateObject.CommitTrie sampleHasher sampleDb sampleDb sampleWritten
            sampleObject.2).2.2.1).Hash sampleHasher :=
  (C10_CommitTrie_success_path sampleHasher sampleDb sampleDb sampleWritten sampleObject.2
    (by decide)).1 (BytesToHash [2, 0]) (by decide)

/-- C11: the sticky error is first-wins and never cleared.  While no error is recorded
`setError(e)` records `e`; once an error `e` is recorded, `setError` with any argument
and every operation that returns the object (`GetState`, `Code`, `CodeSize`, `SetState`,
`SetCode`, `SetBalance`, `AddBalance`, `SubBalance`, `SetNonce`, `MarkForDeletion`,
`UpdateRoot`, `CommitTrie`) leave exactly `e` recorded (`ForEachStorage` has no access
to the object: it only reports the calls of the callback). -/
theorem C11_sticky_error_first_wins (H : Hasher) (db dbw : Database) (self : StateObject)
    (w : World) (e : String) (key value : Hash) (code : Option (List Byte))
    (amount : Option Ptr) (nonce : Nat) (h : self.dbErr = some e) :
    (∀ (o : StateObject) (err : Option String), o.dbErr = none →
        (StateObject.setError o err).dbErr = err)
    ∧ (∀ err : Option String, (StateObject.setError self err).dbErr = some e)
    ∧ (StateObject.GetState H db self key w).2.1.dbErr = some e
    ∧ (StateObject.Code H db self w).2.1.dbErr = some e
    ∧ (StateObject.CodeSize H db self w).2.1.dbErr = some e
    ∧ (StateObject.SetState self key value).dbErr = some e
    ∧ (StateObject.SetCode H self code).dbErr = some e
    ∧ (StateObject.SetBalance self amount).dbErr = some e
    ∧ (∀ r, StateObject.AddBalance self amount w = some r → r.1.dbErr = some e)
    ∧ (∀ r, StateObject.SubBalance self amount w = some r → r.1.dbErr = some e)
    ∧ (StateObject.SetNonce self nonce).dbErr = some e
    ∧ (StateObject.MarkForDeletion self).dbErr = some e
    ∧ (StateObject.UpdateRoot H db self w).1.dbErr = some e
    ∧ (StateObject.CommitTrie H db dbw self w).2.1.dbErr = some e := by
  refine ⟨?_, ?_, StateObject.GetState_dbErr_of_some H db self key w e h,
    StateObject.Code_dbErr_of_some H db self w e h,
    StateObject.CodeSize_dbErr_of_some H db self w e h, h, h, h, ?_, ?_, h, h, ?_, ?_⟩
  · intro o err ho
    simp [StateObject.setError, ho]
  · intro err
    rw [StateObject.setError_of_some self err e h]
    exact h
  · intro r hr
    unfold StateObject.AddBalance at hr
    split at hr
    · cases hr
      exact h
    · cases hr
  · intro r hr
    unfold StateObject.SubBalance at hr
    split at hr
    · cases hr
      exact h
    · cases hr
  · exact StateObject.updateTrie_dbErr_of_some H db self w e h
  · rw [StateObject.CommitTrie_dbErr]
    exact StateObject.updateTrie_dbErr_of_some H db self w e h

/-- A use of `C11_sticky_error_first_wins`: the object whose trie failed to open keeps
that error through a later code load that fails as well. -/
theorem C11_sticky_error_first_wins_witness :
    (StateObject.updateTrie sampleHasher sampleDb sampleBrokenCode.1 sampleBrokenCode.2).1.dbErr
      = some ("can't create storage trie: "
          ++ ("missing trie node " ++ hex (BytesToHash [9]).bytes))
    ∧ (sampleDb.Get [7]).2 = some "not found"
    ∧ (StateObject.Code sampleHasher sampleDb
        (StateObject.updateTrie sampleHasher sampleDb sampleBrokenCode.1 sampleBrokenCode.2).1
        (StateObject.updateTrie sampleHasher sampleDb sampleBrokenCode.1
          sampleBrokenCode.2).2).2.1.dbErr
      = some ("can't create storage trie: "
          ++ ("missing trie node " ++ hex (BytesToHash [9]).bytes)) :=
  ⟨by decide, by decide,
    (C11_sticky_error_first_wins sampleHasher sampleDb sampleDb
      (StateObject.updateTrie sampleHasher sampleDb sampleBrokenCode.1 sampleBrokenCode.2).1
      (StateObject.updateTrie sampleHasher sampleDb sampleBrokenCode.1 sampleBrokenCode.2).2
      ("can't create storage trie: " ++ ("missing trie node " ++ hex (BytesToHash [9]).bytes))
      sampleKey sampleValue none none 0 (by decide)).2.2.2.1⟩

/-- C12: balance arithmetic is exact and unvalidated.  For an object whose balance handle
is set and an amount handle holding any integer: `SetBalance` makes the balance read the
amount, `AddBalance` the sum and `SubBalance` the difference over the integers (no
rejection of a negative result); each sets `dirty` and leaves nonce, code, code hash,
storage cache and storage root as they were. -/
theorem C12_balance_arithmetic (c : StateObject) (w : World) (bp ap : Ptr)
    (hb : c.data.Balance = some bp) :
    (StateObject.balanceValue (StateObject.SetBalance c (some ap)) w = w.intAt ap
      ∧ (StateObject.SetBalance c (some ap)).dirty = true
      ∧ (StateObject.SetBalance c (some ap)).data.Nonce = c.data.Nonce
      ∧ (StateObject.SetBalance c (some ap)).code = c.code
      ∧ (StateObject.SetBalance c (some ap)).data.CodeHash = c.data.CodeHash
      ∧ (StateObject.SetBalance c (some ap)).storage = c.storage
      ∧ (StateObject.SetBalance c (some ap)).data.Root = c.data.Root)
    ∧ (∃ r, StateObject.AddBalance c (some ap) w = some r
      ∧ StateObject.balanceValue r.1 r.2 = StateObject.balanceValue c w + w.intAt ap
      ∧ r.1.dirty = true
      ∧ r.1.data.Nonce = c.data.Nonce
      ∧ r.1.code = c.code
      ∧ r.1.data.CodeHash = c.data.CodeHash
      ∧ r.1.storage = c.storage
      ∧ r.1.data.Root = c.data.Root)
    ∧ (∃ r, StateObject.SubBalance c (some ap) w = some r
      ∧ StateObject.balanceValue r.1 r.2 = StateObject.balanceValue c w - w.intAt ap
      ∧ r.1.dirty = true
      ∧ r.1.data.Nonce = c.data.Nonce
      ∧ r.1.code = c.code
      ∧ r.1.data.CodeHash = c.data.CodeHash
      ∧ r.1.storage = c.storage
      ∧ r.1.data.Root = c.data.Root) := by
  refine ⟨⟨rfl, rfl, rfl, rfl, rfl, rfl, rfl⟩, ?_, ?_⟩
  · refine ⟨(StateObject.SetBalance c (some (w.newInt (w.intAt bp + w.intAt ap)).1),
        (w.newInt (w.intAt bp + w.intAt ap)).2),
      by simp only [StateObject.AddBalance, hb], ?_, rfl, rfl, rfl, rfl, rfl, rfl⟩
    simp only [StateObject.balanceValue, StateObject.SetBalance, hb]
    exact World.intAt_newInt w _
  · refine ⟨(StateObject.SetBalance c (some (w.newInt (w.intAt bp - w.intAt ap)).1),
        (w.newInt (w.intAt bp - w.intAt ap)).2),
      by simp only [StateObject.SubBalance, hb], ?_, rfl, rfl, rfl, rfl, rfl, rfl⟩
    simp only [StateObject.balanceValue, StateObject.SetBalance, hb]
    exact World.intAt_newInt w _

/-- A use of `C12_balance_arithmetic`: subtracting 5 from the balance 0 of the sample
object gives the balance -5. -/
theorem C12_balance_arithmetic_witness :
    sampleObject.1.data.Balance = some 0
    ∧ (sampleObject.2.newInt 5).2.intAt 1 = 5
    ∧ ∃ r, StateObject.SubBalance sampleObject.1 (some 1) (sampleObject.2.newInt 5).2 = some r
      ∧ StateObject.balanceValue r.1 r.2 = -5 :=
  ⟨by decide, by decide,
    (C12_balance_arithmetic sampleObject.1 (sampleObject.2.newInt 5).2 0 1
      (by decide)).2.2.imp fun _ h => ⟨h.1, h.2.1.trans (by decide)⟩⟩

/-- C13: immediately after `c = o.Copy(db)` the copy has the address, nonce, balance
value, storage root, code hash, cached code size and loaded code of `o`, the same
`remove`, `dirty`, `dirtyCode` and `deleted` flags, and a storage cache that is again a
map and binds every key exactly as the cache of `o` does (`o` being an object as
`NewObject` makes them: its code hash is set and its cache holds each key once). -/
theorem C13_Copy_observationally_equal (H : Hasher) (db : Database) (o c : StateObject)
    (w w1 : World) (hcopy : StateObject.Copy H db o w = some (c, w1))
    (hs : Storage.WF o.storage) (hch : o.data.CodeHash ≠ none) :
    StateObject.Address c = StateObject.Address o
    ∧ StateObject.Nonce c = StateObject.Nonce o
    ∧ StateObject.balanceValue c w1 = StateObject.balanceValue o w
    ∧ c.data.Root = o.data.Root
    ∧ StateObject.CodeHash c = StateObject.CodeHash o
    ∧ c.data.codeSize = o.data.codeSize
    ∧ c.code = o.code
    ∧ c.remove = o.remove ∧ c.dirty = o.dirty ∧ c.dirtyCode = o.dirtyCode
    ∧ c.deleted = o.deleted
    ∧ Storage.WF c.storage
    ∧ (∀ k, Storage.get c.storage k = Storage.get o.storage k)
    ∧ (∀ k, Storage.get (Storage.Copy o.storage) k = Storage.get o.storage k) := by
  obtain ⟨hw, hc⟩ := StateObject.Copy_eq H db o c w w1 hcopy
  subst hw
  subst hc
  refine ⟨rfl, rfl, rfl, rfl, ?_, rfl, rfl, rfl, rfl, rfl, rfl, Storage.WF_Copy _,
    fun k => Storage.get_Copy _ k hs, fun k => Storage.get_Copy _ k hs⟩
  simp only [StateObject.CodeHash]
  cases hc : o.data.CodeHash with
  | none => exact absurd hc hch
  | some x => rfl

/-- A use of `C13_Copy_observationally_equal`: the copy of the written sample object. -/
theorem C13_Copy_observationally_equal_witness :
    ∃ c, StateObject.Copy sampleHasher sampleDb sampleWritten sampleObject.2
        = some (c, sampleObject.2)
      ∧ Storage.get c.storage sampleKey = some sampleValue
      ∧ c.dirty = true :=
  ⟨(StateObject.Copy sampleHasher sampleDb sampleWritten sampleObject.2).get (by decide) |>.1,
    by decide,
    ((C13_Copy_observationally_equal sampleHasher sampleDb sampleWritten _ sampleObject.2
      sampleObject.2 (by decide) (by unfold Storage.WF Storage.keys; decide)
      (by decide)).2.2.2.2.2.2.2.2.2.2.2.2.1 sampleKey).trans (by decide),
    (C13_Copy_observationally_equal sampleHasher sampleDb sampleWritten _ sampleObject.2
      sampleObject.2 (by decide) (by unfold Storage.WF Storage.keys; decide)
      (by decide)).2.2.2.2.2.2.2.2.1.trans (by decide)⟩

end state

namespace crypto

/-- C14: PKCS #7 padding round-trips.  For every byte string `x`, `PKCS7Unpad` of
`PKCS7Pad x` is the non-nil slice `x`; the padded string has a positive length that is
a multiple of 16 and exceeds the length of `x` by some `p` between 1 and 16, and its
last `p` bytes all equal `p`. -/
theorem C14_PKCS7_roundtrip (x : List state.Byte) :
    PKCS7Unpad (PKCS7Pad x) = some x
    ∧ (PKCS7Pad x).length % 16 = 0
    ∧ 0 < (PKCS7Pad x).length
    ∧ ∃ p : Nat, 1 ≤ p ∧ p ≤ 16 ∧ (PKCS7Pad x).length = x.length + p
        ∧ (PKCS7Pad x).drop x.length = List.replicate p (state.Byte.ofNat p)
        ∧ (state.Byte.ofNat p).val = p := by
  have hp1 : 1 ≤ 16 - x.length % 16 := by omega
  have hp2 : 16 - x.length % 16 ≤ 16 := by omega
  have hval : (state.Byte.ofNat (16 - x.length % 16)).val = 16 - x.length % 16 := by
    simp only [state.Byte.ofNat]
    omega
  have hlen : (PKCS7Pad x).length = x.length + (16 - x.length % 16) := by
    rw [PKCS7Pad_eq]; simp
  refine ⟨?_, by rw [hlen]; omega, by rw [hlen]; omega, 16 - x.length % 16, hp1, hp2, hlen,
    by rw [PKCS7Pad_eq]; simp, hval⟩
  have hlast : (PKCS7Pad x).getD ((PKCS7Pad x).length - 1) 0
      = state.Byte.ofNat (16 - x.length % 16) := by
    rw [hlen, PKCS7Pad_eq]
    exact getD_append_replicate x _ _ _ (by omega) (by omega)
  have hne : state.Byte.ofNat (16 - x.length % 16) ≠ 0 := by
    intro h
    have := congrArg Fin.val h
    rw [hval] at this
    simp at this
    omega
  unfold PKCS7Unpad
  simp only [hlast, hval]
  rw [if_neg (by rw [hlen]; omega), if_neg (by rw [hlen]; unfold aesBlockSize; omega),
    if_neg hne]
  have hall : (List.range (16 - x.length % 16)).all
      (fun j => decide ((PKCS7Pad x).getD ((PKCS7Pad x).length - 1 - j) 0
        = state.Byte.ofNat (16 - x.length % 16))) = true := by
    rw [List.all_eq_true]
    intro j hj
    have hj' : j < 16 - x.length % 16 := List.mem_range.1 hj
    rw [decide_eq_true_eq, hlen, PKCS7Pad_eq]
    exact getD_append_replicate x _ _ _ (by omega) (by omega)
  rw [if_pos hall, hlen]
  have : x.length + (16 - x.length % 16) - (16 - x.length % 16) = x.length := by omega
  rw [this, PKCS7Pad_eq, List.take_left']
  rfl

end crypto

namespace common

/-- C15: on the semaphore of the test `TestCntSemaCountSimple` (capacity 2000, value 0
after two acquires of 1000, nothing released) a third `Acquire(1000, timeout)` whose
timer broadcast is sent before the caller waits gets no wake-up and never returns,
where the test expects `errAcquireTimeout`; the call returns that error, with the value
unchanged, only when the broadcast of the timer reaches the waiting caller. -/
theorem C15_Acquire_lost_wakeup_blocks :
    cntSema.Acquire (NewCntSema 2000) 1000 [] = some (none, { value := 1000, capacity := 2000 })
    ∧ cntSema.Acquire { value := 1000, capacity := 2000 } 1000 []
        = some (none, { value := 0, capacity := 2000 })
    ∧ cntSema.Acquire { value := 0, capacity := 2000 } 1000 [] = none
    ∧ cntSema.Acquire { value := 0, capacity := 2000 } 1000 [Wake.expire]
        = some (some errAcquireTimeout, { value := 0, capacity := 2000 }) := by
  decide

/-- C16: for every request above the capacity, `Acquire` fails with the error
"requested amount n exceeds semaphore capacity c" whatever the value and without any
wake-up (it does not wait), and the semaphore is unchanged. -/
theorem C16_Acquire_over_capacity (s : cntSema) (n : Nat) (wakes : List Wake)
    (h : n > s.capacity) :
    s.Acquire n wakes
        = some (some ("requested amount " ++ toString n ++ " exceeds semaphore capacity "
            ++ toString s.capacity), s)
    ∧ s.Acquire n [] = s.Acquire n wakes := by
  simp [cntSema.Acquire, h]

/-- A use of `C16_Acquire_over_capacity`: the over-capacity acquire of the test
`TestCntSemaCountSimple`. -/
theorem C16_Acquire_over_capacity_witness :
    cntSema.Acquire (NewCntSema 2000) 2001 []
      = some (some "requested amount 2001 exceeds semaphore capacity 2000", NewCntSema 2000) :=
  ((C16_Acquire_over_capacity (NewCntSema 2000) 2001 [] (by decide)).1).trans (by decide)

/-- C17: on a fresh semaphore of capacity 2000 (value 2000), `Release(4294967295)`
returns nil and leaves the value 1999: the `uint32` sum `v+n` wraps around to 1999,
which passes the capacity check. -/
theorem C17_Release_wraps_around :
    cntSema.Release (NewCntSema 2000) 4294967295 = (none, { value := 1999, capacity := 2000 })
    ∧ 4294967295 < 2 ^ 32
    ∧ (NewCntSema 2000).value + 4294967295 > (NewCntSema 2000).capacity := by
  decide

end common

namespace filter

end filter

namespace state

/-- C19: after `UpdateRoot`, for every key of the storage cache the trie holds no entry
when the cached value is the zero digest and otherwise holds the encoding of the
value's bytes without leading zeros; the bindings of keys absent from the cache are
those of the trie the object was bound to, the cache is unchanged, and the storage
root is the hash of the trie (the cache holding each key once, and a handle already
set being a valid one). -/
theorem C19_UpdateRoot_flushes_cache (H : Hasher) (db : Database) (self : StateObject)
    (w : World) (hs : Storage.WF self.storage)
    (hp : ∀ p, self.trie = some p → p < w.tries.length) :
    (∀ k v, Storage.get self.storage k = some v →
        entriesGet k.bytes
            ((StateObject.UpdateRoot H db self w).1.trieOf
              (StateObject.UpdateRoot H db self w).2).entries
          = if v = Hash.zero then none else some (rlpEncodeBytes (TrimLeft v.bytes)))
    ∧ (∀ kb : List Byte, (∀ e ∈ self.storage, e.1.bytes ≠ kb) →
        entriesGet kb
            ((StateObject.UpdateRoot H db self w).1.trieOf
              (StateObject.UpdateRoot H db self w).2).entries
          = entriesGet kb
              ((StateObject.initTrie H db self w).1.trieOf
                (StateObject.initTrie H db self w).2).entries)
    ∧ (StateObject.UpdateRoot H db self w).1.storage = self.storage
    ∧ (StateObject.UpdateRoot H db self w).1.data.Root
        = ((StateObject.UpdateRoot H db self w).1.trieOf
            (StateObject.UpdateRoot H db self w).2).Hash H := by
  have hT : (StateObject.UpdateRoot H db self w).1.trieOf (StateObject.UpdateRoot H db self w).2
      = self.storage.foldl StateObject.flushEntry
          ((StateObject.initTrie H db self w).1.trieOf (StateObject.initTrie H db self w).2) :=
    StateObject.trieOf_updateTrie H db self w hp
  refine ⟨?_, ?_, ?_, rfl⟩
  · intro k v hk
    rw [hT, flush_get, flushGet_of_get _ k v _ hs hk]
    rfl
  · intro kb hkb
    rw [hT, flush_get, flushGet_of_no_match _ _ _ hkb]
  · exact StateObject.updateTrie_storage H db self w

/-- A use of `C19_UpdateRoot_flushes_cache`: the written sample object. -/
theorem C19_UpdateRoot_flushes_cache_witness :
    Storage.get sampleWritten.storage sampleKey = some sampleValue
    ∧ entriesGet sampleKey.bytes
        ((StateObject.UpdateRoot sampleHasher sampleDb sampleWritten sampleObject.2).1.trieOf
          (StateObject.UpdateRoot sampleHasher sampleDb sampleWritten sampleObject.2).2).entries
      = some (rlpEncodeBytes (TrimLeft sampleValue.bytes)) :=
  ⟨by decide,
    ((C19_UpdateRoot_flushes_cache sampleHasher sampleDb sampleWritten sampleObject.2
      (by unfold Storage.WF Storage.keys; decide)
      (by intro p hp; cases hp; decide)).1 sampleKey sampleValue (by decide)).trans
      (by decide)⟩

/-- C20: `GetState` for a key absent from the cache returns the decoded trie entry
padded to the digest width, the zero value when the trie has no entry; the key is
cached with the result exactly when the result is not zero; the `dirty` flag, every
other cache entry, the trie the object is bound to and the tries already in the heap
are left as they were. -/
theorem C20_GetState_on_miss (H : Hasher) (db : Database) (self : StateObject)
    (k : Hash) (w : World) (hmiss : Storage.get self.storage k = none) :
    (StateObject.GetState H db self k w).1
        = BytesToHash (rlpDecodeBytes
            (((StateObject.initTrie H db self w).1.trieOf
              (StateObject.initTrie H db self w).2).Get k.bytes))
    ∧ (entriesGet k.bytes ((StateObject.initTrie H db self w).1.trieOf
          (StateObject.initTrie H db self w).2).entries = none →
        (StateObject.GetState H db self k w).1 = Hash.zero)
    ∧ Storage.get (StateObject.GetState H db self k w).2.1.storage k
        = (if (StateObject.GetState H db self k w).1 = Hash.zero then none
           else some (StateObject.GetState H db self k w).1)
    ∧ ((StateObject.GetState H db self k w).1 = Hash.zero →
        (StateObject.GetState H db self k w).2.1.storage = self.storage)
    ∧ (StateObject.GetState H db self k w).2.1.dirty = self.dirty
    ∧ (∀ k', k' ≠ k →
        Storage.get (StateObject.GetState H db self k w).2.1.storage k'
          = Storage.get self.storage k')
    ∧ (StateObject.GetState H db self k w).2.1.trieOf (StateObject.GetState H db self k w).2.2
        = (StateObject.initTrie H db self w).1.trieOf (StateObject.initTrie H db self w).2
    ∧ (∀ p, p < w.tries.length →
        (StateObject.GetState H db self k w).2.2.trieAt p = w.trieAt p) := by
  have hv := StateObject.GetState_of_miss H db self k w hmiss
  have hobj : (StateObject.GetState H db self k w).2
      = if (StateObject.GetState H db self k w).1 ≠ Hash.zero then
          ({ (StateObject.initTrie H db self w).1 with
              storage := Storage.set (StateObject.initTrie H db self w).1.storage k
                (StateObject.GetState H db self k w).1 },
            (StateObject.initTrie H db self w).2)
        else StateObject.initTrie H db self w := by
    rw [hv]
    unfold StateObject.GetState
    rw [hmiss]
    simp only
    split <;> rfl
  refine ⟨hv, ?_, ?_, ?_, ?_, ?_, ?_, ?_⟩
  · intro hnone
    rw [hv]
    simp only [SecureTrie.Get, hnone, Option.getD_none]
    exact decode_absent
  all_goals
    rw [hobj]
    by_cases hz : (StateObject.GetState H db self k w).1 = Hash.zero
  · simp [hz, StateObject.initTrie_storage, hmiss]
  · simp [hz, Storage.get_set_self]
  · simp [hz, StateObject.initTrie_storage]
  · simp [hz]
  · simp [hz, StateObject.initTrie_dirty]
  · simp [hz, StateObject.initTrie_dirty]
  · intro k' hk'
    simp [hz, StateObject.initTrie_storage]
  · intro k' hk'
    simp only [hz, ne_eq, not_false_eq_true, if_true]
    rw [Storage.get_set_ne _ _ hk', StateObject.initTrie_storage]
  · simp [hz]
  · simp only [hz, ne_eq, not_false_eq_true, if_true]
    rfl
  · intro p hp
    simp only [hz, ne_eq, not_true_eq_false, if_false]
    exact StateObject.initTrie_trieAt H db self w p hp
  · intro p hp
    simp only [hz, ne_eq, not_false_eq_true, if_true]
    exact StateObject.initTrie_trieAt H db self w p hp

/-- A use of `C20_GetState_on_miss`: an object on the synced sample trie with an
empty cache reads `sampleValue` and caches it. -/
theorem C20_GetState_on_miss_witness :
    Storage.get sampleObject.1.storage sampleKey = none
    ∧ (StateObject.GetState sampleHasher sampleDb sampleObject.1 sampleKey sampleSynced.2).1
        = sampleValue
    ∧ Storage.get (StateObject.GetState sampleHasher sampleDb sampleObject.1 sampleKey
        sampleSynced.2).2.1.storage sampleKey = some sampleValue :=
  ⟨by decide, by decide,
    (C20_GetState_on_miss sampleHasher sampleDb sampleObject.1 sampleKey sampleSynced.2
      (by decide)).2.2.1.trans (by decide)⟩

/-- C21: a storage trie that fails to open is not an error of the call.  `initTrie`
binds the object to an empty trie and records the failure when no error is recorded
yet (an earlier error stays); `GetState` returns the zero value for every uncached
key, on the object as it was and on the object after `initTrie`; and every later
`initTrie`, over any database, returns the object and the heap as they are. -/
theorem C21_trie_open_failure_deferred (H : Hasher) (db : Database) (c : StateObject)
    (w : World) (err : String) (ht : c.trie = none)
    (hf : NewSecure H c.data.Root db = .error err) :
    (StateObject.initTrie H db c w).1.trieOf (StateObject.initTrie H db c w).2
        = SecureTrie.empty
    ∧ (c.dbErr = none →
        (StateObject.initTrie H db c w).1.dbErr = some ("can't create storage trie: " ++ err))
    ∧ (∀ e, c.dbErr = some e → (StateObject.initTrie H db c w).1.dbErr = some e)
    ∧ (∀ k, Storage.get c.storage k = none →
        (StateObject.GetState H db c k w).1 = Hash.zero)
    ∧ (∀ (db2 : Database) (k : Hash),
        Storage.get (StateObject.initTrie H db c w).1.storage k = none →
        (StateObject.GetState H db2 (StateObject.initTrie H db c w).1 k
          (StateObject.initTrie H db c w).2).1 = Hash.zero)
    ∧ (∀ db2 : Database,
        StateObject.initTrie H db2 (StateObject.initTrie H db c w).1
            (StateObject.initTrie H db c w).2
          = StateObject.initTrie H db c w) := by
  have hi := StateObject.initTrie_of_open_failure H db c w err ht hf
  have htrie : (StateObject.initTrie H db c w).1.trie
      = some (w.newTrie SecureTrie.empty).1 := by
    rw [hi]; exact StateObject.setError_trie _ _
  have hT : (StateObject.initTrie H db c w).1.trieOf (StateObject.initTrie H db c w).2
      = SecureTrie.empty := by
    simp only [StateObject.trieOf, htrie]
    rw [hi]
    exact World.trieAt_newTrie w SecureTrie.empty
  have hnoop : ∀ db2 : Database,
      StateObject.initTrie H db2 (StateObject.initTrie H db c w).1
          (StateObject.initTrie H db c w).2
        = StateObject.initTrie H db c w :=
    fun db2 => StateObject.initTrie_of_some H db2 _ _ _ htrie
  refine ⟨hT, ?_, ?_, ?_, ?_, hnoop⟩
  · intro hn
    rw [hi]
    simp [StateObject.setError, hn]
  · intro e he
    exact StateObject.initTrie_dbErr_of_some H db c w e he
  · intro k hk
    rw [StateObject.GetState_of_miss H db c k w hk, hT]
    exact decode_absent
  · intro db2 k hk
    rw [StateObject.GetState_of_miss H db2 _ k _ hk, hnoop db2, hT]
    exact decode_absent

/-- A use of `C21_trie_open_failure_deferred`: the object whose account names a root
that the store does not hold. -/
theorem C21_trie_open_failure_deferred_witness :
    NewSecure sampleHasher sampleBroken.1.data.Root sampleDb
      = .error ("missing trie node " ++ hex (BytesToHash [9]).bytes)
    ∧ (StateObject.GetState sampleHasher sampleDb sampleBroken.1 sampleKey sampleBroken.2).1
      = Hash.zero :=
  ⟨by rfl,
    (C21_trie_open_failure_deferred sampleHasher sampleDb sampleBroken.1 sampleBroken.2
      ("missing trie node " ++ hex (BytesToHash [9]).bytes) (by decide)
      (by rfl)).2.2.2.1 sampleKey (by decide)⟩

/-- C22 (as stated, refuted): on an object whose code hash `[7]` the store does not
hold, the first `Code` call reads the store, fails and leaves the code nil, and the
second `Code` call reads the store again. -/
theorem C22_failed_code_read_is_retried :
    (sampleDb.Get [7]).1 = none
    ∧ sampleBrokenCode.2.dbReads = []
    ∧ (StateObject.codeCalls sampleHasher sampleDb sampleBrokenCode
        [CodeCall.code]).2.dbReads = [[7]]
    ∧ (StateObject.codeCalls sampleHasher sampleDb sampleBrokenCode
        [CodeCall.code, CodeCall.code]).2.dbReads = [[7], [7]] := by
  decide

/-- C22 (amended): over every sequence of `Code` and `CodeSize` calls on one object the
code store is read at most once when it returns bytes for the code hash of the object;
it is never read when the code hash equals the empty-code constant (and no code is
loaded), in which case `Code` returns nil, the object and its recorded error are left
as they are.  A read that fails is not remembered: `Code` returns nil, records the
error "can't load code hash h: err" when no error is recorded (an earlier error stays),
leaves the code nil and the account record as it was, and has read the store once; the
next `Code` call reads the store again, and so does each of any number of `Code` calls. -/
theorem C22_code_read_at_most_once (H : Hasher) (db : Database) (o : StateObject)
    (w : World) (calls : List CodeCall) :
    ((db.Get (o.data.CodeHash.getD [])).1 ≠ none
        ∨ bytesEqual (o.data.CodeHash.getD []) (emptyCodeHash H) = true →
      (StateObject.codeCalls H db (o, w) calls).2.dbReads.length ≤ w.dbReads.length + 1)
    ∧ (bytesEqual (o.data.CodeHash.getD []) (emptyCodeHash H) = true → o.code = none →
        StateObject.Code H db o w = (none, o, w)
        ∧ (StateObject.codeCalls H db (o, w) calls).2.dbReads = w.dbReads
        ∧ (StateObject.codeCalls H db (o, w) calls).1.dbErr = o.dbErr)
    ∧ (∀ err, o.code = none →
        bytesEqual (o.data.CodeHash.getD []) (emptyCodeHash H) = false →
        db.Get (o.data.CodeHash.getD []) = (none, some err) →
        (StateObject.Code H db o w).1 = none
        ∧ (StateObject.Code H db o w).2.1.code = none
        ∧ (StateObject.Code H db o w).2.1.data = o.data
        ∧ (o.dbErr = none → (StateObject.Code H db o w).2.1.dbErr
            = some ("can't load code hash " ++ hex (o.data.CodeHash.getD []) ++ ": " ++ err))
        ∧ (∀ e, o.dbErr = some e → (StateObject.Code H db o w).2.1.dbErr = some e)
        ∧ (StateObject.Code H db o w).2.2.dbReads = w.dbReads ++ [o.data.CodeHash.getD []]
        ∧ (StateObject.Code H db (StateObject.Code H db o w).2.1
              (StateObject.Code H db o w).2.2).2.2.dbReads
            = w.dbReads ++ [o.data.CodeHash.getD [], o.data.CodeHash.getD []]
        ∧ ∀ k, (StateObject.codeCalls H db (o, w)
              (List.replicate k CodeCall.code)).2.dbReads
            = w.dbReads ++ List.replicate k (o.data.CodeHash.getD [])) := by
  refine ⟨?_, ?_, ?_⟩
  · intro h
    rcases h with h | h
    · exact StateObject.codeCalls_reads_le H db calls (o, w) h
    · have := (StateObject.codeCalls_of_settled H db calls (o, w) (Or.inr h)).1
      rw [this]
      exact Nat.le_succ _
  · intro he hc
    have hs : StateObject.Settled H o := Or.inr he
    refine ⟨?_, StateObject.codeCalls_of_settled H db calls (o, w) hs⟩
    rw [StateObject.Code_of_settled H db o w hs, hc]
  · intro err hc hb hg
    have h1 := StateObject.Code_of_failed_read H db o w err hc hb hg
    have hk := fun k => (StateObject.codeCalls_of_failed_reads H db k o w err hc hb hg).1
    refine ⟨by rw [h1], by rw [h1], by rw [h1]; exact StateObject.setError_data _ _, ?_, ?_,
      by rw [h1], ?_, hk⟩
    · intro hn
      rw [h1]
      exact StateObject.setError_dbErr_of_none _ _ hn
    · intro e he
      rw [h1]
      show (StateObject.setError o _).dbErr = some e
      rw [StateObject.setError_of_some _ _ e he]
      exact he
    · exact hk 2

/-- A use of `C22_code_read_at_most_once`: the store holds the code under `[7]`, and
three calls read it once; in the store that does not hold it, the first `Code` call
records the error and three `Code` calls read three times. -/
theorem C22_code_read_at_most_once_witness :
    (sampleCodeDb.Get [7]).1 = some [1, 2, 3]
    ∧ (StateObject.codeCalls sampleHasher sampleCodeDb sampleBrokenCode
        [CodeCall.code, CodeCall.codeSize, CodeCall.code]).2.dbReads = [[7]]
    ∧ (StateObject.codeCalls sampleHasher sampleCodeDb sampleBrokenCode
        [CodeCall.code, CodeCall.codeSize, CodeCall.code]).2.dbReads.length
      ≤ sampleBrokenCode.2.dbReads.length + 1
    ∧ sampleDb.Get [7] = (none, some "not found")
    ∧ (StateObject.Code sampleHasher sampleDb sampleBrokenCode.1
        sampleBrokenCode.2).2.1.dbErr = some "can't load code hash 07: not found"
    ∧ (StateObject.codeCalls sampleHasher sampleDb (sampleBrokenCode.1, sampleBrokenCode.2)
        (List.replicate 3 CodeCall.code)).2.dbReads = [[7], [7], [7]] :=
  ⟨by decide, by decide,
    (C22_code_read_at_most_once sampleHasher sampleCodeDb sampleBrokenCode.1
      sampleBrokenCode.2 [CodeCall.code, CodeCall.codeSize, CodeCall.code]).1
      (Or.inl (by decide)),
    by decide,
    ((C22_code_read_at_most_once sampleHasher sampleDb sampleBrokenCode.1
      sampleBrokenCode.2 []).2.2 "not found" (by decide) (by decide) (by decide)).2.2.2.1
      (by decide) |>.trans (by decide),
    ((C22_code_read_at_most_once sampleHasher sampleDb sampleBrokenCode.1
      sampleBrokenCode.2 []).2.2 "not found" (by decide) (by decide)
      (by decide)).2.2.2.2.2.2.2 3⟩

/-- C23: the object created by `NewObject` from the `CopyAccount` of an account record
without a cached code size has the code size 0 cached, while the code its `Code`
returns from the store has three bytes: `CodeSize` returns 0 and reads nothing. -/
theorem C23_copied_account_code_size_is_stale :
    sampleCodeAccount.codeSize = none
    ∧ sampleCopiedAccountObject.1.data.codeSize = some 0
    ∧ (StateObject.CodeSize sampleHasher sampleCodeDb sampleCopiedAccountObject.1
        sampleCopiedAccountObject.2).1 = 0
    ∧ (StateObject.Code sampleHasher sampleCodeDb sampleCopiedAccountObject.1
        sampleCopiedAccountObject.2).1 = some [1, 2, 3]
    ∧ (StateObject.CodeSize sampleHasher sampleCodeDb
        (StateObject.Code sampleHasher sampleCodeDb sampleCopiedAccountObject.1
          sampleCopiedAccountObject.2).2.1
        (StateObject.Code sampleHasher sampleCodeDb sampleCopiedAccountObject.1
          sampleCopiedAccountObject.2).2.2).1 = 0 := by
  decide

/-- C24: every write marks the object dirty and nothing un-marks it.  `SetState`,
`SetBalance`, `AddBalance`, `SubBalance`, `SetNonce`, `SetCode` and `MarkForDeletion`
leave `dirty` set (`SetCode` also `dirtyCode`, `MarkForDeletion` also `remove`);
`SetState` changes the cache entry of its key only and neither the account record (the
storage root included) nor the trie handle nor, having no access to it, the heap; and
no operation resets a set `dirty`, `dirtyCode` or `remove` flag: reads and syncs leave
the three flags as they are. -/
theorem C24_writes_mark_dirty (H : Hasher) (db dbw : Database) (self : StateObject)
    (w : World) (key value : Hash) (amount : Option Ptr) (nonce : Nat)
    (code : Option (List Byte)) :
    ((StateObject.SetState self key value).dirty = true
      ∧ (StateObject.SetBalance self amount).dirty = true
      ∧ (∀ r, StateObject.AddBalance self amount w = some r → r.1.dirty = true)
      ∧ (∀ r, StateObject.SubBalance self amount w = some r → r.1.dirty = true)
      ∧ (StateObject.SetNonce self nonce).dirty = true
      ∧ (StateObject.SetCode H self code).dirty = true
      ∧ (StateObject.SetCode H self code).dirtyCode = true
      ∧ (StateObject.MarkForDeletion self).dirty = true
      ∧ (StateObject.MarkForDeletion self).remove = true)
    ∧ (Storage.get (StateObject.SetState self key value).storage key = some value
      ∧ (∀ k, k ≠ key →
          Storage.get (StateObject.SetState self key value).storage k
            = Storage.get self.storage k)
      ∧ (StateObject.SetState self key value).data = self.data
      ∧ (StateObject.SetState self key value).trie = self.trie)
    ∧ (flagsKept self (StateObject.SetState self key value)
      ∧ flagsKept self (StateObject.SetBalance self amount)
      ∧ (∀ r, StateObject.AddBalance self amount w = some r → flagsKept self r.1)
      ∧ (∀ r, StateObject.SubBalance self amount w = some r → flagsKept self r.1)
      ∧ flagsKept self (StateObject.SetNonce self nonce)
      ∧ flagsKept self (StateObject.SetCode H self code)
      ∧ flagsKept self (StateObject.MarkForDeletion self)
      ∧ flagsKept self (StateObject.GetState H db self key w).2.1
      ∧ flagsKept self (StateObject.Code H db self w).2.1
      ∧ flagsKept self (StateObject.CodeSize H db self w).2.1
      ∧ flagsKept self (StateObject.UpdateRoot H db self w).1
      ∧ flagsKept self (StateObject.CommitTrie H db dbw self w).2.1) := by
  have hadd : ∀ r, StateObject.AddBalance self amount w = some r →
      r.1.dirty = true ∧ flagsKept self r.1 := by
    intro r hr
    unfold StateObject.AddBalance at hr
    split at hr
    · cases hr
      exact ⟨rfl, fun _ => rfl, fun h => h, fun h => h⟩
    · cases hr
  have hsub : ∀ r, StateObject.SubBalance self amount w = some r →
      r.1.dirty = true ∧ flagsKept self r.1 := by
    intro r hr
    unfold StateObject.SubBalance at hr
    split at hr
    · cases hr
      exact ⟨rfl, fun _ => rfl, fun h => h, fun h => h⟩
    · cases hr
  have keep : ∀ b : StateObject,
      (b.dirty = self.dirty ∧ b.dirtyCode = self.dirtyCode ∧ b.remove = self.remove) →
      flagsKept self b := by
    intro b hb
    exact ⟨fun h => hb.1.trans h, fun h => hb.2.1.trans h, fun h => hb.2.2.trans h⟩
  refine ⟨⟨rfl, rfl, fun r hr => (hadd r hr).1, fun r hr => (hsub r hr).1, rfl, rfl, rfl,
      rfl, rfl⟩,
    ⟨Storage.get_set_self _ _ _, fun k hk => Storage.get_set_ne _ _ hk, rfl, rfl⟩,
    ⟨fun _ => rfl, fun h => h, fun h => h⟩, ⟨fun _ => rfl, fun h => h, fun h => h⟩,
    fun r hr => (hadd r hr).2, fun r hr => (hsub r hr).2,
    ⟨fun _ => rfl, fun h => h, fun h => h⟩, ⟨fun _ => rfl, fun _ => rfl, fun h => h⟩,
    ⟨fun _ => rfl, fun h => h, fun _ => rfl⟩,
    keep _ (StateObject.GetState_flags H db self key w),
    keep _ (StateObject.Code_flags H db self w),
    keep _ (StateObject.CodeSize_flags H db self w),
    keep _ (StateObject.updateTrie_flags H db self w),
    keep _ (StateObject.CommitTrie_flags H db dbw self w)⟩

end state

namespace crypto

/-- C25: the plaintext framing of the key store round-trips.  For every key byte string
`k` whose checksum `Sha3 k` has 32 bytes, the plaintext `StoreKey` encrypts is
`PKCS7Pad (k ++ Sha3 k)`; `PKCS7Unpad` gives back `k ++ Sha3 k`, splitting off the last
32 bytes gives `k` and the checksum, the comparison succeeds and the steps of
`DecryptKey` after the decryption return `k` without an error. -/
theorem C25_keystore_framing_roundtrip (Sha3 : List state.Byte → List state.Byte)
    (k : List state.Byte) (h : (Sha3 k).length = 32) :
    storeKeyPlaintext Sha3 k = PKCS7Pad (k ++ Sha3 k)
    ∧ PKCS7Unpad (storeKeyPlaintext Sha3 k) = some (k ++ Sha3 k)
    ∧ (k ++ Sha3 k).take ((k ++ Sha3 k).length - 32) = k
    ∧ (k ++ Sha3 k).drop ((k ++ Sha3 k).length - 32) = Sha3 k
    ∧ state.bytesEqual (Sha3 k) ((k ++ Sha3 k).drop ((k ++ Sha3 k).length - 32)) = true
    ∧ decryptKeyPlaintext Sha3 (storeKeyPlaintext Sha3 k) = some (.ok k) := by
  have hl : (k ++ Sha3 k).length - 32 = k.length := by
    rw [List.length_append, h]; omega
  have ht : (k ++ Sha3 k).take ((k ++ Sha3 k).length - 32) = k := by
    rw [hl, List.take_left']
    rfl
  have hd : (k ++ Sha3 k).drop ((k ++ Sha3 k).length - 32) = Sha3 k := by
    rw [hl, List.drop_left']
    rfl
  have hu : PKCS7Unpad (storeKeyPlaintext Sha3 k) = some (k ++ Sha3 k) :=
    PKCS7Unpad_PKCS7Pad _
  refine ⟨rfl, hu, ht, hd, by rw [hd]; simp [state.bytesEqual], ?_⟩
  unfold decryptKeyPlaintext
  rw [hu]
  have hlen : ¬ (k ++ Sha3 k).length < 32 := by
    rw [List.length_append, h]; omega
  simp only [hlen, if_false, ht, hd, state.bytesEqual, decide_True, not_true_eq_false]

/-- A use of `C25_keystore_framing_roundtrip`: a three-byte key under a checksum
function that returns 32 zero bytes. -/
theorem C25_keystore_framing_roundtrip_witness :
    decryptKeyPlaintext (fun _ => List.replicate 32 0)
        (storeKeyPlaintext (fun _ => List.replicate 32 0) [1, 2, 3])
      = some (.ok [1, 2, 3]) :=
  (C25_keystore_framing_roundtrip (fun _ => List.replicate 32 0) [1, 2, 3]
    (by decide)).2.2.2.2.2

end crypto

namespace secp256k1

/-- C26: `VerifySignatureValidity` returns true exactly for the signatures of 65 bytes
whose byte 32 has the bit `0x80` clear and whose byte 64 is less than 4; and
`VerifySignature` returns an error for every signature (nil included) that
`VerifySignatureValidity` rejects, whatever the message, the public key and the
result of the recovery. -/
theorem C26_VerifySignatureValidity_iff
    (recoverCompact : List state.Byte → List state.Byte → Nat × List state.Byte × Nat)
    (msg pubkey1 : Option (List state.Byte)) (sig : List state.Byte) :
    (VerifySignatureValidity sig = true ↔
        sig.length = 65 ∧ (sig.getD 32 0).val &&& 0x80 ≠ 0x80 ∧ (sig.getD 64 0).val < 4)
    ∧ ((sig.getD 32 0).val &&& 0x80 ≠ 0x80 ↔ (sig.getD 32 0).val < 128)
    ∧ (VerifySignatureValidity sig = false →
        VerifySignature recoverCompact msg (some sig) pubkey1 ≠ none)
    ∧ (VerifySignatureValidity [] = false
        ∧ VerifySignature recoverCompact msg none pubkey1 ≠ none) := by
  refine ⟨?_, ?_, ?_, by decide, ?_⟩
  · unfold VerifySignatureValidity
    by_cases h1 : sig.length ≠ 65
    · rw [if_pos h1]
      simp only [Bool.false_eq_true, false_iff]
      exact fun h => h1 h.1
    · rw [if_neg h1]
      by_cases h2 : (sig.getD 32 0).val &&& 0x80 = 0x80
      · rw [if_pos h2]
        simp only [Bool.false_eq_true, false_iff]
        exact fun h => h.2.1 h2
      · rw [if_neg h2]
        by_cases h3 : (sig.getD 64 0).val ≥ 4
        · rw [if_pos h3]
          simp only [Bool.false_eq_true, false_iff]
          intro h
          omega
        · rw [if_neg h3]
          simp only [true_iff]
          exact ⟨not_not.1 h1, h2, by omega⟩
  · rw [Ne, high_bit_iff]
    omega
  · intro hv
    unfold VerifySignatureValidity at hv
    cases msg with
    | none => simp [VerifySignature]
    | some m =>
      cases pubkey1 with
      | none => simp [VerifySignature]
      | some p1 =>
        show (if sig.length ≠ 65 then some "invalid signature length"
          else if p1.length ≠ 65 then some "Invalid public key length"
          else if (sig.getD 32 0).val &&& 0x80 = 0x80 then some "Signature not malleable"
          else if (sig.getD 64 0).val ≥ 4 then some "Recover byte invalid"
          else _) ≠ none
        by_cases h1 : sig.length ≠ 65
        · rw [if_pos h1]; simp
        · rw [if_neg h1] at hv ⊢
          by_cases hp : p1.length ≠ 65
          · rw [if_pos hp]; simp
          · rw [if_neg hp]
            by_cases h2 : (sig.getD 32 0).val &&& 0x80 = 0x80
            · rw [if_pos h2]; simp
            · rw [if_neg h2] at hv ⊢
              by_cases h3 : (sig.getD 64 0).val ≥ 4
              · rw [if_pos h3]; simp
              · rw [if_neg h3] at hv
                cases hv
  · cases msg <;> cases pubkey1 <;> simp [VerifySignature]

end secp256k1

namespace state

/-- C27: the copy of any object, also of one with a recorded error, has no recorded
error; and when its trie handle is set or its storage trie opens, `CommitTrie` on the
copy is not stopped: it returns what the writer returns. -/
theorem C27_Copy_drops_sticky_error (H : Hasher) (db db2 dbw : Database)
    (o c : StateObject) (w w1 : World)
    (hcopy : StateObject.Copy H db o w = some (c, w1)) :
    c.dbErr = none
    ∧ (o.trie ≠ none → (StateObject.CommitTrie H db2 dbw c w1).1 = dbw.writeFault)
    ∧ (∀ t, NewSecure H o.data.Root db2 = .ok t →
        (StateObject.CommitTrie H db2 dbw c w1).1 = dbw.writeFault) := by
  obtain ⟨hw, hc⟩ := StateObject.Copy_eq H db o c w w1 hcopy
  have herr : c.dbErr = none := by rw [hc]
  have htrie : c.trie = o.trie := by rw [hc]
  have hroot : c.data.Root = o.data.Root := by rw [hc]
  refine ⟨herr, ?_, ?_⟩
  · intro ht
    apply StateObject.CommitTrie_err_of_no_dbErr
    cases hp : o.trie with
    | none => exact absurd hp ht
    | some p =>
      rw [StateObject.updateTrie_fst,
        StateObject.initTrie_of_some H db2 c w1 p (by rw [htrie]; exact hp)]
      exact herr
  · intro t hok
    apply StateObject.CommitTrie_err_of_no_dbErr
    rw [StateObject.updateTrie_fst]
    unfold StateObject.initTrie
    cases hp : c.trie with
    | some p => exact herr
    | none =>
      simp only [hroot, hok]
      exact herr

/-- A use of `C27_Copy_drops_sticky_error`: the object that recorded the failure to
open its trie, and the commit of its copy. -/
theorem C27_Copy_drops_sticky_error_witness :
    sampleFailed.1.dbErr
      = some ("can't create storage trie: "
          ++ ("missing trie node " ++ hex (BytesToHash [9]).bytes))
    ∧ ∃ c, StateObject.Copy sampleHasher sampleDb sampleFailed.1 sampleFailed.2
        = some (c, sampleFailed.2)
      ∧ c.dbErr = none
      ∧ (StateObject.CommitTrie sampleHasher sampleDb sampleDb c sampleFailed.2).1 = none :=
  ⟨by decide,
    ((StateObject.Copy sampleHasher sampleDb sampleFailed.1 sampleFailed.2).get
      (by decide)).1,
    by decide,
    (C27_Copy_drops_sticky_error sampleHasher sampleDb sampleDb sampleDb sampleFailed.1
      ((StateObject.Copy sampleHasher sampleDb sampleFailed.1 sampleFailed.2).get
        (by decide)).1 sampleFailed.2 sampleFailed.2 (by decide)).1,
    (C27_Copy_drops_sticky_error sampleHasher sampleDb sampleDb sampleDb sampleFailed.1
      ((StateObject.Copy sampleHasher sampleDb sampleFailed.1 sampleFailed.2).get
        (by decide)).1 sampleFailed.2 sampleFailed.2 (by decide)).2.1 (by decide)⟩

/-- C28: on the synced sample trie, which stores `sampleValue` (bytes 1, 2) under
`sampleKey`, an object with an empty cache gets `sampleValue` from `GetState`, while
`ForEachStorage` passes the callback the undecoded entry for that key, the digest that
ends in the bytes `0x82`, 1, 2. -/
theorem C28_ForEachStorage_passes_undecoded_value :
    Storage.get sampleObject.1.storage sampleKey = none
    ∧ (sampleSynced.2.trieAt 0).Get sampleKey.bytes = [Byte.ofNat 0x82, 1, 2]
    ∧ (StateObject.GetState sampleHasher sampleDb sampleObject.1 sampleKey sampleSynced.2).1
        = sampleValue
    ∧ (StateObject.ForEachStorage sampleObject.1 sampleSynced.2).map
        (fun calls => lookupKey sampleKey calls)
        = some (some (BytesToHash [Byte.ofNat 0x82, 1, 2]))
    ∧ BytesToHash [Byte.ofNat 0x82, 1, 2] ≠ sampleValue := by
  decide

/-- C29: on an object fresh from `NewObject`, whose trie handle is nil, `ForEachStorage`
ends in the nil dereference of `self.trie.Iterator()`; after a first `GetState` has
opened the trie it completes. -/
theorem C29_ForEachStorage_on_fresh_object :
    (NewObject sampleHasher sampleAddress sampleAccount sampleWorld).1.trie = none
    ∧ StateObject.ForEachStorage
        (NewObject sampleHasher sampleAddress sampleAccount sampleWorld).1
        (NewObject sampleHasher sampleAddress sampleAccount sampleWorld).2 = none
    ∧ StateObject.ForEachStorage sampleObject.1 sampleObject.2 = some [] := by
  decide

/-- C30: `CopyAccount` of an account record without a cached code size returns a record
with the code size 0 cached; nonce, storage root, code hash and the nil balance are
those of the argument. -/
theorem C30_CopyAccount_caches_zero_code_size :
    sampleCodeAccount.codeSize = none
    ∧ (CopyAccount sampleCodeAccount sampleWorld).1.codeSize = some 0
    ∧ (CopyAccount sampleCodeAccount sampleWorld).1.Nonce = sampleCodeAccount.Nonce
    ∧ (CopyAccount sampleCodeAccount sampleWorld).1.Root = sampleCodeAccount.Root
    ∧ (CopyAccount sampleCodeAccount sampleWorld).1.CodeHash = sampleCodeAccount.CodeHash
    ∧ (CopyAccount sampleCodeAccount sampleWorld).1.Balance = none := by
  decide

end state

namespace common

/-- C31: in every state reached from `NewCntSema capacity` by a sequence of `Acquire`
and `Release` calls, successful or failed, returned or blocked, with any arguments and
any wake-ups, the capacity is the one given and `0 ≤ value ≤ capacity`; the value stays
a `uint32` when the capacity is one.  Every call that returns leaves the state the
sequence steps through: a later `Acquire` that returns, returns a state within the
bounds, and so does a later `Release`.  The lower bound is kept by the test `v >= n`:
an `Acquire` of `n ≤ value` takes exactly `n`, the difference does not wrap. -/
theorem C31_value_within_capacity (capacity : Nat) (calls : List SemaCall) :
    ((NewCntSema capacity).run calls).capacity = capacity
    ∧ 0 ≤ ((NewCntSema capacity).run calls).value
    ∧ ((NewCntSema capacity).run calls).value ≤ capacity
    ∧ (capacity < 2 ^ 32 → ((NewCntSema capacity).run calls).value < 2 ^ 32)
    ∧ (∀ n wakes r, ((NewCntSema capacity).run calls).Acquire n wakes = some r →
        r.2 = ((NewCntSema capacity).run (calls ++ [SemaCall.acquire n wakes]))
        ∧ r.2.capacity = capacity ∧ r.2.value ≤ capacity)
    ∧ (∀ n, (((NewCntSema capacity).run calls).Release n).2
          = ((NewCntSema capacity).run (calls ++ [SemaCall.release n]))
        ∧ (((NewCntSema capacity).run calls).Release n).2.capacity = capacity
        ∧ (((NewCntSema capacity).run calls).Release n).2.value ≤ capacity)
    ∧ (∀ n wakes, n ≤ ((NewCntSema capacity).run calls).value →
        ∃ r, ((NewCntSema capacity).run calls).Acquire n wakes = some (none, r)
          ∧ r.value + n = ((NewCntSema capacity).run calls).value) := by
  have h0 : (NewCntSema capacity).value ≤ (NewCntSema capacity).capacity := le_refl _
  have hb : ∀ cs, ((NewCntSema capacity).run cs).capacity = capacity
      ∧ ((NewCntSema capacity).run cs).value ≤ capacity :=
    fun cs => run_bound cs (NewCntSema capacity) h0
  have hsnoc : ∀ c, (NewCntSema capacity).run (calls ++ [c])
      = ((NewCntSema capacity).run calls).step c := by
    intro c
    simp only [cntSema.run, List.foldl_append, List.foldl_cons, List.foldl_nil]
  refine ⟨(hb calls).1, Nat.zero_le _, (hb calls).2, fun hc => lt_of_le_of_lt (hb calls).2 hc,
    ?_, ?_, ?_⟩
  · intro n wakes r hr
    have hs : r.2 = (NewCntSema capacity).run (calls ++ [SemaCall.acquire n wakes]) := by
      rw [hsnoc]
      exact Acquire_state _ n wakes r hr
    rw [hs]
    exact ⟨rfl, hb _⟩
  · intro n
    have hs : (((NewCntSema capacity).run calls).Release n).2
        = (NewCntSema capacity).run (calls ++ [SemaCall.release n]) := by
      rw [hsnoc]
      rfl
    rw [hs]
    exact ⟨rfl, hb _⟩
  · intro n wakes hn
    have hcap : ¬ n > ((NewCntSema capacity).run calls).capacity := by
      rw [(hb calls).1]
      have := (hb calls).2
      omega
    refine ⟨{ (NewCntSema capacity).run calls with
      value := ((NewCntSema capacity).run calls).value - n }, ?_, ?_⟩
    · unfold cntSema.Acquire
      rw [if_neg hcap]
      exact acquireLoop_of_ge _ n wakes hn
    · exact Nat.sub_add_cancel hn

end common
